import Mathlib

/-!
Verification of the hajiman prefix-code compression library.

The development shallowly embeds the Rust sources:
  * `src/lexing.rs`          — generic trie construction and the streaming lexer;
  * `src/bits_key/bits.rs`   — byte packing and unpacking for 4/6/8-bit symbols;
  * `src/characters.rs`      — frequency counting and zero-frequency smoothing;
  * `src/encoding.rs`        — Mehlhorn's recursive prefix-code builder;
  * `src/jimi.rs`            — the token codec layer.

Machine floats (`f32`) are modelled by exact rationals `ℚ`; `u8` arithmetic is
modelled on `ℕ` with explicit `% 256` wherever the Rust operation can wrap.
Rust panics and non-termination are modelled by `Option`/`Except` failure values
(the recursive functions take an explicit fuel argument; the canonical fuel used
by the top-level wrappers is large enough whenever the Rust code terminates, as
the theorems below establish).
-/

set_option maxRecDepth 8000

namespace Hajiman

/-! ### Association lists

Both per-level map implementations of `src/lexing/map.rs` (`HashMap` keyed by
`char`, dense `LetterIdIndexed` arrays) are modelled as association lists whose
`get` is first-occurrence lookup. -/

def alookup {I : Type _} {α : Type _} [DecidableEq I] : List (I × α) → I → Option α
  | [], _ => none
  | (k, v) :: rest, i => if i = k then some v else alookup rest i

def aset {I : Type _} {α : Type _} [DecidableEq I] : List (I × α) → I → α → List (I × α)
  | [], _, _ => []
  | (k, v) :: rest, i, y => if i = k then (k, y) :: rest else (k, v) :: aset rest i y

namespace lexing

/-! ### Trees (src/lexing.rs, `Tree` / `Layer` / `build_tree`) -/

inductive Tree (I : Type u) (L : Type v) where
  | leaf : L → Tree I L
  | invalid : Tree I L
  | inner : List (I × Tree I L) → Tree I L

/-- A trie level: the `M`/map layer of the Rust code (`roots : &M`). -/
abbrev TMap (I : Type u) (L : Type v) := List (I × Tree I L)

inductive Layer (I : Type u) (L : Type v) where
  | leaf : L → Layer I L
  | invalid : Layer I L
  | inner : List (L × List I) → Layer I L

/-- Construction failure: `NonPrefixFreeError`, or a Rust panic
(`Code::head` on an empty code, `Map::get_mut` on a missing key, or fuel
exhaustion standing for non-termination). -/
inductive BuildErr where
  | npf : BuildErr
  | aborted : BuildErr
deriving DecidableEq

variable {I : Type u} {L : Type v}

/-- One step of the grouping loop of `build_tree`: route one `(label, code)`
pair into the current layer via `Layer::or_inner` / `Layer::or_leaf_set_to`. -/
def buildStep [DecidableEq I] (layer : List (I × Layer I L)) :
    L × List I → Except BuildErr (List (I × Layer I L))
  | (lab, code) =>
    match code with
    | [] => .error .aborted
    | [h] =>
      match alookup layer h with
      | none => .error .aborted
      | some (.inner _) => .error .npf
      | some _ => .ok (aset layer h (.leaf lab))
    | h :: t =>
      match alookup layer h with
      | none => .error .aborted
      | some (.leaf _) => .error .npf
      | some .invalid => .ok (aset layer h (.inner [(lab, t)]))
      | some (.inner v) => .ok (aset layer h (.inner (v ++ [(lab, t)])))

def initLayer (letters : List I) : List (I × Layer I L) :=
  letters.map (fun i => (i, Layer.invalid))

/-- `build_tree`, with explicit recursion fuel (the Rust recursion descends one
letter per level, so any fuel exceeding the longest code length suffices). -/
def buildAux [DecidableEq I] (fuel : ℕ) (pairs : List (L × List I))
    (letters : List I) : Except BuildErr (TMap I L) :=
  match fuel with
  | 0 => .error .aborted
  | fuel' + 1 =>
    match pairs.foldlM buildStep (initLayer letters) with
    | .error e => .error e
    | .ok layer =>
      layer.mapM (fun e =>
        match e.2 with
        | .leaf lab => .ok (e.1, Tree.leaf lab)
        | .invalid => .ok (e.1, Tree.invalid)
        | .inner sub => (buildAux fuel' sub letters).map (fun m => (e.1, Tree.inner m)))

/-- The per-entry conversion of the grouped layer into tree nodes
(the second loop of `build_tree`), named for use in the lemmas below; it is
definitionally the function `buildAux` maps over the layer. -/
def convE [DecidableEq I] (fuel : ℕ) (letters : List I) :
    I × Layer I L → Except BuildErr (I × Tree I L) :=
  fun e =>
    match e.2 with
    | .leaf lab => Except.ok (e.1, Tree.leaf lab)
    | .invalid => Except.ok (e.1, Tree.invalid)
    | .inner sub => (buildAux fuel sub letters).map (fun mm => (e.1, Tree.inner mm))

/-- Longest code length among the pairs. -/
def maxCodeLen (pairs : List (L × List I)) : ℕ :=
  (pairs.map (fun p => p.2.length)).foldr max 0

def build_tree [DecidableEq I] (pairs : List (L × List I)) (letters : List I) :
    Except BuildErr (TMap I L) :=
  buildAux (maxCodeLen pairs + 1) pairs letters

/-! #### Analysis forms for `build_tree`

`grp`, `layerUpd` and `foldGrp` restate the grouping loop of `build_tree`
letter by letter: `grp h pairs` is the sub-collection routed to first letter
`h` (with that letter stripped), and `foldGrp` replays the loop's effect on
the single slot of letter `h`. The lemmas below prove the fold equal to this
per-letter replay. `walkT` descends a built trie along a code. -/

/-- The `(label, tail)` entries of the pairs whose code starts with `h`,
in input order. -/
def grp [DecidableEq I] (h : I) (pairs : List (L × List I)) : List (L × List I) :=
  pairs.filterMap (fun p =>
    match p.2 with
    | h' :: t => if h' = h then some (p.1, t) else none
    | [] => none)

/-- The effect of routing one entry on one letter slot
(`or_leaf_set_to` when the tail is empty, `or_inner` + push otherwise). -/
def layerUpd : Layer I L → L × List I → Except BuildErr (Layer I L)
  | ly, (lab, []) =>
    match ly with
    | .inner _ => .error .npf
    | _ => .ok (.leaf lab)
  | ly, (lab, t) =>
    match ly with
    | .leaf _ => .error .npf
    | .invalid => .ok (.inner [(lab, t)])
    | .inner v => .ok (.inner (v ++ [(lab, t)]))

/-- Replay of the grouping loop on a single letter slot (`none` stands for a
letter outside the layer's key set, whose `get_mut` would panic). -/
def foldGrp : Option (Layer I L) → List (L × List I) →
    Except BuildErr (Option (Layer I L))
  | o, [] => .ok o
  | o, e :: rest =>
    match o with
    | none => .error .aborted
    | some ly =>
      match layerUpd ly e with
      | .error b => .error b
      | .ok ly' => foldGrp (some ly') rest

/-- Walk a built trie level along a nonempty code, descending through `Inner`
nodes; returns the node reached by the last letter. -/
def walkT [DecidableEq I] : TMap I L → List I → Option (Tree I L)
  | _, [] => none
  | m, [i] => alookup m i
  | m, i :: rest =>
    match alookup m i with
    | some (.inner mm) => walkT mm rest
    | _ => none

/-! ### The streaming lexer (src/lexing.rs, `iter` and `iter_from_error`) -/

/-- `lexing::Error<W, E>`. The plain-iterator variant instantiates `E := Empty`
(the Rust never type `!`). -/
inductive Error (W : Type u) (E : Type v) where
  | unexpectedTermination : List W → Error W E
  | unexpected : List W → W → Error W E
  | invalid : W → Error W E
  | parent : E → Error W E

/-- One iteration of the pull loop in `iter::LexingIter::next`: given the root
level, the current level, the accumulated prefix and one input letter, produce
the emitted item (if any) and the new current level and prefix. -/
def step [DecidableEq I] (roots cur : TMap I L) (pre : List I) (i : I) :
    Option (Except (Error I E) L) × TMap I L × List I :=
  match alookup cur i with
  | none => (some (.error (.invalid i)), cur, pre)
  | some .invalid => (some (.error (.unexpected pre i)), cur, pre)
  | some (.leaf l) => (some (.ok l), roots, [])
  | some (.inner ch) => (none, ch, pre ++ [i])

/-- Run the pull loop over a whole input list, collecting every emitted item
together with the final current level and prefix. -/
def runLetters [DecidableEq I] (roots : TMap I L) :
    TMap I L → List I → List I →
      List (Except (Error I E) L) × TMap I L × List I
  | cur, pre, [] => ([], cur, pre)
  | cur, pre, i :: rest =>
    let s := step (E := E) roots cur pre i
    let t := runLetters roots s.2.1 s.2.2 rest
    (s.1.toList ++ t.1, t.2)

/-- Collect everything the iterator yields on a finite input: the items emitted
while consuming the input, then — when the input ends with a pending nonempty
prefix — the single `UnexpectedTermination` item (`next` returns it whenever
polled again in that state; we record one occurrence). -/
def lexOnce [DecidableEq I] (roots : TMap I L) (input : List I) :
    List (Except (Error I Empty) L) :=
  let t := runLetters (E := Empty) roots roots [] input
  t.1 ++ (if t.2.2.isEmpty then [] else [.error (.unexpectedTermination t.2.2)])

/-- One iteration of the pull loop in `iter_from_error::LexingIter::next`:
an upstream error is surfaced as `Parent` without touching the walk state. -/
def stepE [DecidableEq I] (roots cur : TMap I L) (pre : List I) :
    Except E I → Option (Except (Error I E) L) × TMap I L × List I
  | .error e => (some (.error (.parent e)), cur, pre)
  | .ok i => step roots cur pre i

def runLettersE [DecidableEq I] (roots : TMap I L) :
    TMap I L → List I → List (Except E I) →
      List (Except (Error I E) L) × TMap I L × List I
  | cur, pre, [] => ([], cur, pre)
  | cur, pre, i :: rest =>
    let s := stepE roots cur pre i
    let t := runLettersE roots s.2.1 s.2.2 rest
    (s.1.toList ++ t.1, t.2)

def lexOnceE [DecidableEq I] (roots : TMap I L) (input : List (Except E I)) :
    List (Except (Error I E) L) :=
  let t := runLettersE roots roots [] input
  t.1 ++ (if t.2.2.isEmpty then [] else [.error (.unexpectedTermination t.2.2)])

/-- The iterator state of `iter::LexingIter`: root level reference, current
level, accumulated prefix, and the remaining input. -/
structure LIter (I : Type u) (L : Type v) where
  roots : TMap I L
  current : TMap I L
  pre : List I
  incoming : List I

/-- `iter::LexingIter::cont`: re-wrap the iterator around a continuation that
transforms the remaining input, preserving `roots`, `current_tree`, `prefix`. -/
def LIter.cont (it : LIter I L) (f : List I → List I) : LIter I L :=
  { it with incoming := f it.incoming }

/-- Pull the iterator until the current input chunk is exhausted, collecting
the emitted items (including the trailing `UnexpectedTermination` when the
prefix is pending), and return the paused iterator. -/
def LIter.runChunk [DecidableEq I] (it : LIter I L) :
    List (Except (Error I Empty) L) × LIter I L :=
  let t := runLetters (E := Empty) it.roots it.current it.pre it.incoming
  (t.1 ++ (if t.2.2.isEmpty then [] else [.error (.unexpectedTermination t.2.2)]),
    ⟨it.roots, t.2.1, t.2.2, []⟩)

/-- The decoded labels of an output item list (the `Ok` results). -/
def labelsOf (xs : List (Except (Error I E) L)) : List L :=
  xs.filterMap (fun x => match x with | .ok l => some l | .error _ => none)

end lexing

namespace bits

/-! ### Byte packing (src/bits_key.rs and src/bits_key/bits.rs)

Bytes and symbols are natural numbers; `u8` shifts that can wrap carry an
explicit `% 256`. -/

/-- `ConcatError<E>`: an upstream decode failure or a sink write failure. -/
inductive ConcatError (E : Type u) (IoE : Type v) where
  | parent : E → ConcatError E IoE
  | ioFail : IoE → ConcatError E IoE

/-- An `std::io::Write` sink: a state transformer that may fail. -/
structure Sink (W : Type u) (IoE : Type v) where
  write : W → List ℕ → Except IoE W

/-- The infallible `Vec<u8>` sink used by `decode_to_vec`. -/
def vecSink : Sink (List ℕ) Empty := ⟨fun w bs => .ok (w ++ bs)⟩

/-- A sink whose every write fails with a fixed I/O error. -/
def failSink {W IoE : Type _} (ioe : IoE) : Sink W IoE := ⟨fun _ _ => .error ioe⟩

def liftParent {E : Type u} {IoE : Type v} {α : Type _} :
    Except E α → Except (ConcatError E IoE) α
  | .ok a => .ok a
  | .error e => .error (.parent e)

def liftIo {E : Type u} {IoE : Type v} {α : Type _} :
    Except IoE α → Except (ConcatError E IoE) α
  | .ok a => .ok a
  | .error e => .error (.ioFail e)

/-- `pad` (src/bits_key/bits.rs): extend with zero bytes to a multiple of
`n_bits / gcd(8, n_bits)`. -/
def padQuantum (nbits : ℕ) : ℕ := nbits / Nat.gcd 8 nbits

def pad (nbits : ℕ) (bytes : List ℕ) : List ℕ :=
  let q := padQuantum nbits
  bytes ++ List.replicate ((bytes.length + q - 1) / q * q - bytes.length) 0

/-- `Bits8::iter_bytes`: one symbol per byte. -/
def iterBytes8 (bytes : List ℕ) : List ℕ := bytes

/-- `Bits4::iter_bytes`: high nibble then low nibble of each byte. -/
def iterBytes4 (bytes : List ℕ) : List ℕ :=
  bytes.flatMap (fun b => [b >>> 4, b &&& 15])

/-- The 3-byte to 4-symbol bit split of `Bits6::iter_bytes`. -/
def iterBytes6Aux : List ℕ → List ℕ
  | x0 :: x1 :: x2 :: rest =>
    [x0 >>> 2,
     (((x0 &&& 3) <<< 4) % 256) ||| (x1 >>> 4),
     (((x1 &&& 15) <<< 2) % 256) ||| (x2 >>> 6),
     x2 &&& 63] ++ iterBytes6Aux rest
  | _ => []

/-- `Bits6::iter_bytes`: pad to a multiple of 3 bytes, then emit four six-bit
symbols per 3-byte group. -/
def iterBytes6 (bytes : List ℕ) : List ℕ := iterBytes6Aux (pad 6 bytes)

/-- `Bits8::concat`. -/
def concat8 {E : Type u} {IoE W : Type _} (sink : Sink W IoE) :
    List (Except E ℕ) → W → Except (ConcatError E IoE) W
  | [], w => .ok w
  | x :: rest, w => do
    let v ← liftParent x
    let w' ← liftIo (sink.write w [v])
    concat8 sink rest w'

/-- `Bits4::concat`: two nibbles per byte, trailing odd symbol dropped. -/
def concat4 {E : Type u} {IoE W : Type _} (sink : Sink W IoE) :
    List (Except E ℕ) → W → Except (ConcatError E IoE) W
  | x0 :: x1 :: rest, w => do
    let v0 ← liftParent x0
    let v1 ← liftParent x1
    let w' ← liftIo (sink.write w [((v0 <<< 4) % 256) ||| v1])
    concat4 sink rest w'
  | _, w => .ok w

/-- `Bits6::concat`: four six-bit symbols per 3-byte group, trailing partial
group dropped. -/
def concat6 {E : Type u} {IoE W : Type _} (sink : Sink W IoE) :
    List (Except E ℕ) → W → Except (ConcatError E IoE) W
  | x0 :: x1 :: x2 :: x3 :: rest, w => do
    let v0 ← liftParent x0
    let v1 ← liftParent x1
    let v2 ← liftParent x2
    let v3 ← liftParent x3
    let w' ← liftIo (sink.write w
      [((v0 <<< 2) % 256) ||| (v1 >>> 4),
       (((v1 &&& 15) <<< 4) % 256) ||| (v2 >>> 2),
       (((v2 &&& 3) <<< 6) % 256) ||| v3])
    concat6 sink rest w'
  | _, w => .ok w

end bits

namespace characters

/-! ### Frequency model (src/characters.rs) -/

/-- `CharacterCounter::freq`: raw normalized frequencies. -/
def freqRaw (counts : List ℕ) (total : ℕ) : List ℚ :=
  counts.map (fun (k : ℕ) => (k : ℚ) / (total : ℚ))

/-- The zero-frequency smoothing map applied by `finish`. -/
def smooth (added left : ℚ) (x : ℚ) : ℚ := if x = 0 then added else x * left

/-- `n_zero_freq`: the number of zero-probability symbols. -/
def n0Of (fr : List ℚ) : ℕ := (fr.filter (fun x => x = 0)).length

/-- `shared_freq = min(0.05, n_zero_freq * 0.005)`. -/
def sharedOf (fr : List ℚ) : ℚ := min (1 / 20) ((n0Of fr : ℚ) * (1 / 200))

/-- The smoothed distribution: each zero-probability symbol receives
`shared / n0`, every other probability is scaled by `1 - shared`. -/
def smoothed (fr : List ℚ) : List ℚ :=
  fr.map (smooth (sharedOf fr / (n0Of fr : ℚ)) (1 - sharedOf fr))

/-- `CharacterCounter::finish`, up to the derived cumulative arrays: normalize
counts and apply zero-frequency smoothing, failing (Rust panic) when the
smoothed distribution does not sum to 1 within `1e-4`. -/
def finishFreq (counts : List ℕ) (total : ℕ) : Option (List ℚ) :=
  if |(smoothed (freqRaw counts total)).sum - 1| < 1 / 10000 then
    some (smoothed (freqRaw counts total))
  else none

/-- `accu_freq` derived from the frequency vector
(`characters_from_freq`): inclusive prefix sums. -/
def accu_freq (freq : List ℚ) : ℕ → ℚ
  | 0 => freq.getD 0 0
  | x + 1 => accu_freq freq x + freq.getD (x + 1) 0

/-- `accu_freq2`: the prefix sum up to a symbol minus half its own mass. -/
def accu_freq2 (freq : List ℚ) (x : ℕ) : ℚ := accu_freq freq x - freq.getD x 0 / 2

end characters

namespace encoding

open characters

/-! ### Mehlhorn's recursive prefix-code builder (src/encoding.rs)

Symbols are `0, …, ns-1`; letters are `0, …, cost.length - 1`; `c` is the
Kraft root coming from `LetterCosts` (a parameter of the model, since the
Sturm-sequence float root solver is external numerics). -/

/-- `Σ_{j before m} c^cost(j)`. -/
def csum (cost : List ℕ) (c : ℚ) (m : ℕ) : ℚ :=
  ((List.range m).map (fun j => c ^ cost.getD j 0)).sum

/-- Left end `lm` of letter `m`'s sub-interval of `[apl, apr]`. -/
def lmv (cost : List ℕ) (c : ℚ) (apl apr : ℚ) (m : ℕ) : ℚ :=
  apl + (apr - apl) * csum cost c m

/-- Right end `rm` of letter `m`'s sub-interval. -/
def rmv (cost : List ℕ) (c : ℚ) (apl apr : ℚ) (m : ℕ) : ℚ :=
  lmv cost c apl apr m + (apr - apl) * c ^ cost.getD m 0

/-- The bucket of letter `m`: the symbols `x ∈ [l, r]` with
`lm ≤ accu_freq2(x) < rm`. -/
def bucket (cost : List ℕ) (c : ℚ) (freq : List ℚ) (l r : ℕ) (apl apr : ℚ)
    (m : ℕ) : List ℕ :=
  (List.range' l (r + 1 - l)).filter (fun x =>
    decide (lmv cost c apl apr m ≤ accu_freq2 freq x) &&
      decide (accu_freq2 freq x < rmv cost c apl apr m))

/-- The per-letter partition of `[l, r]` before edge correction. -/
def partitionsRaw (cost : List ℕ) (c : ℚ) (freq : List ℚ) (l r : ℕ) :
    List (List ℕ) :=
  let apl := if l = 0 then 0 else accu_freq freq (l - 1)
  let apr := accu_freq freq r
  (List.range cost.length).map (fun m => bucket cost c freq l r apl apr m)

/-- First edge correction: if the first letter's bucket is empty, move `l`
into it from the first nonempty bucket (`None` models the Rust panics). -/
def fixFirst (l : ℕ) (parts : List (List ℕ)) : Option (List (List ℕ)) :=
  match parts.head? with
  | none => none
  | some p0 =>
    if p0.isEmpty then
      match parts.enum.find? (fun e => !e.2.isEmpty) with
      | none => none
      | some e =>
        if l ∈ e.2 then some ((parts.set e.1 (e.2.erase l)).set 0 [l]) else none
    else some parts

/-- Second edge correction: if the last letter's bucket is empty, move `r`
into it from the last nonempty bucket. -/
def fixLast (r : ℕ) (parts : List (List ℕ)) : Option (List (List ℕ)) :=
  match parts.getLast? with
  | none => none
  | some pn =>
    if pn.isEmpty then
      match parts.enum.reverse.find? (fun e => !e.2.isEmpty) with
      | none => none
      | some e =>
        if r ∈ e.2 then
          some ((parts.set e.1 (e.2.erase r)).set (parts.length - 1) [r])
        else none
    else some parts

/-- The corrected partition handed to the recursive calls. -/
def partitionsFixed (cost : List ℕ) (c : ℚ) (freq : List ℚ) (l r : ℕ) :
    Option (List (List ℕ)) := do
  let p1 ← fixFirst l (partitionsRaw cost c freq l r)
  fixLast r p1

/-- `EncodingBuilder::set_code`: record a code, failing (Rust panic) when the
symbol already has one. -/
def set_code (acc : List (ℕ × List ℕ)) (x : ℕ) (code : List ℕ) :
    Option (List (ℕ × List ℕ)) :=
  match alookup acc x with
  | some _ => none
  | none => some ((x, code) :: acc)

/-- `EncodingBuilder::code` with explicit recursion fuel bounding the depth
(`None` models a Rust panic or non-termination). -/
def codeAux (cost : List ℕ) (c : ℚ) (freq : List ℚ) :
    ℕ → ℕ → ℕ → List ℕ → List (ℕ × List ℕ) → Option (List (ℕ × List ℕ))
  | 0, _, _, _, _ => none
  | fuel + 1, l, r, pre, acc =>
    if l = r then set_code acc l pre
    else
      match partitionsFixed cost c freq l r with
      | none => none
      | some parts =>
        parts.enum.foldlM (fun a e =>
          if e.2.isEmpty then some a
          else
            match e.2.min?, e.2.max? with
            | some mn, some mx => codeAux cost c freq fuel mn mx (pre ++ [e.1]) a
            | _, _ => none) acc

/-- `EncodingBuilder::build`: run `code` over the full symbol range
`[zero, biggest] = [0, ns-1]`. The fuel `ns + 1` exceeds the recursion depth
whenever the Rust recursion terminates (each level strictly shrinks the
range). -/
def buildCode (ns : ℕ) (cost : List ℕ) (c : ℚ) (freq : List ℚ) :
    Option (List (ℕ × List ℕ)) :=
  codeAux cost c freq (ns + 1) 0 (ns - 1) [] []

/-- A structural description of a bucket partition of `[a, a'-1]`: each part
is either empty or the literal run of consecutive symbols starting at the
current left edge. -/
def partsSpan : ℕ → List (List ℕ) → ℕ → Prop
  | a, [], a' => a = a'
  | a, e :: rest, a' =>
    (e = [] ∧ partsSpan a rest a') ∨
    (∃ b, a ≤ b ∧ e = List.range' a (b + 1 - a) ∧ partsSpan (b + 1) rest a')

end encoding

namespace bits

/-! ### Reference formulation of `concat` (for claim C6)

`chunksExact` and `concatGen` restate, in terms of `take`/`drop`, what the
Rust `array_chunks` loop does; the C6 theorem proves each width's `concat`
equal to the corresponding instance. -/

def chunksExact {α : Type _} (g : ℕ) (xs : List α) : List (List α) :=
  if _h : 0 < g ∧ g ≤ xs.length then xs.take g :: chunksExact g (xs.drop g)
  else []
termination_by xs.length
decreasing_by
  simp only [List.length_drop]
  omega

/-- Reconstruction of the written byte group from one symbol group. -/
def recomb8 : List ℕ → List ℕ
  | [v] => [v]
  | _ => []

def recomb4 : List ℕ → List ℕ
  | [v0, v1] => [((v0 <<< 4) % 256) ||| v1]
  | _ => []

def recomb6 : List ℕ → List ℕ
  | [v0, v1, v2, v3] =>
    [((v0 <<< 2) % 256) ||| (v1 >>> 4),
     (((v1 &&& 15) <<< 4) % 256) ||| (v2 >>> 2),
     (((v2 &&& 3) <<< 6) % 256) ||| v3]
  | _ => []

/-- Extract one group's symbol values, surfacing the first error in group
order (the `[x0?, x1?, …]` of the Rust loop bodies). -/
def liftGroup {E : Type u} : List (Except E ℕ) → Except E (List ℕ)
  | [] => .ok []
  | x :: rest => do
    let v ← x
    let vs ← liftGroup rest
    .ok (v :: vs)

/-- Group-at-a-time reference form of `concat`: pull one full group (stopping
if the input cannot fill it), surface the first upstream error in the group,
recombine and write one byte group, repeat. -/
def concatGen {E : Type u} {IoE W : Type _} (g : ℕ) (recomb : List ℕ → List ℕ)
    (sink : Sink W IoE) (xs : List (Except E ℕ)) (w : W) :
    Except (ConcatError E IoE) W :=
  if _h : 0 < g ∧ g ≤ xs.length then do
    let vs ← liftParent (liftGroup (xs.take g))
    let w' ← liftIo (sink.write w (recomb vs))
    concatGen g recomb sink (xs.drop g) w'
  else .ok w
termination_by xs.length
decreasing_by
  simp only [List.length_drop]
  omega

end bits

namespace jimi

open lexing bits

/-! ### Token codec layer (src/jimi.rs) -/

/-- Rust `String::len` of a token: its UTF-8 byte length. -/
def rustStrLen (t : List Char) : ℕ := (t.map Char.utf8Size).sum

/-- The letter-cost vector derived by `JimiEncoding::new`
(`tokens.map_by_ref(|_, s| s.len())`). -/
def jimiLetterCosts (tokens : List (List Char)) : List ℕ := tokens.map rustStrLen

/-- Modelled from the spec: `letter costs are derived as each token's
character length`. Stated for comparison with `jimiLetterCosts`, the cost
vector the source actually derives. -/
def specLetterCosts (tokens : List (List Char)) : List ℕ := tokens.map List.length

/-- `JimiEncoder::encode_bits`: the token text of one symbol's code — the
concatenation, letter by letter, of the letters' token strings (the Rust code
returns this as a slice of the precomputed `chunk` buffer). -/
def encode_bits (char2code : List (List ℕ)) (tokens : List (List Char))
    (b : ℕ) : List Char :=
  ((char2code.getD b []).map (fun i => tokens.getD i [])).flatten

/-- The concatenated token text of a symbol sequence (the collected output of
`JimiEncoder::encode_bits_iter`). -/
def encodeText (char2code : List (List ℕ)) (tokens : List (List Char))
    (syms : List ℕ) : List Char :=
  (syms.map (encode_bits char2code tokens)).flatten

/-- `JimiEncoding::new`, up to the external float root solver: derive the
letter costs from the tokens and run the prefix-code builder against that cost
vector and the given frequency distribution (`Encoding::build`). The Kraft
root `c` produced by `LetterCosts::build` is a parameter. -/
def jimiEncodingNew (tokens : List (List Char)) (c : ℚ) (ns : ℕ)
    (freq : List ℚ) : Option (List (ℕ × List ℕ)) :=
  encoding.buildCode ns (jimiLetterCosts tokens) c freq

/-- The character set of the token table (`StringLexer::new`'s `HashSet`). -/
def charsOf (tokens : List (List Char)) : List Char := tokens.flatten.dedup

/-- `StringLexer::new`: build the character-level trie from the tokens. -/
def stringLexerNew (tokens : List (List Char)) : Except BuildErr (TMap Char ℕ) :=
  build_tree (tokens.enum.map (fun e => (e.1, e.2))) (charsOf tokens)

/-- `Decoder::from_encoding`: build the letter-level trie from the code table
over the letter alphabet `0, …, nL-1` (`n_letters.before()`). -/
def decoderNew (nL : ℕ) (char2code : List (List ℕ)) : Except BuildErr (TMap ℕ ℕ) :=
  build_tree (char2code.enum.map (fun e => (e.1, e.2))) (List.range nL)

/-- `JimiDecoder::decode_to_bits`: character-level lexing feeding the
letter-level decoder (`decode_from_error`). -/
def decode_to_bits (lexT : TMap Char ℕ) (decT : TMap ℕ ℕ) (s : List Char) :
    List (Except (Error ℕ (Error Char Empty)) ℕ) :=
  lexOnceE decT (lexOnce lexT s)

/-- `JimiDecoder::decode_to_vec` for width 8. -/
def decode_to_vec8 (lexT : TMap Char ℕ) (decT : TMap ℕ ℕ) (s : List Char) :
    Except (ConcatError (Error ℕ (Error Char Empty)) Empty) (List ℕ) :=
  concat8 vecSink (decode_to_bits lexT decT s) []

/-- `JimiDecoder::decode_to_vec` for width 4. -/
def decode_to_vec4 (lexT : TMap Char ℕ) (decT : TMap ℕ ℕ) (s : List Char) :
    Except (ConcatError (Error ℕ (Error Char Empty)) Empty) (List ℕ) :=
  concat4 vecSink (decode_to_bits lexT decT s) []

/-- `JimiDecoder::decode_to_vec` for width 6. -/
def decode_to_vec6 (lexT : TMap Char ℕ) (decT : TMap ℕ ℕ) (s : List Char) :
    Except (ConcatError (Error ℕ (Error Char Empty)) Empty) (List ℕ) :=
  concat6 vecSink (decode_to_bits lexT decT s) []

end jimi

/-! ## Supporting lemmas and claim theorems -/

namespace characters

lemma sum_map_div (xs : List ℕ) (t : ℚ) :
    (xs.map (fun (k : ℕ) => (k : ℚ) / t)).sum = (xs.sum : ℚ) / t := by
  induction xs with
  | nil => simp
  | cons x xs ih =>
    simp only [List.map_cons, List.sum_cons, ih]
    push_cast
    ring

lemma sum_map_smooth (a l : ℚ) (fr : List ℚ) :
    (fr.map (smooth a l)).sum = a * (n0Of fr : ℚ) + l * fr.sum := by
  induction fr with
  | nil => simp [n0Of]
  | cons x fr ih =>
    rcases eq_or_ne x 0 with hx | hx
    · subst hx
      have hf : n0Of ((0 : ℚ) :: fr) = n0Of fr + 1 := by
        simp [n0Of, List.filter_cons]
      rw [List.map_cons, List.sum_cons, hf, ih]
      have hs : smooth a l 0 = a := by simp [smooth]
      rw [hs, List.sum_cons]
      push_cast
      ring
    · have hf : n0Of (x :: fr) = n0Of fr := by
        simp [n0Of, List.filter_cons, hx]
      rw [List.map_cons, List.sum_cons, hf, ih]
      have hs : smooth a l x = x * l := by simp [smooth, hx]
      rw [hs, List.sum_cons]
      ring

lemma freqRaw_nonneg {counts : List ℕ} {total : ℕ} {x : ℚ}
    (hx : x ∈ freqRaw counts total) : 0 ≤ x := by
  rcases List.mem_map.1 hx with ⟨k, _, rfl⟩
  exact div_nonneg (by positivity) (by positivity)

lemma sharedOf_le (fr : List ℚ) : sharedOf fr ≤ 1 / 20 := min_le_left _ _

lemma smoothed_sum (fr : List ℚ) (h : fr.sum = 1) : (smoothed fr).sum = 1 := by
  unfold smoothed
  rw [sum_map_smooth, h, mul_one]
  rcases eq_or_ne (n0Of fr) 0 with h0 | h0
  · have hsh : sharedOf fr = 0 := by
      unfold sharedOf
      rw [h0]
      norm_num
    rw [hsh, h0]
    norm_num
  · have hne : ((n0Of fr : ℕ) : ℚ) ≠ 0 := by exact_mod_cast h0
    rw [div_mul_cancel₀ _ hne]
    ring

lemma smoothed_pos (fr : List ℚ) (hnn : ∀ x ∈ fr, 0 ≤ x) :
    ∀ p ∈ smoothed fr, 0 < p := by
  intro p hp
  rcases List.mem_map.1 hp with ⟨x, hx, rfl⟩
  rcases eq_or_ne x 0 with hx0 | hx0
  · have hmem : x ∈ fr.filter (fun x => x = 0) := by
      rw [List.mem_filter]
      exact ⟨hx, by simpa using hx0⟩
    have hlen : 0 < n0Of fr :=
      List.length_pos.2 (List.ne_nil_of_mem hmem)
    have hn0pos : (0 : ℚ) < (n0Of fr : ℚ) := by exact_mod_cast hlen
    have hshpos : 0 < sharedOf fr := by
      unfold sharedOf
      exact lt_min (by norm_num) (by exact mul_pos hn0pos (by norm_num))
    simp only [smooth, if_pos hx0]
    positivity
  · have hxpos : 0 < x := lt_of_le_of_ne (hnn x hx) (Ne.symm hx0)
    have hleft : 0 < 1 - sharedOf fr := by
      have := sharedOf_le fr
      linarith
    simp only [smooth, if_neg hx0]
    positivity

/-- C7: for a counter state with nonzero total (and the counter invariant that
the total equals the sum of the per-symbol counts), `finish` normalizes counts
to probabilities and smooths them: with `n0` the number of zero-probability
symbols and `shared = min(0.05, n0 * 0.005)`, each zero-probability symbol
receives exactly `shared / n0` and every nonzero probability is scaled by
`(1 - shared)`; the result sums to 1 within `1e-4` (in the exact rational
model it sums to exactly 1, so the Rust panic guard never fires) and every
symbol's probability is strictly positive. -/
theorem c7_finish_smoothing (counts : List ℕ) (total : ℕ)
    (htot : counts.sum = total) (hpos : 0 < total) :
    ∃ out, finishFreq counts total = some out ∧
      out = (freqRaw counts total).map (fun x =>
        if x = 0 then
          sharedOf (freqRaw counts total) / (n0Of (freqRaw counts total) : ℚ)
        else x * (1 - sharedOf (freqRaw counts total))) ∧
      |out.sum - 1| < 1 / 10000 ∧
      ∀ p ∈ out, 0 < p := by
  have hT : ((total : ℕ) : ℚ) ≠ 0 := by
    exact_mod_cast hpos.ne'
  have hsum : (freqRaw counts total).sum = 1 := by
    unfold freqRaw
    rw [sum_map_div, htot, div_self hT]
  have hsum2 : (smoothed (freqRaw counts total)).sum = 1 :=
    smoothed_sum _ hsum
  refine ⟨smoothed (freqRaw counts total), ?_, rfl, ?_, ?_⟩
  · unfold finishFreq
    rw [hsum2]
    norm_num
  · rw [hsum2]
    norm_num
  · exact smoothed_pos _ (fun x hx => freqRaw_nonneg hx)

/-- Witness for C7 at the concrete counter `[0, 3, 4, 3]` with total 10. -/
theorem c7_finish_smoothing_witness :
    ∃ out, finishFreq [0, 3, 4, 3] 10 = some out ∧
      out = (freqRaw [0, 3, 4, 3] 10).map (fun x =>
        if x = 0 then
          sharedOf (freqRaw [0, 3, 4, 3] 10) / (n0Of (freqRaw [0, 3, 4, 3] 10) : ℚ)
        else x * (1 - sharedOf (freqRaw [0, 3, 4, 3] 10))) ∧
      |out.sum - 1| < 1 / 10000 ∧
      ∀ p ∈ out, 0 < p :=
  c7_finish_smoothing [0, 3, 4, 3] 10 (by norm_num) (by norm_num)

end characters

namespace lexing

variable {I : Type u} {L : Type v} {E : Type w}

lemma runLetters_append [DecidableEq I] (roots cur : TMap I L) (pre : List I)
    (a b : List I) :
    runLetters (E := E) roots cur pre (a ++ b) =
      ((runLetters (E := E) roots cur pre a).1 ++
        (runLetters (E := E) roots
          (runLetters (E := E) roots cur pre a).2.1
          (runLetters (E := E) roots cur pre a).2.2 b).1,
       (runLetters (E := E) roots
          (runLetters (E := E) roots cur pre a).2.1
          (runLetters (E := E) roots cur pre a).2.2 b).2) := by
  induction a generalizing cur pre with
  | nil => simp [runLetters]
  | cons i a ih =>
    simp only [List.cons_append, runLetters, List.append_eq]
    rw [ih]
    simp [List.append_assoc]

lemma labelsOf_append (xs ys : List (Except (Error I E) L)) :
    labelsOf (xs ++ ys) = labelsOf xs ++ labelsOf ys := by
  simp [labelsOf, List.filterMap_append]

lemma labelsOf_pending (c : Bool) (e : Error I E) :
    labelsOf (L := L) (if c then [] else [.error e]) = [] := by
  cases c <;> rfl

/-- C3: on each pulled input letter the lexer behaves as specified: a letter
absent from the current level's key domain emits `Invalid(letter)`; a letter
mapped to the `Invalid` node emits `Unexpected(prefix, letter)`; a letter
mapped to a `Leaf` emits the decoded label, clears the prefix and resets the
current level to the root; a letter mapped to an `Inner` node appends the
letter to the prefix and descends without emitting; and when the input ends
with a nonempty pending prefix the iterator emits
`UnexpectedTermination(prefix)`. -/
theorem c3_lexing_next_cases {I : Type u} {L : Type v} [DecidableEq I] :
    (∀ (roots cur : TMap I L) (pre : List I) (i : I),
      alookup cur i = none →
      step (E := Empty) roots cur pre i = (some (.error (.invalid i)), cur, pre)) ∧
    (∀ (roots cur : TMap I L) (pre : List I) (i : I),
      alookup cur i = some .invalid →
      step (E := Empty) roots cur pre i = (some (.error (.unexpected pre i)), cur, pre)) ∧
    (∀ (roots cur : TMap I L) (pre : List I) (i : I) (l : L),
      alookup cur i = some (.leaf l) →
      step (E := Empty) roots cur pre i = (some (.ok l), roots, [])) ∧
    (∀ (roots cur : TMap I L) (pre : List I) (i : I) (ch : TMap I L),
      alookup cur i = some (.inner ch) →
      step (E := Empty) roots cur pre i = (none, ch, pre ++ [i])) ∧
    (∀ (roots cur : TMap I L) (pre : List I),
      pre ≠ [] →
      (LIter.runChunk ⟨roots, cur, pre, []⟩).1 =
        [.error (.unexpectedTermination pre)]) := by
  refine ⟨?_, ?_, ?_, ?_, ?_⟩
  · intro roots cur pre i h
    simp [step, h]
  · intro roots cur pre i h
    simp [step, h]
  · intro roots cur pre i l h
    simp [step, h]
  · intro roots cur pre i ch h
    simp [step, h]
  · intro roots cur pre h
    simp [LIter.runChunk, runLetters, List.isEmpty_iff, h]

/-- Witness for C3 on a concrete three-entry trie exercising every case. -/
theorem c3_lexing_next_cases_witness :
    (step (E := Empty) [((0 : ℕ), Tree.leaf (10 : ℕ))] [(0, Tree.leaf 10)] [] 5 =
      (some (.error (.invalid 5)), [(0, Tree.leaf 10)], [])) ∧
    (step (E := Empty) [((0 : ℕ), Tree.invalid (L := ℕ))] [(0, Tree.invalid)] [9] 0 =
      (some (.error (.unexpected [9] 0)), [(0, Tree.invalid)], [9])) ∧
    (step (E := Empty) [((0 : ℕ), Tree.leaf (10 : ℕ))] [(0, Tree.leaf 10)] [9] 0 =
      (some (.ok 10), [(0, Tree.leaf 10)], [])) ∧
    (step (E := Empty) [((0 : ℕ), Tree.inner [(1, Tree.leaf (10 : ℕ))])]
        [(0, Tree.inner [(1, Tree.leaf 10)])] [] 0 =
      (none, [(1, Tree.leaf 10)], [0])) ∧
    ((LIter.runChunk ⟨[((0 : ℕ), Tree.leaf (10 : ℕ))], [(0, Tree.leaf 10)], [7], []⟩).1 =
      [.error (.unexpectedTermination [7])]) :=
  ⟨c3_lexing_next_cases.1 _ _ _ _ rfl,
   c3_lexing_next_cases.2.1 _ _ _ _ rfl,
   c3_lexing_next_cases.2.2.1 _ _ _ _ _ rfl,
   c3_lexing_next_cases.2.2.2.1 _ _ _ _ _ rfl,
   c3_lexing_next_cases.2.2.2.2 _ _ _ (by simp)⟩

/-- C4: feeding an input in one chunk produces the same decoded labels as
feeding a first chunk, pausing, and resuming through `cont` with the second
chunk; `cont` preserves the trie root, the current node and the accumulated
prefix, so the walk is not restarted. -/
theorem c4_streaming_equivalence {I : Type u} {L : Type v} [DecidableEq I]
    (roots : TMap I L) (a b : List I) :
    (labelsOf (LIter.runChunk ⟨roots, roots, [], a ++ b⟩).1 =
      labelsOf (LIter.runChunk ⟨roots, roots, [], a⟩).1 ++
        labelsOf (LIter.runChunk ((LIter.runChunk ⟨roots, roots, [], a⟩).2.cont
          (fun rest => rest ++ b))).1) ∧
    (∀ (it : LIter I L) (f : List I → List I),
      (it.cont f).roots = it.roots ∧ (it.cont f).current = it.current ∧
        (it.cont f).pre = it.pre) := by
  refine ⟨?_, fun it f => ⟨rfl, rfl, rfl⟩⟩
  simp only [LIter.runChunk, LIter.cont, List.nil_append]
  rw [runLetters_append]
  simp only [labelsOf_append, labelsOf_pending, List.append_nil]

lemma step_invalid_frame [DecidableEq I] (roots cur : TMap I L) (pre : List I)
    (i w : I) (c : TMap I L) (p : List I)
    (h : step (E := E) roots cur pre i = (some (.error (.invalid w)), c, p)) :
    c = cur ∧ p = pre ∧ w = i := by
  unfold step at h
  rcases ha : alookup cur i with _ | t
  · rw [ha] at h
    simp only [Prod.mk.injEq, Option.some.inj] at h
    obtain ⟨h1, h2, h3⟩ := h
    cases h1
    exact ⟨h2.symm, h3.symm, rfl⟩
  · rw [ha] at h
    cases t <;> simp_all

lemma step_unexpected_frame [DecidableEq I] (roots cur : TMap I L) (pre : List I)
    (i w : I) (q : List I) (c : TMap I L) (p : List I)
    (h : step (E := E) roots cur pre i = (some (.error (.unexpected q w)), c, p)) :
    c = cur ∧ p = pre ∧ q = pre ∧ w = i := by
  unfold step at h
  rcases ha : alookup cur i with _ | t
  · rw [ha] at h
    simp_all
  · rw [ha] at h
    cases t with
    | invalid =>
      simp only [Prod.mk.injEq, Option.some.injEq, Except.error.injEq,
        Error.unexpected.injEq] at h
      exact ⟨h.2.1.symm, h.2.2.symm, h.1.1.symm, h.1.2.symm⟩
    | leaf l => simp_all
    | inner ch => simp_all

/-- C10: when a pulled letter produces `Invalid` or `Unexpected` (in either
iterator variant), the walk state is untouched: the current node and the
accumulated prefix after the pull are exactly those before it; the offending
letter is consumed, so the run continues from the same mid-trie position on
the rest of the input. -/
theorem c10_error_frame {I : Type u} {L : Type v} [DecidableEq I] :
    (∀ (roots cur : TMap I L) (pre : List I) (i w : I) (c : TMap I L) (p : List I),
      step (E := Empty) roots cur pre i = (some (.error (.invalid w)), c, p) →
      c = cur ∧ p = pre ∧ w = i) ∧
    (∀ (roots cur : TMap I L) (pre : List I) (i w : I) (q : List I)
        (c : TMap I L) (p : List I),
      step (E := Empty) roots cur pre i = (some (.error (.unexpected q w)), c, p) →
      c = cur ∧ p = pre ∧ q = pre ∧ w = i) ∧
    (∀ (E : Type) (roots cur : TMap I L) (pre : List I) (i w : I)
        (c : TMap I L) (p : List I),
      stepE (E := E) roots cur pre (.ok i) = (some (.error (.invalid w)), c, p) →
      c = cur ∧ p = pre ∧ w = i) ∧
    (∀ (E : Type) (roots cur : TMap I L) (pre : List I) (i w : I) (q : List I)
        (c : TMap I L) (p : List I),
      stepE (E := E) roots cur pre (.ok i) = (some (.error (.unexpected q w)), c, p) →
      c = cur ∧ p = pre ∧ q = pre ∧ w = i) ∧
    (∀ (roots cur : TMap I L) (pre : List I) (i : I) (rest : List I),
      (alookup cur i = none ∨ alookup cur i = some .invalid) →
      runLetters (E := Empty) roots cur pre (i :: rest) =
        ((step (E := Empty) roots cur pre i).1.toList ++
           (runLetters (E := Empty) roots cur pre rest).1,
         (runLetters (E := Empty) roots cur pre rest).2)) := by
  refine ⟨?_, ?_, ?_, ?_, ?_⟩
  · intro roots cur pre i w c p h
    exact step_invalid_frame roots cur pre i w c p h
  · intro roots cur pre i w q c p h
    exact step_unexpected_frame roots cur pre i w q c p h
  · intro E roots cur pre i w c p h
    exact step_invalid_frame roots cur pre i w c p h
  · intro E roots cur pre i w q c p h
    exact step_unexpected_frame roots cur pre i w q c p h
  · intro roots cur pre i rest h
    have hs : (step (E := Empty) roots cur pre i).2.1 = cur ∧
        (step (E := Empty) roots cur pre i).2.2 = pre := by
      rcases h with h | h <;> simp [step, h]
    simp only [runLetters, hs.1, hs.2]

/-- Witness for C10 on a concrete trie: an absent letter and a dead branch
leave the current node and the prefix unchanged. -/
theorem c10_error_frame_witness :
    (([(1, Tree.invalid)] : TMap ℕ ℕ) = [(1, Tree.invalid)] ∧ ([9] : List ℕ) = [9] ∧
      (5 : ℕ) = 5) ∧
    (([(1, Tree.invalid)] : TMap ℕ ℕ) = [(1, Tree.invalid)] ∧ ([9] : List ℕ) = [9] ∧
      ([9] : List ℕ) = [9] ∧ (1 : ℕ) = 1) :=
  ⟨c10_error_frame.1 [(1, Tree.invalid)] [(1, Tree.invalid)] [9] 5 5
      [(1, Tree.invalid)] [9] (by simp [step, alookup]),
   c10_error_frame.2.1 [(1, Tree.invalid)] [(1, Tree.invalid)] [9] 1 1 [9]
      [(1, Tree.invalid)] [9] (by simp [step, alookup])⟩

/-! #### build_tree: fold characterization -/

lemma alookup_aset_self {α : Type _} [DecidableEq I] (ly : List (I × α)) (h : I) (y : α) :
    alookup (aset ly h y) h = (alookup ly h).map (fun _ => y) := by
  induction ly with
  | nil => rfl
  | cons e rest ih =>
    obtain ⟨k, v⟩ := e
    by_cases he : h = k
    · simp [aset, alookup, he]
    · simp [aset, alookup, he, ih]

lemma alookup_aset_ne {α : Type _} [DecidableEq I] (ly : List (I × α)) (h h' : I) (y : α)
    (hne : h' ≠ h) :
    alookup (aset ly h y) h' = alookup ly h' := by
  induction ly with
  | nil => rfl
  | cons e rest ih =>
    obtain ⟨k, v⟩ := e
    by_cases he : h = k
    · subst he
      simp [aset, alookup, hne]
    · by_cases he' : h' = k
      · simp [aset, alookup, he, he']
      · simp [aset, alookup, he, he', ih]

lemma aset_keys {α : Type _} [DecidableEq I] (ly : List (I × α)) (h : I) (y : α) :
    (aset ly h y).map Prod.fst = ly.map Prod.fst := by
  induction ly with
  | nil => rfl
  | cons e rest ih =>
    obtain ⟨k, v⟩ := e
    by_cases he : h = k
    · simp [aset, he]
    · simp [aset, he, ih]

lemma initLayer_lookup [DecidableEq I] (letters : List I) (h : I) :
    alookup (initLayer (L := L) letters) h =
      if h ∈ letters then some Layer.invalid else none := by
  induction letters with
  | nil => simp [initLayer, alookup]
  | cons i rest ih =>
    by_cases he : h = i
    · simp [initLayer, alookup, he]
    · simp only [initLayer, List.map_cons, alookup, if_neg he]
      rw [show (List.map (fun i => (i, Layer.invalid (L := L))) rest) =
        initLayer rest from rfl, ih]
      simp [List.mem_cons, he]

lemma alookup_mem {α : Type _} [DecidableEq I] {ly : List (I × α)} {h : I} {v : α}
    (hl : alookup ly h = some v) : (h, v) ∈ ly := by
  induction ly with
  | nil => simp [alookup] at hl
  | cons e rest ih =>
    obtain ⟨k, w⟩ := e
    by_cases he : h = k
    · subst he
      have hw : w = v := by simpa [alookup] using hl
      subst hw
      exact List.mem_cons_self _ _
    · simp only [alookup, if_neg he] at hl
      exact List.mem_cons_of_mem _ (ih hl)

lemma mem_alookup_of_nodup {α : Type _} [DecidableEq I] {ly : List (I × α)} {k : I} {v : α}
    (hnd : (ly.map Prod.fst).Nodup) (hmem : (k, v) ∈ ly) :
    alookup ly k = some v := by
  induction ly with
  | nil => simp at hmem
  | cons e rest ih =>
    obtain ⟨k', w⟩ := e
    simp only [List.map_cons, List.nodup_cons] at hnd
    rcases List.mem_cons.1 hmem with he | he
    · injection he with h1' h2'
      subst h1'
      subst h2'
      simp [alookup]
    · have hk : k ≠ k' := by
        intro hkk
        subst hkk
        exact hnd.1 (List.mem_map.2 ⟨(k, v), he, rfl⟩)
      simp only [alookup, if_neg hk]
      exact ih hnd.2 he

lemma grp_cons_cons [DecidableEq I] (h : I) (lab : L) (h' : I) (t : List I)
    (rest : List (L × List I)) :
    grp h ((lab, h' :: t) :: rest) =
      if h' = h then (lab, t) :: grp h rest else grp h rest := by
  by_cases he : h' = h <;> simp [grp, List.filterMap_cons, he]

lemma grp_cons_nil [DecidableEq I] (h : I) (lab : L) (rest : List (L × List I)) :
    grp h ((lab, []) :: rest) = grp h rest := by
  simp [grp, List.filterMap_cons]

lemma mem_grp_iff [DecidableEq I] (h : I) (pairs : List (L × List I)) (lab : L)
    (t : List I) :
    (lab, t) ∈ grp h pairs ↔ (lab, h :: t) ∈ pairs := by
  constructor
  · intro hm
    rcases List.mem_filterMap.1 hm with ⟨⟨lab', code⟩, hmem, hf⟩
    cases code with
    | nil => simp at hf
    | cons h' t' =>
      simp only [] at hf
      by_cases he : h' = h
      · rw [if_pos he] at hf
        injection hf with hf'
        injection hf' with a b
        subst a
        subst b
        subst he
        exact hmem
      · rw [if_neg he] at hf
        exact absurd hf (by simp)
  · intro hm
    refine List.mem_filterMap.2 ⟨(lab, h :: t), hm, ?_⟩
    simp

lemma exb_ok {ε α β : Type _} (a : α) (f : α → Except ε β) :
    (Except.ok a >>= f) = f a := rfl

lemma exb_error {ε α β : Type _} (e : ε) (f : α → Except ε β) :
    ((Except.error e : Except ε α) >>= f) = .error e := rfl

lemma foldGrp_fromLeaf (lab : L) :
    ∀ (es : List (L × List I)),
      ((∀ e ∈ es, e.2 = []) →
        ∃ lab', foldGrp (some (.leaf lab)) es = .ok (some (.leaf lab')) ∧
          ((lab', ([] : List I)) ∈ es ∨ lab' = lab)) ∧
      ((∃ e ∈ es, e.2 ≠ []) → foldGrp (some (.leaf lab)) es = .error .npf) := by
  intro es
  induction es generalizing lab with
  | nil =>
    refine ⟨fun _ => ⟨lab, rfl, Or.inr rfl⟩, ?_⟩
    simp
  | cons e rest ih =>
    obtain ⟨lab2, t⟩ := e
    cases t with
    | nil =>
      constructor
      · intro hall
        have step : foldGrp (some (.leaf lab)) ((lab2, ([] : List I)) :: rest) =
            foldGrp (some (.leaf lab2)) rest := by
          simp [foldGrp, layerUpd]
        rcases (ih lab2).1 (fun e he => hall e (List.mem_cons_of_mem _ he)) with
          ⟨lab', hres, hor⟩
        refine ⟨lab', step ▸ hres, ?_⟩
        rcases hor with hmem | heq
        · exact Or.inl (List.mem_cons_of_mem _ hmem)
        · subst heq
          exact Or.inl (List.mem_cons_self _ _)
      · intro hex
        rcases hex with ⟨e, he, hene⟩
        have step : foldGrp (some (.leaf lab)) ((lab2, ([] : List I)) :: rest) =
            foldGrp (some (.leaf lab2)) rest := by
          simp [foldGrp, layerUpd]
        rw [step]
        rcases List.mem_cons.1 he with he1 | he1
        · subst he1
          simp at hene
        · exact (ih lab2).2 ⟨e, he1, hene⟩
    | cons a t' =>
      constructor
      · intro hall
        have := hall (lab2, a :: t') (List.mem_cons_self _ _)
        simp at this
      · intro _
        simp [foldGrp, layerUpd]

lemma foldGrp_fromInner :
    ∀ (es : List (L × List I)) (v : List (L × List I)),
      ((∀ e ∈ es, e.2 ≠ []) →
        foldGrp (I := I) (some (.inner v)) es = .ok (some (.inner (v ++ es)))) ∧
      ((∃ e ∈ es, e.2 = []) → foldGrp (some (.inner v)) es = .error .npf) := by
  intro es
  induction es with
  | nil =>
    intro v
    refine ⟨fun _ => by simp [foldGrp], ?_⟩
    simp
  | cons e rest ih =>
    intro v
    obtain ⟨lab2, t⟩ := e
    cases t with
    | nil =>
      constructor
      · intro hall
        have := hall (lab2, []) (List.mem_cons_self _ _)
        simp at this
      · intro _
        simp [foldGrp, layerUpd]
    | cons a t' =>
      have step : foldGrp (some (.inner v)) ((lab2, a :: t') :: rest) =
          foldGrp (some (.inner (v ++ [(lab2, a :: t')]))) rest := by
        simp [foldGrp, layerUpd]
      constructor
      · intro hall
        rw [step, (ih _).1 (fun e he => hall e (List.mem_cons_of_mem _ he))]
        simp
      · intro hex
        rcases hex with ⟨e, he, hene⟩
        rcases List.mem_cons.1 he with he1 | he1
        · subst he1
          simp at hene
        · rw [step]
          exact (ih _).2 ⟨e, he1, hene⟩

lemma foldGrp_cases :
    ∀ (es : List (L × List I)),
      (es = [] → foldGrp (some (.invalid : Layer I L)) es = .ok (some .invalid)) ∧
      (es ≠ [] → (∀ e ∈ es, e.2 ≠ []) →
        foldGrp (some (.invalid : Layer I L)) es = .ok (some (.inner es))) ∧
      (es ≠ [] → (∀ e ∈ es, e.2 = []) →
        ∃ lab, foldGrp (some (.invalid : Layer I L)) es = .ok (some (.leaf lab)) ∧
          (lab, ([] : List I)) ∈ es) ∧
      ((∃ e ∈ es, e.2 = []) → (∃ e ∈ es, e.2 ≠ []) →
        foldGrp (some (.invalid : Layer I L)) es = .error .npf) := by
  intro es
  cases es with
  | nil =>
    refine ⟨fun _ => rfl, fun h => absurd rfl h, fun h => absurd rfl h, ?_⟩
    simp
  | cons e rest =>
    obtain ⟨lab2, t⟩ := e
    cases t with
    | nil =>
      have step : foldGrp (some (.invalid : Layer I L)) ((lab2, ([] : List I)) :: rest) =
          foldGrp (some (.leaf lab2)) rest := by
        simp [foldGrp, layerUpd]
      refine ⟨by simp, ?_, ?_, ?_⟩
      · intro _ hall
        have := hall (lab2, []) (List.mem_cons_self _ _)
        simp at this
      · intro _ hall
        rcases (foldGrp_fromLeaf lab2 rest).1
            (fun e he => hall e (List.mem_cons_of_mem _ he)) with ⟨lab', hres, hor⟩
        refine ⟨lab', step ▸ hres, ?_⟩
        rcases hor with hmem | heq
        · exact List.mem_cons_of_mem _ hmem
        · subst heq
          exact List.mem_cons_self _ _
      · intro _ hex
        rcases hex with ⟨e, he, hene⟩
        rcases List.mem_cons.1 he with he1 | he1
        · subst he1
          simp at hene
        · rw [step]
          exact (foldGrp_fromLeaf lab2 rest).2 ⟨e, he1, hene⟩
    | cons a t' =>
      have step : foldGrp (some (.invalid : Layer I L)) ((lab2, a :: t') :: rest) =
          foldGrp (some (.inner [(lab2, a :: t')])) rest := by
        simp [foldGrp, layerUpd]
      refine ⟨by simp, ?_, ?_, ?_⟩
      · intro _ hall
        rw [step, (foldGrp_fromInner rest [(lab2, a :: t')]).1
          (fun e he => hall e (List.mem_cons_of_mem _ he))]
        simp
      · intro _ hall
        have := hall (lab2, a :: t') (List.mem_cons_self _ _)
        simp at this
      · intro hex _
        rcases hex with ⟨e, he, hee⟩
        rcases List.mem_cons.1 he with he1 | he1
        · subst he1
          simp at hee
        · rw [step]
          exact (foldGrp_fromInner rest [(lab2, a :: t')]).2 ⟨e, he1, hee⟩

lemma foldGrp_inv (es : List (L × List I)) :
    (foldGrp (some (.invalid : Layer I L)) es = .error .npf →
      (∃ e ∈ es, e.2 = []) ∧ (∃ e ∈ es, e.2 ≠ [])) ∧
    (foldGrp (some (.invalid : Layer I L)) es ≠ .error .aborted) ∧
    (∀ v, foldGrp (some (.invalid : Layer I L)) es = .ok (some (.inner v)) →
      v = es ∧ es ≠ [] ∧ ∀ e ∈ es, e.2 ≠ []) ∧
    (∀ lab, foldGrp (some (.invalid : Layer I L)) es = .ok (some (.leaf lab)) →
      (lab, ([] : List I)) ∈ es ∧ ∀ e ∈ es, e.2 = []) := by
  rcases eq_or_ne es [] with hnil | hnil
  · subst hnil
    refine ⟨by simp [foldGrp], by simp [foldGrp], ?_, ?_⟩
    · intro v hv
      simp [foldGrp] at hv
    · intro lab hv
      simp [foldGrp] at hv
  · by_cases hall : ∀ e ∈ es, e.2 ≠ []
    · have hres := (foldGrp_cases es).2.1 hnil hall
      refine ⟨?_, ?_, ?_, ?_⟩ <;> rw [hres]
      · intro h
        exact absurd h (by simp)
      · simp
      · intro v hv
        injection hv with hv'
        injection hv' with hv''
        injection hv'' with hv3
        exact ⟨hv3.symm, hnil, hall⟩
      · intro lab hv
        injection hv with hv'
        injection hv' with hv''
        exact absurd hv'' (by simp)
    · by_cases hall2 : ∀ e ∈ es, e.2 = []
      · rcases (foldGrp_cases es).2.2.1 hnil hall2 with ⟨lab0, hres, hmem⟩
        refine ⟨?_, ?_, ?_, ?_⟩ <;> rw [hres]
        · intro h
          exact absurd h (by simp)
        · simp
        · intro v hv
          injection hv with hv'
          injection hv' with hv''
          exact absurd hv'' (by simp)
        · intro lab hv
          injection hv with hv'
          injection hv' with hv''
          injection hv'' with hv3
          subst hv3
          exact ⟨hmem, hall2⟩
      · push_neg at hall
        rcases hall with ⟨e0, he0, he0e'⟩
        push_neg at hall2
        rcases hall2 with ⟨e1, he1, he1e⟩
        have hres := (foldGrp_cases es).2.2.2 ⟨e0, he0, he0e'⟩ ⟨e1, he1, he1e⟩
        refine ⟨?_, ?_, ?_, ?_⟩ <;> rw [hres]
        · exact fun _ => ⟨⟨e0, he0, he0e'⟩, ⟨e1, he1, he1e⟩⟩
        · simp
        · intro v hv
          exact absurd hv (by simp)
        · intro lab hv
          exact absurd hv (by simp)

lemma buildStep_char_none [DecidableEq I] (ly : List (I × Layer I L)) (lab : L)
    (h : I) (t : List I) (ha : alookup ly h = none) :
    buildStep ly (lab, h :: t) = .error .aborted := by
  cases t with
  | nil => simp [buildStep, ha]
  | cons a t => simp [buildStep, ha]

lemma buildStep_char_some [DecidableEq I] (ly : List (I × Layer I L)) (lab : L)
    (h : I) (t : List I) (nd : Layer I L) (ha : alookup ly h = some nd) :
    buildStep ly (lab, h :: t) =
      (layerUpd nd (lab, t)).map (fun nd' => aset ly h nd') := by
  cases t with
  | nil => cases nd <;> simp [buildStep, ha, layerUpd, Except.map]
  | cons a t => cases nd <;> simp [buildStep, ha, layerUpd, Except.map]

lemma fold_perLetter [DecidableEq I] :
    ∀ (pairs : List (L × List I)), (∀ p ∈ pairs, p.2 ≠ []) →
    ∀ (ly : List (I × Layer I L)),
      (∀ b, pairs.foldlM buildStep ly = .error b →
        ∃ h, foldGrp (alookup ly h) (grp h pairs) = .error b) ∧
      (∀ layer, pairs.foldlM buildStep ly = .ok layer →
        ∀ h, foldGrp (alookup ly h) (grp h pairs) = .ok (alookup layer h)) := by
  intro pairs
  induction pairs with
  | nil =>
    intro _ ly
    constructor
    · intro b hb
      simp only [List.foldlM_nil] at hb
      exact absurd hb (by simp [pure, Except.pure])
    · intro layer hok h
      simp only [List.foldlM_nil] at hok
      have h2 : Except.ok (ε := BuildErr) ly = Except.ok layer := hok
      injection h2 with h3
      subst h3
      simp [grp, foldGrp]
  | cons p rest ih =>
    intro hne ly
    obtain ⟨lab, code⟩ := p
    rcases code with _ | ⟨h0, t⟩
    · exact absurd rfl (hne (lab, []) (List.mem_cons_self _ _))
    · have hne' : ∀ q ∈ rest, q.2 ≠ [] := fun q hq => hne q (List.mem_cons_of_mem _ hq)
      constructor
      · intro b hb
        rw [List.foldlM_cons] at hb
        rcases hres : buildStep ly (lab, h0 :: t) with b0 | ly'
        · rw [hres, exb_error] at hb
          injection hb with hb'
          subst hb'
          refine ⟨h0, ?_⟩
          rw [grp_cons_cons, if_pos rfl]
          rcases ha : alookup ly h0 with _ | nd
          · rw [buildStep_char_none ly lab h0 t ha] at hres
            injection hres with hres'
            rw [← hres']
            simp [foldGrp]
          · rw [buildStep_char_some ly lab h0 t nd ha] at hres
            rcases hupd : layerUpd nd (lab, t) with b1 | nd'
            · rw [hupd] at hres
              have hb1 : b1 = b0 := by simpa [Except.map] using hres
              subst hb1
              simp [foldGrp, hupd]
            · rw [hupd] at hres
              exact absurd hres (by simp [Except.map])
        · rw [hres, exb_ok] at hb
          rcases (ih hne' ly').1 b hb with ⟨h, hh⟩
          rcases ha : alookup ly h0 with _ | nd
          · rw [buildStep_char_none ly lab h0 t ha] at hres
            exact absurd hres (by simp)
          · rw [buildStep_char_some ly lab h0 t nd ha] at hres
            rcases hupd : layerUpd nd (lab, t) with b1 | nd'
            · rw [hupd] at hres
              exact absurd hres (by simp [Except.map])
            · rw [hupd] at hres
              have hly' : ly' = aset ly h0 nd' := by
                simpa [Except.map] using hres.symm
              subst hly'
              refine ⟨h, ?_⟩
              by_cases hh0 : h = h0
              · subst hh0
                rw [grp_cons_cons, if_pos rfl, ha]
                rw [show foldGrp (some nd) ((lab, t) :: grp h rest) =
                  foldGrp (some nd') (grp h rest) from by simp [foldGrp, hupd]]
                rw [alookup_aset_self, ha] at hh
                simpa using hh
              · rw [grp_cons_cons, if_neg (fun hc => hh0 hc.symm)]
                rw [alookup_aset_ne _ _ _ _ hh0] at hh
                exact hh
      · intro layer hok h
        rw [List.foldlM_cons] at hok
        rcases hres : buildStep ly (lab, h0 :: t) with b0 | ly'
        · rw [hres, exb_error] at hok
          exact absurd hok (by simp)
        · rw [hres, exb_ok] at hok
          have hrest := (ih hne' ly').2 layer hok
          rcases ha : alookup ly h0 with _ | nd
          · rw [buildStep_char_none ly lab h0 t ha] at hres
            exact absurd hres (by simp)
          · rw [buildStep_char_some ly lab h0 t nd ha] at hres
            rcases hupd : layerUpd nd (lab, t) with b1 | nd'
            · rw [hupd] at hres
              exact absurd hres (by simp [Except.map])
            · rw [hupd] at hres
              have hly' : ly' = aset ly h0 nd' := by
                simpa [Except.map] using hres.symm
              subst hly'
              by_cases hh0 : h = h0
              · subst hh0
                rw [grp_cons_cons, if_pos rfl, ha]
                rw [show foldGrp (some nd) ((lab, t) :: grp h rest) =
                  foldGrp (some nd') (grp h rest) from by simp [foldGrp, hupd]]
                have hthis := hrest h
                rw [alookup_aset_self, ha] at hthis
                simpa using hthis
              · rw [grp_cons_cons, if_neg (fun hc => hh0 hc.symm)]
                have hthis := hrest h
                rw [alookup_aset_ne _ _ _ _ hh0] at hthis
                exact hthis

lemma mapM_error_inv {α β : Type _} (f : α → Except BuildErr β) :
    ∀ (xs : List α) (b : BuildErr), xs.mapM f = .error b → ∃ e ∈ xs, f e = .error b := by
  intro xs
  induction xs with
  | nil =>
    intro b hb
    simp only [List.mapM_nil] at hb
    exact absurd hb (by simp [pure, Except.pure])
  | cons x rest ih =>
    intro b hb
    rw [List.mapM_cons] at hb
    rcases hf : f x with b0 | y
    · rw [hf, exb_error] at hb
      injection hb with hb'
      subst hb'
      exact ⟨x, List.mem_cons_self _ _, hf⟩
    · rw [hf, exb_ok] at hb
      rcases hr : rest.mapM f with b1 | ys
      · rw [hr, exb_error] at hb
        injection hb with hb'
        subst hb'
        rcases ih b1 hr with ⟨e, he, hfe⟩
        exact ⟨e, List.mem_cons_of_mem _ he, hfe⟩
      · rw [hr, exb_ok] at hb
        exact absurd hb (by simp [pure, Except.pure])

lemma mapM_ok_lookup {α β : Type _} [DecidableEq I]
    (f : I × α → Except BuildErr (I × β))
    (hkey : ∀ e r, f e = .ok r → r.1 = e.1) :
    ∀ (layer : List (I × α)) (m : List (I × β)), layer.mapM f = .ok m →
      ∀ h, (alookup layer h = none → alookup m h = none) ∧
        (∀ nd, alookup layer h = some nd →
          ∃ tr, alookup m h = some tr ∧ f (h, nd) = .ok (h, tr)) := by
  intro layer
  induction layer with
  | nil =>
    intro m hm h
    simp only [List.mapM_nil] at hm
    have h2 : Except.ok (ε := BuildErr) ([] : List (I × β)) = .ok m := hm
    injection h2 with h3
    subst h3
    exact ⟨fun _ => rfl, fun nd hnd => absurd hnd (by simp [alookup])⟩
  | cons e rest ih =>
    intro m hm h
    obtain ⟨k, nd0⟩ := e
    rw [List.mapM_cons] at hm
    rcases hf : f (k, nd0) with b | r
    · rw [hf, exb_error] at hm
      exact absurd hm (by simp)
    · rw [hf, exb_ok] at hm
      rcases hr : rest.mapM f with b | rs
      · rw [hr, exb_error] at hm
        exact absurd hm (by simp)
      · rw [hr, exb_ok] at hm
        have hm' : Except.ok (ε := BuildErr) (r :: rs) = .ok m := hm
        injection hm' with hm''
        subst hm''
        have hk := hkey (k, nd0) r hf
        obtain ⟨r1, r2⟩ := r
        simp only [] at hk
        subst hk
        constructor
        · intro hnone
          by_cases he : h = r1
          · subst he
            simp [alookup] at hnone
          · simp only [alookup, if_neg he] at hnone
            simp only [alookup, if_neg he]
            exact (ih rs hr h).1 hnone
        · intro nd hsome
          by_cases he : h = r1
          · subst he
            have hnd : nd0 = nd := by simpa [alookup] using hsome
            subst hnd
            exact ⟨r2, by simp [alookup], hf⟩
          · simp only [alookup, if_neg he] at hsome
            rcases (ih rs hr h).2 nd hsome with ⟨tr, htr, hftr⟩
            refine ⟨tr, ?_, hftr⟩
            simpa [alookup, if_neg he] using htr

lemma initLayer_keys [DecidableEq I] (letters : List I) :
    (initLayer (L := L) letters).map Prod.fst = letters := by
  unfold initLayer
  rw [List.map_map]
  induction letters with
  | nil => rfl
  | cons i rest ih => simpa using ih

lemma fold_keys [DecidableEq I] :
    ∀ (pairs : List (L × List I)) (ly layer : List (I × Layer I L)),
      (∀ p ∈ pairs, p.2 ≠ []) →
      pairs.foldlM buildStep ly = .ok layer →
      layer.map Prod.fst = ly.map Prod.fst := by
  intro pairs
  induction pairs with
  | nil =>
    intro ly layer _ hok
    simp only [List.foldlM_nil] at hok
    have h2 : Except.ok (ε := BuildErr) ly = .ok layer := hok
    injection h2 with h3
    subst h3
    rfl
  | cons p rest ih =>
    intro ly layer hne hok
    obtain ⟨lab, code⟩ := p
    rcases code with _ | ⟨h0, t⟩
    · exact absurd rfl (hne (lab, []) (List.mem_cons_self _ _))
    · have hne' : ∀ q ∈ rest, q.2 ≠ [] := fun q hq => hne q (List.mem_cons_of_mem _ hq)
      rw [List.foldlM_cons] at hok
      rcases hres : buildStep ly (lab, h0 :: t) with b | ly'
      · rw [hres, exb_error] at hok
        exact absurd hok (by simp)
      · rw [hres, exb_ok] at hok
        have h1 := ih ly' layer hne' hok
        rcases ha : alookup ly h0 with _ | nd
        · rw [buildStep_char_none ly lab h0 t ha] at hres
          exact absurd hres (by simp)
        · rw [buildStep_char_some ly lab h0 t nd ha] at hres
          rcases hupd : layerUpd nd (lab, t) with b | nd'
          · rw [hupd] at hres
            exact absurd hres (by simp [Except.map])
          · rw [hupd] at hres
            have hly' : ly' = aset ly h0 nd' := by
              simpa [Except.map] using hres.symm
            subst hly'
            rw [h1, aset_keys]

lemma buildAux_succ_ok_inv [DecidableEq I] (fuel : ℕ) (pairs : List (L × List I))
    (letters : List I) (m : TMap I L)
    (h : buildAux (fuel + 1) pairs letters = .ok m) :
    ∃ layer, pairs.foldlM buildStep (initLayer letters) = .ok layer ∧
      layer.mapM (fun e =>
        match e.2 with
        | .leaf lab => Except.ok (e.1, Tree.leaf lab)
        | .invalid => Except.ok (e.1, Tree.invalid)
        | .inner sub =>
          (buildAux fuel sub letters).map (fun mm => (e.1, Tree.inner mm))) = .ok m := by
  rw [buildAux] at h
  rcases hfold : pairs.foldlM buildStep (initLayer letters) with b | layer
  · rw [hfold] at h
    exact absurd h (by simp)
  · rw [hfold] at h
    exact ⟨layer, rfl, h⟩

lemma buildAux_succ_error_inv [DecidableEq I] (fuel : ℕ) (pairs : List (L × List I))
    (letters : List I) (b : BuildErr)
    (h : buildAux (fuel + 1) pairs letters = .error b) :
    pairs.foldlM buildStep (initLayer letters) = .error b ∨
    ∃ layer, pairs.foldlM buildStep (initLayer letters) = .ok layer ∧
      layer.mapM (fun e =>
        match e.2 with
        | .leaf lab => Except.ok (e.1, Tree.leaf lab)
        | .invalid => Except.ok (e.1, Tree.invalid)
        | .inner sub =>
          (buildAux fuel sub letters).map (fun mm => (e.1, Tree.inner mm))) = .error b := by
  rw [buildAux] at h
  rcases hfold : pairs.foldlM buildStep (initLayer letters) with b' | layer
  · rw [hfold] at h
    left
    have hb : b' = b := by simpa using h
    subst hb
    rfl
  · rw [hfold] at h
    exact Or.inr ⟨layer, rfl, h⟩

lemma convE_key [DecidableEq I] (fuel : ℕ) (letters : List I) :
    ∀ (e : I × Layer I L) (r : I × Tree I L),
      convE fuel letters e = .ok r → r.1 = e.1 := by
  rintro ⟨k, nd⟩ r hc
  cases nd with
  | leaf lab =>
    have h2 : Except.ok (ε := BuildErr) ((k, Tree.leaf lab) : I × Tree I L) = .ok r := hc
    injection h2 with h3
    rw [← h3]
  | invalid =>
    have h2 : Except.ok (ε := BuildErr) ((k, Tree.invalid) : I × Tree I L) = .ok r := hc
    injection h2 with h3
    rw [← h3]
  | inner sub =>
    simp only [convE] at hc
    rcases hb : buildAux fuel sub letters with b | mm
    · rw [hb] at hc
      exact absurd hc (by simp [Except.map])
    · rw [hb] at hc
      have h2 : (k, Tree.inner mm) = r := by simpa [Except.map] using hc
      rw [← h2]

lemma convE_inner_ok [DecidableEq I] (fuel : ℕ) (letters : List I) (k : I)
    (sub : List (L × List I)) (k' : I) (tr : Tree I L)
    (hc : convE fuel letters (k, .inner sub) = .ok (k', tr)) :
    ∃ mm, tr = .inner mm ∧ buildAux fuel sub letters = .ok mm := by
  simp only [convE] at hc
  rcases hb : buildAux fuel sub letters with b | mm
  · rw [hb] at hc
    exact absurd hc (by simp [Except.map])
  · rw [hb] at hc
    have h2 : ((k, Tree.inner mm) : I × Tree I L) = (k', tr) := by
      simpa [Except.map] using hc
    injection h2 with h3 h4
    exact ⟨mm, h4.symm, rfl⟩

lemma convE_error_inner [DecidableEq I] (fuel : ℕ) (letters : List I) (k : I)
    (nd : Layer I L) (b : BuildErr)
    (hc : convE fuel letters (k, nd) = .error b) :
    ∃ sub, nd = .inner sub ∧ buildAux fuel sub letters = .error b := by
  cases nd with
  | leaf lab => exact absurd hc (by simp [convE])
  | invalid => exact absurd hc (by simp [convE])
  | inner sub =>
    simp only [convE] at hc
    rcases hb : buildAux fuel sub letters with b' | mm
    · rw [hb] at hc
      have h2 : b' = b := by simpa [Except.map] using hc
      subst h2
      exact ⟨sub, rfl, hb⟩
    · rw [hb] at hc
      exact absurd hc (by simp [Except.map])

lemma buildAux_ok_char [DecidableEq I] (fuel : ℕ) (pairs : List (L × List I))
    (letters : List I) (m : TMap I L)
    (hne : ∀ p ∈ pairs, p.2 ≠ [])
    (hok : buildAux (fuel + 1) pairs letters = .ok m) (h : I) :
    (h ∉ letters → alookup m h = none) ∧
    (h ∈ letters → grp h pairs = [] → alookup m h = some Tree.invalid) ∧
    (h ∈ letters → grp h pairs ≠ [] → (∀ e ∈ grp h pairs, e.2 ≠ []) →
      ∃ mm, alookup m h = some (Tree.inner mm) ∧
        buildAux fuel (grp h pairs) letters = .ok mm) ∧
    (h ∈ letters → grp h pairs ≠ [] → (∀ e ∈ grp h pairs, e.2 = []) →
      ∃ lab, alookup m h = some (Tree.leaf lab) ∧ (lab, ([] : List I)) ∈ grp h pairs) ∧
    (h ∈ letters →
      ¬((∃ e ∈ grp h pairs, e.2 = []) ∧ (∃ e ∈ grp h pairs, e.2 ≠ []))) := by
  obtain ⟨layer, hfold, hmap⟩ := buildAux_succ_ok_inv fuel pairs letters m hok
  have hmap' : layer.mapM (convE fuel letters) = .ok m := hmap
  have hper := (fold_perLetter pairs hne (initLayer letters)).2 layer hfold h
  rw [initLayer_lookup] at hper
  have hlookup := mapM_ok_lookup (convE fuel letters) (convE_key fuel letters)
    layer m hmap' h
  refine ⟨?_, ?_, ?_, ?_, ?_⟩
  · intro hnot
    rw [if_neg hnot] at hper
    cases hg : grp h pairs with
    | nil =>
      rw [hg] at hper
      have h2 : (none : Option (Layer I L)) = alookup layer h := by
        simpa [foldGrp] using hper
      exact hlookup.1 h2.symm
    | cons e es =>
      rw [hg] at hper
      exact absurd hper (by simp [foldGrp])
  · intro hmem hg
    rw [if_pos hmem, hg] at hper
    have h2 : (some (Layer.invalid : Layer I L)) = alookup layer h := by
      simpa [foldGrp] using hper
    rcases hlookup.2 _ h2.symm with ⟨tr, htr, hconv⟩
    have h3 : Except.ok (ε := BuildErr) ((h, Tree.invalid) : I × Tree I L) =
        .ok (h, tr) := hconv
    injection h3 with h4
    injection h4 with h5 h6
    rw [← h6] at htr
    exact htr
  · intro hmem hgne hall
    rw [if_pos hmem, (foldGrp_cases (grp h pairs)).2.1 hgne hall] at hper
    have h2 : (some (Layer.inner (grp h pairs) : Layer I L)) = alookup layer h := by
      simpa using hper
    rcases hlookup.2 _ h2.symm with ⟨tr, htr, hconv⟩
    rcases convE_inner_ok fuel letters h (grp h pairs) h tr hconv with ⟨mm, htr2, hsub⟩
    subst htr2
    exact ⟨mm, htr, hsub⟩
  · intro hmem hgne hall
    rcases (foldGrp_cases (grp h pairs)).2.2.1 hgne hall with ⟨lab0, hres, hmem0⟩
    rw [if_pos hmem, hres] at hper
    have h2 : (some (Layer.leaf lab0 : Layer I L)) = alookup layer h := by
      simpa using hper
    rcases hlookup.2 _ h2.symm with ⟨tr, htr, hconv⟩
    have h3 : Except.ok (ε := BuildErr) ((h, Tree.leaf lab0) : I × Tree I L) =
        .ok (h, tr) := hconv
    injection h3 with h4
    injection h4 with h5 h6
    rw [← h6] at htr
    exact ⟨lab0, htr, hmem0⟩
  · rintro hmem ⟨hex1, hex2⟩
    rw [if_pos hmem, (foldGrp_cases (grp h pairs)).2.2.2 hex1 hex2] at hper
    exact absurd hper (by simp)

lemma layer_entry_char [DecidableEq I] (pairs : List (L × List I)) (letters : List I)
    (layer : List (I × Layer I L)) (hne : ∀ p ∈ pairs, p.2 ≠ [])
    (hnd : letters.Nodup)
    (hfold : pairs.foldlM buildStep (initLayer letters) = .ok layer)
    (k : I) (sub : List (L × List I)) (hmem : (k, Layer.inner sub) ∈ layer) :
    sub = grp k pairs ∧ sub ≠ [] ∧ (∀ e ∈ sub, e.2 ≠ []) ∧ k ∈ letters := by
  have hkeys : layer.map Prod.fst = letters :=
    (fold_keys pairs _ _ hne hfold).trans (initLayer_keys letters)
  have hnd' : (layer.map Prod.fst).Nodup := hkeys ▸ hnd
  have hlk : alookup layer k = some (.inner sub) := mem_alookup_of_nodup hnd' hmem
  have hper := (fold_perLetter pairs hne (initLayer letters)).2 layer hfold k
  rw [initLayer_lookup, hlk] at hper
  by_cases hkmem : k ∈ letters
  · rw [if_pos hkmem] at hper
    rcases (foldGrp_inv (grp k pairs)).2.2.1 sub hper with ⟨h1, h2, h3⟩
    subst h1
    exact ⟨rfl, h2, h3, hkmem⟩
  · rw [if_neg hkmem] at hper
    cases hg : grp k pairs with
    | nil =>
      rw [hg] at hper
      exact absurd hper (by simp [foldGrp])
    | cons e es =>
      rw [hg] at hper
      exact absurd hper (by simp [foldGrp])

lemma buildAux_npf_viol [DecidableEq I] :
    ∀ (fuel : ℕ) (pairs : List (L × List I)) (letters : List I),
      (∀ p ∈ pairs, p.2 ≠ []) → letters.Nodup →
      buildAux fuel pairs letters = .error .npf →
      ∃ p ∈ pairs, ∃ q ∈ pairs, p.2 <+: q.2 ∧ p.2.length < q.2.length := by
  intro fuel
  induction fuel with
  | zero =>
    intro pairs letters _ _ hb
    simp [buildAux] at hb
  | succ fuel ih =>
    intro pairs letters hne hnd hb
    rcases buildAux_succ_error_inv fuel pairs letters .npf hb with
      hfold | ⟨layer, hfold, hmap⟩
    · rcases (fold_perLetter pairs hne _).1 .npf hfold with ⟨h0, hg⟩
      rw [initLayer_lookup] at hg
      by_cases hmem : h0 ∈ letters
      · rw [if_pos hmem] at hg
        rcases (foldGrp_inv (grp h0 pairs)).1 hg with ⟨⟨e0, he0, he0n⟩, ⟨e1, he1, he1n⟩⟩
        obtain ⟨l0, t0⟩ := e0
        obtain ⟨l1, t1⟩ := e1
        simp only [] at he0n he1n
        subst he0n
        refine ⟨(l0, [h0]), (mem_grp_iff h0 pairs l0 []).1 he0,
          (l1, h0 :: t1), (mem_grp_iff h0 pairs l1 t1).1 he1, ⟨t1, rfl⟩, ?_⟩
        simpa using Nat.succ_lt_succ (List.length_pos.2 he1n)
      · rw [if_neg hmem] at hg
        cases hgg : grp h0 pairs with
        | nil =>
          rw [hgg] at hg
          exact absurd hg (by simp [foldGrp])
        | cons e es =>
          rw [hgg] at hg
          exact absurd hg (by simp [foldGrp])
    · rcases mapM_error_inv _ layer .npf
        (show layer.mapM (convE fuel letters) = .error .npf from hmap) with
        ⟨⟨k, nd⟩, hemem, hconv⟩
      rcases convE_error_inner fuel letters k nd .npf hconv with ⟨sub, rfl, hsub⟩
      rcases layer_entry_char pairs letters layer hne hnd hfold k sub hemem with
        ⟨hsubg, hsubne, hsuball, hkmem⟩
      subst hsubg
      rcases ih (grp k pairs) letters hsuball hnd hsub with
        ⟨p, hp, q, hq, hpre, hlen⟩
      obtain ⟨a, ta⟩ := p
      obtain ⟨b2, tb⟩ := q
      refine ⟨(a, k :: ta), (mem_grp_iff k pairs a ta).1 hp,
        (b2, k :: tb), (mem_grp_iff k pairs b2 tb).1 hq, ?_, ?_⟩
      · rcases hpre with ⟨s, hs⟩
        exact ⟨s, by simp [hs]⟩
      · simpa using Nat.succ_lt_succ hlen

lemma buildAux_ok_noViol [DecidableEq I] :
    ∀ (fuel : ℕ) (pairs : List (L × List I)) (letters : List I) (m : TMap I L),
      (∀ p ∈ pairs, p.2 ≠ []) →
      (∀ p ∈ pairs, ∀ i ∈ p.2, i ∈ letters) →
      buildAux fuel pairs letters = .ok m →
      ∀ p ∈ pairs, ∀ q ∈ pairs, p.2 <+: q.2 → p.2.length < q.2.length → False := by
  intro fuel
  induction fuel with
  | zero =>
    intro pairs letters m _ _ hb
    simp [buildAux] at hb
  | succ fuel ih =>
    intro pairs letters m hne hcov hok p hp q hq hpre hlen
    obtain ⟨a, ca⟩ := p
    obtain ⟨b2, cb⟩ := q
    rcases ca with _ | ⟨h0, ta⟩
    · exact hne (a, []) hp rfl
    rcases cb with _ | ⟨h1, tb⟩
    · simp at hlen
    rcases hpre with ⟨s, hs⟩
    rw [List.cons_append] at hs
    injection hs with hs1 hs2
    subst hs1
    have hpre' : ta <+: tb := ⟨s, hs2⟩
    have hlen' : ta.length < tb.length := by simpa using hlen
    have hmem_a : (a, ta) ∈ grp h0 pairs := (mem_grp_iff h0 pairs a ta).2 hp
    have hmem_b : (b2, tb) ∈ grp h0 pairs := (mem_grp_iff h0 pairs b2 tb).2 hq
    have hkmem : h0 ∈ letters := hcov (a, h0 :: ta) hp h0 (by simp)
    have hchar := buildAux_ok_char fuel pairs letters m hne hok h0
    have htb : tb ≠ [] := by
      intro hc
      subst hc
      simp at hlen'
    rcases eq_or_ne ta [] with hta | hta
    · subst hta
      exact hchar.2.2.2.2 hkmem ⟨⟨(a, []), hmem_a, rfl⟩, ⟨(b2, tb), hmem_b, htb⟩⟩
    · by_cases hterm : ∃ e ∈ grp h0 pairs, e.2 = []
      · exact hchar.2.2.2.2 hkmem ⟨hterm, ⟨(a, ta), hmem_a, hta⟩⟩
      · push_neg at hterm
        have hgne : grp h0 pairs ≠ [] := by
          intro hc
          rw [hc] at hmem_a
          simp at hmem_a
        rcases hchar.2.2.1 hkmem hgne hterm with ⟨mm, _, hsub⟩
        have hcov' : ∀ e ∈ grp h0 pairs, ∀ i ∈ e.2, i ∈ letters := by
          intro e he i hi
          have hmm := (mem_grp_iff h0 pairs e.1 e.2).1 (by simpa using he)
          exact hcov (e.1, h0 :: e.2) hmm i (by simp [hi])
        exact ih (grp h0 pairs) letters mm hterm hcov' hsub
          (a, ta) hmem_a (b2, tb) hmem_b hpre' hlen'

lemma buildAux_no_abort [DecidableEq I] :
    ∀ (fuel : ℕ) (pairs : List (L × List I)) (letters : List I),
      (∀ p ∈ pairs, p.2 ≠ []) →
      (∀ p ∈ pairs, ∀ i ∈ p.2, i ∈ letters) →
      letters.Nodup →
      (∀ p ∈ pairs, p.2.length < fuel) →
      pairs ≠ [] →
      buildAux fuel pairs letters ≠ .error .aborted := by
  intro fuel
  induction fuel with
  | zero =>
    intro pairs letters hne hcov hnd hlen hpne _
    rcases List.exists_mem_of_ne_nil pairs hpne with ⟨p, hp⟩
    exact absurd (hlen p hp) (by omega)
  | succ fuel ih =>
    intro pairs letters hne hcov hnd hlen hpne hb
    rcases buildAux_succ_error_inv fuel pairs letters .aborted hb with
      hfold | ⟨layer, hfold, hmap⟩
    · rcases (fold_perLetter pairs hne _).1 .aborted hfold with ⟨h0, hg⟩
      rw [initLayer_lookup] at hg
      by_cases hmem : h0 ∈ letters
      · rw [if_pos hmem] at hg
        exact (foldGrp_inv (grp h0 pairs)).2.1 hg
      · rw [if_neg hmem] at hg
        cases hgg : grp h0 pairs with
        | nil =>
          rw [hgg] at hg
          exact absurd hg (by simp [foldGrp])
        | cons e es =>
          have he : (e.1, h0 :: e.2) ∈ pairs :=
            (mem_grp_iff h0 pairs e.1 e.2).1
              (by rw [hgg]; exact List.mem_cons_self _ _)
          exact hmem (hcov (e.1, h0 :: e.2) he h0 (by simp))
    · rcases mapM_error_inv _ layer .aborted
        (show layer.mapM (convE fuel letters) = .error .aborted from hmap) with
        ⟨⟨k, nd⟩, hemem, hconv⟩
      rcases convE_error_inner fuel letters k nd .aborted hconv with ⟨sub, rfl, hsub⟩
      rcases layer_entry_char pairs letters layer hne hnd hfold k sub hemem with
        ⟨hsubg, hsubne, hsuball, hkmem⟩
      subst hsubg
      have hcov' : ∀ e ∈ grp k pairs, ∀ i ∈ e.2, i ∈ letters := by
        intro e he i hi
        have hmm := (mem_grp_iff k pairs e.1 e.2).1 (by simpa using he)
        exact hcov (e.1, k :: e.2) hmm i (by simp [hi])
      have hlen' : ∀ e ∈ grp k pairs, e.2.length < fuel := by
        intro e he
        have hmm := (mem_grp_iff k pairs e.1 e.2).1 (by simpa using he)
        have := hlen (e.1, k :: e.2) hmm
        simp only [List.length_cons] at this
        omega
      exact ih (grp k pairs) letters hsuball hcov' hnd hlen' hsubne hsub

lemma length_le_maxCodeLen :
    ∀ (pairs : List (L × List I)) (p : L × List I), p ∈ pairs →
      p.2.length ≤ maxCodeLen pairs := by
  intro pairs
  induction pairs with
  | nil => simp
  | cons q rest ih =>
    intro p hp
    have hstep : maxCodeLen (q :: rest) = max q.2.length (maxCodeLen rest) := rfl
    rcases List.mem_cons.1 hp with h | h
    · subst h
      rw [hstep]
      exact le_max_left _ _
    · rw [hstep]
      exact le_trans (ih p h) (le_max_right _ _)

/-- C8: `build_tree`, over pairs with nonempty codes whose letters all lie in
the (duplicate-free) key alphabet, fails with `NonPrefixFreeError` exactly
when some pair's letter sequence is a strict prefix of another pair's (the
fold would need the same first-letter slot to be both a `Leaf` and an `Inner`
node); on failure the `Result` carries no tree. In particular `StringLexer`'s
character trie for the token set `{ab, a}` fails with this error. -/
theorem c8_non_prefix_free {I L : Type} [DecidableEq I] :
    (∀ (pairs : List (L × List I)) (letters : List I),
      (∀ p ∈ pairs, p.2 ≠ []) →
      (∀ p ∈ pairs, ∀ i ∈ p.2, i ∈ letters) →
      letters.Nodup →
      (build_tree pairs letters = .error .npf ↔
        ∃ p ∈ pairs, ∃ q ∈ pairs, p.2 <+: q.2 ∧ p.2.length < q.2.length)) ∧
    jimi.stringLexerNew [['a', 'b'], ['a']] = .error .npf := by
  constructor
  · intro pairs letters hne hcov hnd
    constructor
    · intro hb
      exact buildAux_npf_viol _ pairs letters hne hnd hb
    · intro hviol
      rcases hres : build_tree pairs letters with b | m
      · cases b with
        | npf => rfl
        | aborted =>
          have hpne : pairs ≠ [] := by
            rcases hviol with ⟨p, hp, _⟩
            exact List.ne_nil_of_mem hp
          exact absurd hres (buildAux_no_abort _ pairs letters hne hcov hnd
            (fun p hp => Nat.lt_succ_of_le (length_le_maxCodeLen pairs p hp)) hpne)
      · rcases hviol with ⟨p, hp, q, hq, hpre, hlen⟩
        exact absurd hlen (by
          intro hl
          exact buildAux_ok_noViol _ pairs letters m hne hcov hres p hp q hq hpre hl)
  · rfl

/-- Witness for C8: a concrete two-pair family with a strict-prefix violation
makes `build_tree` fail with `NonPrefixFreeError`. -/
theorem c8_non_prefix_free_witness :
    build_tree [((0 : ℕ), [(0 : ℕ), 1]), (1, [0])] [0, 1] = .error .npf :=
  (c8_non_prefix_free.1 [((0 : ℕ), [(0 : ℕ), 1]), (1, [0])] [0, 1]
    (by decide) (by decide) (by decide)).2
    ⟨(1, [0]), by decide, (0, [0, 1]), by decide, ⟨[1], rfl⟩, by decide⟩

/-! #### Walking a successfully built trie, and running the lexer over
concatenated codes (toward claim C1) -/

lemma walkT_cons [DecidableEq I] (m mm : TMap I L) (i j : I) (rest : List I)
    (h : alookup m i = some (Tree.inner mm)) :
    walkT m (i :: j :: rest) = walkT mm (j :: rest) := by
  simp [walkT, h]

lemma walkT_cons_inv [DecidableEq I] (m : TMap I L) (i j : I) (rest : List I)
    (tr : Tree I L) (h : walkT m (i :: j :: rest) = some tr) :
    ∃ mm, alookup m i = some (Tree.inner mm) ∧ walkT mm (j :: rest) = some tr := by
  rcases ha : alookup m i with _ | nd
  · rw [show walkT m (i :: j :: rest) =
      (match alookup m i with
       | some (.inner mm) => walkT mm (j :: rest)
       | _ => none) from rfl, ha] at h
    simp at h
  · cases nd with
    | leaf lab =>
      rw [show walkT m (i :: j :: rest) =
        (match alookup m i with
         | some (.inner mm) => walkT mm (j :: rest)
         | _ => none) from rfl, ha] at h
      simp at h
    | invalid =>
      rw [show walkT m (i :: j :: rest) =
        (match alookup m i with
         | some (.inner mm) => walkT mm (j :: rest)
         | _ => none) from rfl, ha] at h
      simp at h
    | inner mm =>
      exact ⟨mm, rfl, by rwa [walkT_cons m mm i j rest ha] at h⟩

/-- On a successful build, walking the trie along any pair's code reaches the
leaf carrying that pair's label, provided the code family is prefix-free
(a code that is a prefix of another — equality included — forces the pairs to
coincide). -/
lemma walk_built [DecidableEq I] :
    ∀ (fuel : ℕ) (pairs : List (L × List I)) (letters : List I) (m : TMap I L),
      buildAux fuel pairs letters = Except.ok m →
      (∀ p ∈ pairs, p.2 ≠ []) →
      (∀ p ∈ pairs, ∀ i ∈ p.2, i ∈ letters) →
      (∀ p ∈ pairs, ∀ q ∈ pairs, p.2 <+: q.2 → p = q) →
      ∀ p ∈ pairs, walkT m p.2 = some (Tree.leaf p.1) := by
  intro fuel
  induction fuel with
  | zero =>
    intro pairs letters m hok _ _ _
    simp [buildAux] at hok
  | succ fuel ih =>
    intro pairs letters m hok hne hcov hpf p hp
    obtain ⟨lab, code⟩ := p
    rcases code with _ | ⟨h0, t⟩
    · exact absurd rfl (hne (lab, []) hp)
    have hmem_g : (lab, t) ∈ grp h0 pairs := (mem_grp_iff h0 pairs lab t).2 hp
    have hgne : grp h0 pairs ≠ [] := fun hc => by
      rw [hc] at hmem_g
      simp at hmem_g
    have hchar := buildAux_ok_char fuel pairs letters m hne hok h0
    have hkmem : h0 ∈ letters := hcov (lab, h0 :: t) hp h0 (by simp)
    rcases t with _ | ⟨t1, trest⟩
    · have hall : ∀ e ∈ grp h0 pairs, e.2 = [] := by
        intro e he
        have hmm := (mem_grp_iff h0 pairs e.1 e.2).1 (by simpa using he)
        have heq := hpf (lab, [h0]) hp (e.1, h0 :: e.2) hmm ⟨e.2, rfl⟩
        have h2 := congrArg Prod.snd heq
        simp only at h2
        injection h2 with _ h3
        exact h3.symm
      rcases hchar.2.2.2.1 hkmem hgne hall with ⟨lab0, hlk, hmem0⟩
      have hmm0 := (mem_grp_iff h0 pairs lab0 []).1 hmem0
      have heq := hpf (lab0, [h0]) hmm0 (lab, [h0]) hp ⟨[], by simp⟩
      have hlab : lab0 = lab := congrArg Prod.fst heq
      subst hlab
      exact hlk
    · have hall : ∀ e ∈ grp h0 pairs, e.2 ≠ [] := by
        intro e he hene
        have hmm := (mem_grp_iff h0 pairs e.1 e.2).1 (by simpa using he)
        rw [hene] at hmm
        have heq := hpf (e.1, [h0]) hmm (lab, h0 :: t1 :: trest) hp
          ⟨t1 :: trest, rfl⟩
        have h2 := congrArg Prod.snd heq
        simp at h2
      rcases hchar.2.2.1 hkmem hgne hall with ⟨mm, hlk, hsub⟩
      have hcov' : ∀ e ∈ grp h0 pairs, ∀ i ∈ e.2, i ∈ letters := by
        intro e he i hi
        have hmm := (mem_grp_iff h0 pairs e.1 e.2).1 (by simpa using he)
        exact hcov (e.1, h0 :: e.2) hmm i (by simp [hi])
      have hpf' : ∀ p' ∈ grp h0 pairs, ∀ q' ∈ grp h0 pairs,
          p'.2 <+: q'.2 → p' = q' := by
        intro p' hp' q' hq' hpre
        have hmp := (mem_grp_iff h0 pairs p'.1 p'.2).1 (by simpa using hp')
        have hmq := (mem_grp_iff h0 pairs q'.1 q'.2).1 (by simpa using hq')
        rcases hpre with ⟨tl, htl⟩
        have heq := hpf (p'.1, h0 :: p'.2) hmp (q'.1, h0 :: q'.2) hmq
          ⟨tl, by simp [htl]⟩
        have h1 := congrArg Prod.fst heq
        have h2 := congrArg Prod.snd heq
        simp only at h1 h2
        injection h2 with _ h3
        exact Prod.ext h1 h3
      have hwalk := ih (grp h0 pairs) letters mm hsub hall hcov' hpf'
        (lab, t1 :: trest) hmem_g
      rw [walkT_cons m mm h0 t1 trest hlk]
      exact hwalk

/-- A nonempty prefix-free pair family over a duplicate-free alphabet builds
successfully, and the built trie decodes every pair's code to its label. -/
lemma build_tree_pf_ok [DecidableEq I] (pairs : List (L × List I))
    (letters : List I)
    (hne : ∀ p ∈ pairs, p.2 ≠ [])
    (hcov : ∀ p ∈ pairs, ∀ i ∈ p.2, i ∈ letters)
    (hnd : letters.Nodup)
    (hpf : ∀ p ∈ pairs, ∀ q ∈ pairs, p.2 <+: q.2 → p = q)
    (hpne : pairs ≠ []) :
    ∃ m, build_tree pairs letters = Except.ok m ∧
      ∀ p ∈ pairs, walkT m p.2 = some (Tree.leaf p.1) := by
  rcases hres : build_tree pairs letters with b | m
  · exfalso
    cases b with
    | npf =>
      rcases buildAux_npf_viol _ pairs letters hne hnd hres with
        ⟨p, hp, q, hq, hpre, hlen⟩
      have heq := hpf p hp q hq hpre
      rw [heq] at hlen
      exact absurd hlen (lt_irrefl _)
    | aborted =>
      exact buildAux_no_abort _ pairs letters hne hcov hnd
        (fun p hp => Nat.lt_succ_of_le (length_le_maxCodeLen pairs p hp))
        hpne hres
  · exact ⟨m, rfl, walk_built _ pairs letters m hres hne hcov hpf⟩

lemma runLetters_cons [DecidableEq I] (roots cur : TMap I L) (pre : List I)
    (i : I) (rest : List I) :
    runLetters (E := E) roots cur pre (i :: rest) =
      ((step (E := E) roots cur pre i).1.toList ++
        (runLetters (E := E) roots (step (E := E) roots cur pre i).2.1
          (step (E := E) roots cur pre i).2.2 rest).1,
       (runLetters (E := E) roots (step (E := E) roots cur pre i).2.1
          (step (E := E) roots cur pre i).2.2 rest).2) := rfl

/-- Feeding one complete code whose walk ends in a leaf emits exactly that
label and returns the lexer to the root with an empty prefix. -/
lemma runLetters_code [DecidableEq I] (roots : TMap I L) :
    ∀ (code : List I) (cur : TMap I L) (pre : List I) (lab : L),
      walkT cur code = some (Tree.leaf lab) →
      runLetters (E := E) roots cur pre code = ([Except.ok lab], roots, []) := by
  intro code
  induction code with
  | nil => intro cur pre lab hw; simp [walkT] at hw
  | cons i rest ihc =>
    intro cur pre lab hw
    cases rest with
    | nil =>
      have hw' : alookup cur i = some (Tree.leaf lab) := hw
      simp [runLetters, step, hw']
    | cons j rest' =>
      obtain ⟨mm, ha, hw2⟩ := walkT_cons_inv cur i j rest' _ hw
      have hstep : step (E := E) roots cur pre i = (none, mm, pre ++ [i]) := by
        simp [step, ha]
      rw [runLetters_cons, hstep]
      simp only
      rw [ihc mm (pre ++ [i]) lab hw2]
      simp

/-- Feeding the concatenation of complete codes emits the label sequence and
ends at the root with an empty prefix. -/
lemma runLetters_flat [DecidableEq I] (roots : TMap I L) (codeOf : L → List I) :
    ∀ (labs : List L),
      (∀ lab ∈ labs, walkT roots (codeOf lab) = some (Tree.leaf lab)) →
      runLetters (E := E) roots roots [] ((labs.map codeOf).flatten) =
        (labs.map Except.ok, roots, []) := by
  intro labs
  induction labs with
  | nil => intro _; simp [runLetters]
  | cons lab rest ih =>
    intro hw
    have h1 : runLetters (E := E) roots roots [] (codeOf lab) =
        ([Except.ok lab], roots, []) :=
      runLetters_code roots (codeOf lab) roots [] lab (hw lab (by simp))
    simp only [List.map_cons, List.flatten_cons]
    rw [runLetters_append, h1]
    simp only
    rw [ih (fun l hl => hw l (by simp [hl]))]
    simp

lemma lexOnce_flat [DecidableEq I] (roots : TMap I L) (codeOf : L → List I)
    (labs : List L)
    (hw : ∀ lab ∈ labs, walkT roots (codeOf lab) = some (Tree.leaf lab)) :
    lexOnce roots ((labs.map codeOf).flatten) = labs.map Except.ok := by
  unfold lexOnce
  rw [runLetters_flat roots codeOf labs hw]
  simp

/-- The error-forwarding iterator agrees with the plain one on an all-`Ok`
upstream. -/
lemma runLettersE_map_ok [DecidableEq I] (roots : TMap I L) :
    ∀ (input : List I) (cur : TMap I L) (pre : List I),
      runLettersE (E := E) roots cur pre (input.map Except.ok) =
        runLetters (E := E) roots cur pre input := by
  intro input
  induction input with
  | nil => intro cur pre; rfl
  | cons i rest ih =>
    intro cur pre
    simp only [List.map_cons, runLettersE, runLetters, stepE]
    rw [ih]

lemma lexOnceE_flat [DecidableEq I] (roots : TMap I L) (codeOf : L → List I)
    (labs : List L)
    (hw : ∀ lab ∈ labs, walkT roots (codeOf lab) = some (Tree.leaf lab)) :
    lexOnceE (E := E) roots (((labs.map codeOf).flatten).map Except.ok) =
      labs.map Except.ok := by
  unfold lexOnceE
  rw [runLettersE_map_ok, runLetters_flat roots codeOf labs hw]
  simp

lemma flatten_map_flatten {α β γ : Type _} (f : α → List β) (g : β → List γ)
    (xs : List α) :
    (xs.map (fun a => ((f a).map g).flatten)).flatten =
      (((xs.map f).flatten).map g).flatten := by
  induction xs with
  | nil => simp
  | cons a rest ih => simp [ih]

end lexing

namespace bits

lemma exc_bind_ok {ε α β : Type _} (a : α) (f : α → Except ε β) :
    (Except.ok a >>= f) = f a := rfl

lemma exc_bind_error {ε α β : Type _} (e : ε) (f : α → Except ε β) :
    ((Except.error e : Except ε α) >>= f) = .error e := rfl

lemma liftGroup_map_ok {E : Type u} (xs : List ℕ) :
    liftGroup (E := E) (xs.map Except.ok) = .ok xs := by
  induction xs with
  | nil => rfl
  | cons x xs ih => simp [liftGroup, ih, exc_bind_ok]

lemma liftGroup_first_error {E : Type u} (pre : List ℕ) (e : E)
    (zs : List (Except E ℕ)) :
    liftGroup (pre.map Except.ok ++ .error e :: zs) = .error e := by
  induction pre with
  | nil => rfl
  | cons x pre ih => simp [liftGroup, ih, exc_bind_ok, exc_bind_error]

lemma vecSink_write (w bs : List ℕ) : vecSink.write w bs = .ok (w ++ bs) := rfl

lemma liftIo_bind_congr {E : Type u} {IoE W : Type _} (res : Except IoE W)
    (f g : W → Except (ConcatError E IoE) W) (h : ∀ w', f w' = g w') :
    (liftIo res >>= f) = (liftIo res >>= g) := by
  cases res <;> simp [liftIo, exc_bind_ok, exc_bind_error, h]

lemma concat8_eq_gen {E : Type u} {IoE W : Type _} (sink : Sink W IoE) :
    ∀ (xs : List (Except E ℕ)) (w : W),
      concat8 sink xs w = concatGen 1 recomb8 sink xs w := by
  intro xs
  induction xs with
  | nil =>
    intro w
    rw [concatGen]
    simp [concat8]
  | cons x rest ih =>
    intro w
    rw [concatGen, dif_pos ⟨one_pos, by simp⟩]
    simp only [List.take_succ_cons, List.take_zero, List.drop_succ_cons,
      List.drop_zero, liftGroup]
    cases x with
    | error e => simp [concat8, liftParent, exc_bind_error]
    | ok v =>
      simp only [concat8, liftParent, exc_bind_ok, recomb8]
      exact liftIo_bind_congr _ _ _ (fun w' => ih w')

lemma concat4_eq_gen {E : Type u} {IoE W : Type _} (sink : Sink W IoE) :
    ∀ (xs : List (Except E ℕ)) (w : W),
      concat4 sink xs w = concatGen 2 recomb4 sink xs w := by
  have H : ∀ (n : ℕ) (xs : List (Except E ℕ)), xs.length ≤ n → ∀ w,
      concat4 sink xs w = concatGen 2 recomb4 sink xs w := by
    intro n
    induction n with
    | zero =>
      intro xs hlen w
      rcases xs with _ | ⟨x0, rest⟩
      · rw [concatGen]
        simp [concat4]
      · simp at hlen
    | succ n ihn =>
      intro xs hlen w
      rcases xs with _ | ⟨x0, _ | ⟨x1, rest⟩⟩
      · rw [concatGen]
        simp [concat4]
      · rw [concatGen]
        simp [concat4]
      · rw [concatGen, dif_pos ⟨by norm_num, by simp⟩]
        simp only [List.take_succ_cons, List.take_zero, List.drop_succ_cons,
          List.drop_zero, liftGroup]
        cases x0 with
        | error e => simp [concat4, liftParent, exc_bind_error]
        | ok v0 =>
          cases x1 with
          | error e => simp [concat4, liftParent, exc_bind_ok, exc_bind_error]
          | ok v1 =>
            simp only [concat4, liftParent, exc_bind_ok, recomb4]
            refine liftIo_bind_congr _ _ _ (fun w' => ihn rest ?_ w')
            simp at hlen
            omega
  exact fun xs w => H xs.length xs le_rfl w

lemma concat6_eq_gen {E : Type u} {IoE W : Type _} (sink : Sink W IoE) :
    ∀ (xs : List (Except E ℕ)) (w : W),
      concat6 sink xs w = concatGen 4 recomb6 sink xs w := by
  have H : ∀ (n : ℕ) (xs : List (Except E ℕ)), xs.length ≤ n → ∀ w,
      concat6 sink xs w = concatGen 4 recomb6 sink xs w := by
    intro n
    induction n with
    | zero =>
      intro xs hlen w
      rcases xs with _ | ⟨x0, rest⟩
      · rw [concatGen]
        simp [concat6]
      · simp at hlen
    | succ n ihn =>
      intro xs hlen w
      rcases xs with _ | ⟨x0, _ | ⟨x1, _ | ⟨x2, _ | ⟨x3, rest⟩⟩⟩⟩
      · rw [concatGen]
        simp [concat6]
      · rw [concatGen]
        simp [concat6]
      · rw [concatGen]
        simp [concat6]
      · rw [concatGen]
        simp [concat6]
      · rw [concatGen, dif_pos ⟨by norm_num, by simp⟩]
        simp only [List.take_succ_cons, List.take_zero, List.drop_succ_cons,
          List.drop_zero, liftGroup]
        cases x0 with
        | error e => simp [concat6, liftParent, exc_bind_error]
        | ok v0 =>
          cases x1 with
          | error e => simp [concat6, liftParent, exc_bind_ok, exc_bind_error]
          | ok v1 =>
            cases x2 with
            | error e => simp [concat6, liftParent, exc_bind_ok, exc_bind_error]
            | ok v2 =>
              cases x3 with
              | error e => simp [concat6, liftParent, exc_bind_ok, exc_bind_error]
              | ok v3 =>
                simp only [concat6, liftParent, exc_bind_ok, recomb6]
                refine liftIo_bind_congr _ _ _ (fun w' => ihn rest ?_ w')
                simp at hlen
                omega
  exact fun xs w => H xs.length xs le_rfl w

lemma concatGen_all_ok {E : Type u} (g : ℕ) (hg : 0 < g)
    (recomb : List ℕ → List ℕ) :
    ∀ (xs : List ℕ) (w : List ℕ),
      concatGen (E := E) g recomb vecSink (xs.map Except.ok) w =
        .ok (w ++ ((chunksExact g xs).map recomb).flatten) := by
  have H : ∀ (n : ℕ) (xs : List ℕ), xs.length ≤ n → ∀ w,
      concatGen (E := E) g recomb vecSink (xs.map Except.ok) w =
        .ok (w ++ ((chunksExact g xs).map recomb).flatten) := by
    intro n
    induction n with
    | zero =>
      intro xs hlen w
      have hx : xs = [] := List.length_eq_zero.1 (Nat.le_zero.1 hlen)
      subst hx
      rw [concatGen, chunksExact, dif_neg (by simp [hg.ne']), dif_neg (by simp [hg.ne'])]
      simp
    | succ n ihn =>
      intro xs hlen w
      by_cases hc : g ≤ xs.length
      · have hc1 : 0 < g ∧ g ≤ (xs.map (Except.ok (ε := E))).length := by
          refine ⟨hg, ?_⟩
          simpa using hc
        rw [concatGen, chunksExact, dif_pos hc1, dif_pos ⟨hg, hc⟩]
        rw [← List.map_take, liftGroup_map_ok]
        simp only [liftParent, exc_bind_ok, vecSink_write, liftIo]
        rw [← List.map_drop]
        rw [ihn (xs.drop g) (by simp only [List.length_drop]; omega)
          (w ++ recomb (xs.take g))]
        simp [List.append_assoc]
      · have hc1 : ¬(0 < g ∧ g ≤ (xs.map (Except.ok (ε := E))).length) := by
          simp only [List.length_map]
          tauto
        rw [concatGen, chunksExact, dif_neg hc1, dif_neg (by tauto)]
        simp
  exact fun xs w => H xs.length xs le_rfl w

lemma concatGen_error_head {E : Type u} (g : ℕ) (hg : 0 < g)
    (recomb : List ℕ → List ℕ) (pre : List ℕ) (hlt : pre.length < g) (e : E)
    (rest : List (Except E ℕ)) (w : List ℕ)
    (hcond : g ≤ pre.length + 1 + rest.length) :
    concatGen g recomb vecSink (pre.map Except.ok ++ .error e :: rest) w =
      .error (.parent e) := by
  have hc1 : 0 < g ∧ g ≤ (pre.map (Except.ok (ε := E)) ++ .error e :: rest).length := by
    refine ⟨hg, ?_⟩
    simp only [List.length_append, List.length_map, List.length_cons]
    omega
  rw [concatGen, dif_pos hc1]
  have htake : (pre.map Except.ok ++ Except.error e :: rest).take g =
      pre.map Except.ok ++ Except.error e :: rest.take (g - pre.length - 1) := by
    rw [List.take_append_eq_append_take]
    congr 1
    · exact List.take_of_length_le (by simp; omega)
    · have hs : g - (pre.map (Except.ok (ε := E))).length = (g - pre.length - 1) + 1 := by
        simp only [List.length_map]
        omega
      rw [hs, List.take_succ_cons]
  rw [htake, liftGroup_first_error]
  rfl

lemma concatGen_first_error {E : Type u} (g : ℕ) (hg : 0 < g)
    (recomb : List ℕ → List ℕ) :
    ∀ (pre : List ℕ) (e : E) (rest : List (Except E ℕ)) (w : List ℕ),
      g ≤ pre.length % g + 1 + rest.length →
      concatGen g recomb vecSink (pre.map Except.ok ++ .error e :: rest) w =
        .error (.parent e) := by
  have H : ∀ (n : ℕ) (pre : List ℕ), pre.length ≤ n →
      ∀ (e : E) (rest : List (Except E ℕ)) (w : List ℕ),
      g ≤ pre.length % g + 1 + rest.length →
      concatGen g recomb vecSink (pre.map Except.ok ++ .error e :: rest) w =
        .error (.parent e) := by
    intro n
    induction n with
    | zero =>
      intro pre hlen e rest w hcond
      have hx : pre = [] := List.length_eq_zero.1 (Nat.le_zero.1 hlen)
      subst hx
      exact concatGen_error_head g hg recomb [] (by simpa using hg) e rest w
        (by simpa using hcond)
    | succ n ihn =>
      intro pre hlen e rest w hcond
      by_cases hlt : pre.length < g
      · exact concatGen_error_head g hg recomb pre hlt e rest w
          (by rwa [Nat.mod_eq_of_lt hlt] at hcond)
      · push_neg at hlt
        have hc1 : 0 < g ∧
            g ≤ (pre.map (Except.ok (ε := E)) ++ .error e :: rest).length := by
          refine ⟨hg, ?_⟩
          simp only [List.length_append, List.length_map, List.length_cons]
          omega
        rw [concatGen, dif_pos hc1]
        rw [List.take_append_of_le_length (by simp only [List.length_map]; omega),
          ← List.map_take, liftGroup_map_ok]
        simp only [liftParent, exc_bind_ok, vecSink_write, liftIo]
        rw [List.drop_append_of_le_length (by simp only [List.length_map]; omega),
          ← List.map_drop]
        have hmod : (pre.length - g) % g = pre.length % g := by
          conv_rhs => rw [show pre.length = (pre.length - g) + g by omega]
          rw [Nat.add_mod_right]
        refine ihn (pre.drop g) (by simp only [List.length_drop]; omega) e rest _ ?_
        simp only [List.length_drop]
        omega
  exact fun pre e rest w h => H pre.length pre le_rfl e rest w h

lemma concatGen_io_fail {E : Type u} {IoE W : Type _} (g : ℕ) (hg : 0 < g)
    (recomb : List ℕ → List ℕ) (ioe : IoE) (xs : List ℕ)
    (zs : List (Except E ℕ)) (w : W) (hlen : g ≤ xs.length) :
    concatGen g recomb (failSink ioe) (xs.map Except.ok ++ zs) w =
      .error (.ioFail ioe) := by
  have hc1 : 0 < g ∧ g ≤ (xs.map (Except.ok (ε := E)) ++ zs).length := by
    refine ⟨hg, ?_⟩
    simp only [List.length_append, List.length_map]
    omega
  rw [concatGen, dif_pos hc1]
  rw [List.take_append_of_le_length (by simp only [List.length_map]; omega),
    ← List.map_take, liftGroup_map_ok]
  simp [liftParent, exc_bind_ok, failSink, liftIo, exc_bind_error]

/-- C6 (amended): each width's `concat` consumes symbols in fixed-size groups
(1 for width 8, 2 for width 4, 4 for width 6) — it equals the group-at-a-time
reference `concatGen` with the width's byte reconstruction. On an all-`Ok`
input, one byte group is written per complete symbol group and a trailing
partial group is silently dropped with no partial byte written; the first
error within the complete groups is propagated as `ConcatError::Parent`,
while a sink write failure surfaces as `ConcatError::Io`; an error lying in
the dropped trailing partial group is dropped with it (this last point is
where the claim as stated fails, see the counterexample). -/
theorem c6_concat_groups :
    (∀ (E IoE W : Type) (sink : Sink W IoE) (xs : List (Except E ℕ)) (w : W),
      concat8 sink xs w = concatGen 1 recomb8 sink xs w) ∧
    (∀ (E IoE W : Type) (sink : Sink W IoE) (xs : List (Except E ℕ)) (w : W),
      concat4 sink xs w = concatGen 2 recomb4 sink xs w) ∧
    (∀ (E IoE W : Type) (sink : Sink W IoE) (xs : List (Except E ℕ)) (w : W),
      concat6 sink xs w = concatGen 4 recomb6 sink xs w) ∧
    (∀ (E : Type) (g : ℕ), 0 < g →
      ∀ (recomb : List ℕ → List ℕ) (xs : List ℕ) (w : List ℕ),
      concatGen (E := E) g recomb vecSink (xs.map Except.ok) w =
        .ok (w ++ ((chunksExact g xs).map recomb).flatten)) ∧
    (∀ (E : Type) (g : ℕ), 0 < g →
      ∀ (recomb : List ℕ → List ℕ) (pre : List ℕ) (e : E)
        (rest : List (Except E ℕ)) (w : List ℕ),
      g ≤ pre.length % g + 1 + rest.length →
      concatGen g recomb vecSink (pre.map Except.ok ++ .error e :: rest) w =
        .error (.parent e)) ∧
    (∀ (E IoE W : Type) (g : ℕ), 0 < g →
      ∀ (recomb : List ℕ → List ℕ) (ioe : IoE) (xs : List ℕ)
        (zs : List (Except E ℕ)) (w : W),
      g ≤ xs.length →
      concatGen g recomb (failSink ioe) (xs.map Except.ok ++ zs) w =
        .error (.ioFail ioe)) :=
  ⟨fun _ _ _ sink xs w => concat8_eq_gen sink xs w,
   fun _ _ _ sink xs w => concat4_eq_gen sink xs w,
   fun _ _ _ sink xs w => concat6_eq_gen sink xs w,
   fun _ g hg recomb xs w => concatGen_all_ok g hg recomb xs w,
   fun _ g hg recomb pre e rest w h => concatGen_first_error g hg recomb pre e rest w h,
   fun _ _ _ g hg recomb ioe xs zs w h => concatGen_io_fail g hg recomb ioe xs zs w h⟩

/-- Witness for C6 at concrete inputs: a dropped trailing symbol for width 4,
a propagated upstream error, and a surfaced sink failure. -/
theorem c6_concat_groups_witness :
    (concat4 vecSink [(Except.ok 7 : Except ℕ ℕ)] [] =
      concatGen 2 recomb4 vecSink [(Except.ok 7 : Except ℕ ℕ)] []) ∧
    (concatGen (E := ℕ) 2 recomb4 vecSink ([7].map Except.ok) [] =
      .ok ([] ++ ((chunksExact 2 [7]).map recomb4).flatten)) ∧
    (concatGen 2 recomb4 vecSink (([] : List ℕ).map Except.ok ++
        .error (3 : ℕ) :: [Except.ok 1]) [] = .error (.parent 3)) ∧
    (concatGen 1 recomb8 (failSink (0 : ℕ))
        (([5] : List ℕ).map (Except.ok (ε := ℕ)) ++ ([] : List (Except ℕ ℕ)))
        ([] : List ℕ) = .error (.ioFail 0)) :=
  ⟨c6_concat_groups.2.1 ℕ Empty (List ℕ) vecSink [Except.ok 7] [],
   c6_concat_groups.2.2.2.1 ℕ 2 (by norm_num) recomb4 [7] [],
   c6_concat_groups.2.2.2.2.1 ℕ 2 (by norm_num) recomb4 [] 3 [Except.ok 1] []
     (by norm_num),
   c6_concat_groups.2.2.2.2.2 ℕ ℕ (List ℕ) 1 (by norm_num) recomb8 0 [5] [] []
     (by norm_num)⟩

/-- Counterexample to C6 as stated: the same single upstream error is the
first error of the symbol sequence, yet width-4 `concat` drops it silently
with the incomplete trailing group and returns success, while width-8
`concat` (whose group size 1 makes the group complete) propagates it. -/
theorem c6_counterexample :
    concat4 vecSink [(Except.error 7 : Except ℕ ℕ)] [] = .ok [] ∧
    concat8 vecSink [(Except.error 7 : Except ℕ ℕ)] [] = .error (.parent 7) :=
  ⟨rfl, rfl⟩

/-! #### Byte/symbol round trips per width (toward claim C1)

Bounded bit-arithmetic facts, each decided over at most 256 cases. -/

lemma byte_bitops : ∀ x, x < 256 →
    x &&& 3 = x % 4 ∧ x &&& 15 = x % 16 ∧ x &&& 63 = x % 64 ∧
    x >>> 2 = x / 4 ∧ x >>> 4 = x / 16 ∧ x >>> 6 = x / 64 := by decide

lemma lor_two : ∀ u, u < 64 → ∀ v, v < 4 →
    (((u <<< 2) % 256) ||| v) = u * 4 + v := by decide

lemma lor_four : ∀ u, u < 16 → ∀ v, v < 16 →
    (((u <<< 4) % 256) ||| v) = u * 16 + v := by decide

lemma lor_six : ∀ u, u < 4 → ∀ v, v < 64 →
    (((u <<< 6) % 256) ||| v) = u * 64 + v := by decide

lemma nibble_byte : ∀ b, b < 256 →
    ((((b >>> 4) <<< 4) % 256) ||| (b &&& 15)) = b := by decide

/-- Width 8: `concat` over an all-`Ok` symbol stream writes the bytes back. -/
lemma concat8_map_ok {E : Type u} :
    ∀ (xs : List ℕ) (w : List ℕ),
      concat8 (E := E) vecSink (xs.map Except.ok) w = .ok (w ++ xs) := by
  intro xs
  induction xs with
  | nil => intro w; simp [concat8]
  | cons x rest ih =>
    intro w
    simp only [List.map_cons, concat8, liftParent, exc_bind_ok, vecSink_write,
      liftIo]
    rw [ih]
    simp

lemma iterBytes4_cons (b : ℕ) (rest : List ℕ) :
    iterBytes4 (b :: rest) = (b >>> 4) :: (b &&& 15) :: iterBytes4 rest := by
  simp [iterBytes4]

/-- Width 4: the nibble stream of a byte list recombines to the byte list. -/
lemma concat4_iter {E : Type u} :
    ∀ (bytes : List ℕ), (∀ b ∈ bytes, b < 256) → ∀ (w : List ℕ),
      concat4 (E := E) vecSink ((iterBytes4 bytes).map Except.ok) w =
        .ok (w ++ bytes) := by
  intro bytes
  induction bytes with
  | nil => intro _ w; simp [iterBytes4, concat4]
  | cons b rest ih =>
    intro hb w
    have hb0 : b < 256 := hb b (by simp)
    rw [iterBytes4_cons]
    simp only [List.map_cons, concat4, liftParent, exc_bind_ok, vecSink_write,
      liftIo]
    rw [nibble_byte b hb0, ih (fun x hx => hb x (by simp [hx])) (w ++ [b])]
    simp

/-- Width 6: the four six-bit symbols of a 3-byte group recombine to it. -/
lemma six_group (x0 x1 x2 : ℕ) (h0 : x0 < 256) (h1 : x1 < 256) (h2 : x2 < 256) :
    ((((x0 >>> 2) <<< 2) % 256) |||
        (((((x0 &&& 3) <<< 4) % 256) ||| (x1 >>> 4)) >>> 4)) = x0 ∧
    (((((((x0 &&& 3) <<< 4) % 256) ||| (x1 >>> 4)) &&& 15) <<< 4) % 256 |||
        (((((x1 &&& 15) <<< 2) % 256) ||| (x2 >>> 6)) >>> 2)) = x1 ∧
    (((((((x1 &&& 15) <<< 2) % 256) ||| (x2 >>> 6)) &&& 3) <<< 6) % 256 |||
        (x2 &&& 63)) = x2 := by
  have hd1 : x0 / 4 < 64 := by omega
  have hd2 : ((x0 % 4) * 16 + x1 / 16) / 16 < 4 := by omega
  have hd3 : ((x0 % 4) * 16 + x1 / 16) % 16 < 16 := by omega
  have hd4 : ((x1 % 16) * 4 + x2 / 64) / 4 < 16 := by omega
  have hd5 : ((x1 % 16) * 4 + x2 / 64) % 4 < 4 := by omega
  have hd6 : x2 % 64 < 64 := by omega
  have hs1lt : (x0 % 4) * 16 + x1 / 16 < 256 := by omega
  have hs2lt : (x1 % 16) * 4 + x2 / 64 < 256 := by omega
  obtain ⟨e03, e015, e063, e04, e016, e064⟩ := byte_bitops x0 h0
  obtain ⟨e13, e115, e163, e14, e116, e164⟩ := byte_bitops x1 h1
  obtain ⟨e23, e215, e263, e24, e216, e264⟩ := byte_bitops x2 h2
  obtain ⟨f3, f15, _, f4, f16, _⟩ := byte_bitops _ hs1lt
  obtain ⟨g3, g15, _, g4, g16, _⟩ := byte_bitops _ hs2lt
  have hs1 : ((((x0 &&& 3) <<< 4) % 256) ||| (x1 >>> 4)) =
      (x0 % 4) * 16 + x1 / 16 := by
    rw [e03, e116]
    exact lor_four _ (by omega) _ (by omega)
  have hs2 : ((((x1 &&& 15) <<< 2) % 256) ||| (x2 >>> 6)) =
      (x1 % 16) * 4 + x2 / 64 := by
    rw [e115, e264]
    exact lor_two _ (by omega) _ (by omega)
  refine ⟨?_, ?_, ?_⟩
  · rw [hs1, f16, e04]
    rw [lor_two _ hd1 _ hd2]
    omega
  · rw [hs1, hs2, f15, g4]
    rw [lor_four _ hd3 _ hd4]
    clear e03 e015 e063 e04 e016 e064 e13 e115 e163 e14 e116 e164
    clear e23 e215 e263 e24 e216 e264 f3 f15 f4 f16 g3 g15 g4 g16 hs1 hs2
    omega
  · rw [hs2, g3, e263]
    rw [lor_six _ hd5 _ hd6]
    omega

lemma iterBytes6Aux_cons (x0 x1 x2 : ℕ) (rest : List ℕ) :
    iterBytes6Aux (x0 :: x1 :: x2 :: rest) =
      (x0 >>> 2) :: ((((x0 &&& 3) <<< 4) % 256) ||| (x1 >>> 4)) ::
      ((((x1 &&& 15) <<< 2) % 256) ||| (x2 >>> 6)) :: (x2 &&& 63) ::
      iterBytes6Aux rest := by
  simp [iterBytes6Aux]

lemma concat6_iterAux {E : Type u} :
    ∀ (n : ℕ) (xs : List ℕ), xs.length ≤ n → (∀ b ∈ xs, b < 256) →
      xs.length % 3 = 0 → ∀ (w : List ℕ),
      concat6 (E := E) vecSink ((iterBytes6Aux xs).map Except.ok) w =
        .ok (w ++ xs) := by
  intro n
  induction n with
  | zero =>
    intro xs hlen _ _ w
    have : xs = [] := List.length_eq_zero.1 (by omega)
    subst this
    simp [iterBytes6Aux, concat6]
  | succ n ihn =>
    intro xs hlen hb hmod w
    rcases xs with _ | ⟨x0, _ | ⟨x1, _ | ⟨x2, rest⟩⟩⟩
    · simp [iterBytes6Aux, concat6]
    · simp at hmod
    · simp at hmod
    · have h0 : x0 < 256 := hb x0 (by simp)
      have h1 : x1 < 256 := hb x1 (by simp)
      have h2 : x2 < 256 := hb x2 (by simp)
      obtain ⟨r0, r1, r2⟩ := six_group x0 x1 x2 h0 h1 h2
      rw [iterBytes6Aux_cons]
      simp only [List.map_cons, concat6, liftParent, exc_bind_ok, vecSink_write,
        liftIo]
      rw [r0, r1, r2]
      have hrest : rest.length ≤ n := by
        simp only [List.length_cons] at hlen
        omega
      have hrmod : rest.length % 3 = 0 := by
        simp only [List.length_cons] at hmod
        omega
      rw [ihn rest hrest (fun x hx => hb x (by simp [hx])) hrmod
        (w ++ [x0, x1, x2])]
      simp

lemma padQuantum_six : padQuantum 6 = 3 := rfl

lemma pad_six_len (bytes : List ℕ) : (pad 6 bytes).length % 3 = 0 := by
  simp only [pad, padQuantum_six, List.length_append, List.length_replicate]
  omega

lemma pad_six_mem {bytes : List ℕ} (hb : ∀ b ∈ bytes, b < 256) :
    ∀ x ∈ pad 6 bytes, x < 256 := by
  intro x hx
  simp only [pad, padQuantum_six, List.mem_append, List.mem_replicate] at hx
  rcases hx with h | h
  · exact hb x h
  · omega

lemma pad_six_take (bytes : List ℕ) :
    (pad 6 bytes).take bytes.length = bytes := by
  simp only [pad, padQuantum_six]
  rw [List.take_append_of_le_length le_rfl]
  exact List.take_length bytes

lemma concat6_iter {E : Type u} (bytes : List ℕ) (hb : ∀ b ∈ bytes, b < 256)
    (w : List ℕ) :
    concat6 (E := E) vecSink ((iterBytes6 bytes).map Except.ok) w =
      .ok (w ++ pad 6 bytes) := by
  unfold iterBytes6
  exact concat6_iterAux (pad 6 bytes).length (pad 6 bytes) le_rfl
    (pad_six_mem hb) (pad_six_len bytes) w

end bits

namespace encoding

open characters

/-! ### Batch A: prefix sums and interval endpoints -/

lemma accu_freq_succ (freq : List ℚ) (x : ℕ) :
    accu_freq freq (x + 1) = accu_freq freq x + freq.getD (x + 1) 0 := rfl

lemma accu_freq2_strict (freq : List ℚ)
    (hpos : ∀ k, k < freq.length → 0 < freq.getD k 0) :
    ∀ x y, x < y → y < freq.length →
      accu_freq2 freq x < accu_freq2 freq y := by
  intro x y
  induction y with
  | zero => intro h _; omega
  | succ y ih =>
    intro hxy hylen
    have hy1 : 0 < freq.getD (y + 1) 0 := hpos (y + 1) hylen
    rcases Nat.lt_succ_iff_lt_or_eq.1 hxy with h | h
    · have hylen' : y < freq.length := by omega
      have h1 := ih h hylen'
      have hy0 : 0 < freq.getD y 0 := hpos y hylen'
      unfold accu_freq2 at h1 ⊢
      rw [accu_freq_succ]
      nlinarith [h1]
    · subst h
      have hx0 : 0 < freq.getD x 0 := hpos x (by omega)
      unfold accu_freq2
      rw [accu_freq_succ]
      nlinarith

lemma accu_freq2_mono (freq : List ℚ)
    (hpos : ∀ k, k < freq.length → 0 < freq.getD k 0)
    (x y : ℕ) (hxy : x ≤ y) (hy : y < freq.length) :
    accu_freq2 freq x ≤ accu_freq2 freq y := by
  rcases Nat.lt_or_ge x y with h | h
  · exact le_of_lt (accu_freq2_strict freq hpos x y h hy)
  · have : x = y := by omega
    subst this
    exact le_refl _

lemma csum_succ (cost : List ℕ) (c : ℚ) (m : ℕ) :
    csum cost c (m + 1) = csum cost c m + c ^ cost.getD m 0 := by
  unfold csum
  rw [List.range_succ, List.map_append, List.sum_append]
  simp

lemma rmv_eq_lmv_succ (cost : List ℕ) (c : ℚ) (apl apr : ℚ) (m : ℕ) :
    rmv cost c apl apr m = lmv cost c apl apr (m + 1) := by
  unfold rmv lmv
  rw [csum_succ]
  ring

lemma lmv_zero (cost : List ℕ) (c : ℚ) (apl apr : ℚ) :
    lmv cost c apl apr 0 = apl := by
  unfold lmv csum
  simp

lemma lmv_top (cost : List ℕ) (c : ℚ) (apl apr : ℚ)
    (hK : csum cost c cost.length = 1) :
    lmv cost c apl apr cost.length = apr := by
  unfold lmv
  rw [hK]
  ring

lemma lmv_step_lt (cost : List ℕ) (c : ℚ) (apl apr : ℚ) (hc : 0 < c)
    (hd : apl < apr) (m : ℕ) :
    lmv cost c apl apr m < lmv cost c apl apr (m + 1) := by
  rw [← rmv_eq_lmv_succ]
  unfold rmv
  have h1 : 0 < c ^ cost.getD m 0 := pow_pos hc _
  nlinarith

lemma lmv_mono (cost : List ℕ) (c : ℚ) (apl apr : ℚ) (hc : 0 < c)
    (hd : apl < apr) :
    ∀ m m', m ≤ m' → lmv cost c apl apr m ≤ lmv cost c apl apr m' := by
  intro m m' h
  induction m' with
  | zero =>
    have : m = 0 := by omega
    subst this
    exact le_refl _
  | succ m' ih =>
    rcases Nat.lt_succ_iff_lt_or_eq.1 (Nat.lt_succ_of_le h) with h2 | h2
    · exact le_trans (ih (by omega)) (le_of_lt (lmv_step_lt cost c apl apr hc hd m'))
    · subst h2
      exact le_refl _

/-- The standing abbreviations: for a range `[l, r]` the endpoints used by the
partition are `apl` and `apr`. -/
lemma accu_nonneg_delta (freq : List ℚ)
    (hpos : ∀ k, k < freq.length → 0 < freq.getD k 0)
    (l r : ℕ) (hlr : l ≤ r) (hr : r < freq.length) :
    (if l = 0 then 0 else accu_freq freq (l - 1)) < accu_freq freq r := by
  have haccu_mono : ∀ x y : ℕ, x ≤ y → y < freq.length →
      accu_freq freq x ≤ accu_freq freq y := by
    intro x y hxy hy
    induction y with
    | zero =>
      have : x = 0 := by omega
      subst this
      exact le_refl _
    | succ y ih =>
      rcases Nat.lt_succ_iff_lt_or_eq.1 (Nat.lt_succ_of_le hxy) with h2 | h2
      · have := ih (by omega) (by omega)
        rw [accu_freq_succ]
        have := hpos (y + 1) hy
        linarith
      · subst h2
        exact le_refl _
  have haccu_pos : ∀ x : ℕ, x < freq.length → 0 < accu_freq freq x := by
    intro x hx
    induction x with
    | zero =>
      unfold accu_freq
      exact hpos 0 hx
    | succ x ih =>
      rw [accu_freq_succ]
      have h1 := ih (by omega)
      have h2 := hpos (x + 1) hx
      linarith
  by_cases hl : l = 0
  · rw [if_pos hl]
    exact haccu_pos r hr
  · rw [if_neg hl]
    have h1 : accu_freq freq (l - 1) ≤ accu_freq freq (r - 1) := by
      apply haccu_mono
      · omega
      · omega
    have h2 : accu_freq freq (r - 1) < accu_freq freq r := by
      have hstep := accu_freq_succ freq (r - 1)
      have hr' : (r - 1) + 1 = r := by omega
      rw [hr'] at hstep
      have := hpos r hr
      linarith
    linarith

lemma accu2_bounds (freq : List ℚ)
    (hpos : ∀ k, k < freq.length → 0 < freq.getD k 0)
    (l r x : ℕ) (hlx : l ≤ x) (hxr : x ≤ r) (hr : r < freq.length) :
    (if l = 0 then 0 else accu_freq freq (l - 1)) ≤ accu_freq2 freq x ∧
      accu_freq2 freq x < accu_freq freq r := by
  constructor
  · have h1 : accu_freq2 freq l ≤ accu_freq2 freq x :=
      accu_freq2_mono freq hpos l x hlx (by omega)
    have h2 : (if l = 0 then 0 else accu_freq freq (l - 1)) ≤ accu_freq2 freq l := by
      by_cases hl : l = 0
      · subst hl
        rw [if_pos rfl]
        unfold accu_freq2 accu_freq
        have := hpos 0 (by omega)
        linarith
      · rw [if_neg hl]
        unfold accu_freq2
        have hstep : accu_freq freq l = accu_freq freq (l - 1) + freq.getD l 0 := by
          have hs := accu_freq_succ freq (l - 1)
          have hl' : (l - 1) + 1 = l := by omega
          rw [hl'] at hs
          exact hs
        rw [hstep]
        have := hpos l (by omega)
        linarith
    linarith
  · have h1 : accu_freq2 freq x ≤ accu_freq2 freq r :=
      accu_freq2_mono freq hpos x r hxr hr
    have h2 : accu_freq2 freq r < accu_freq freq r := by
      unfold accu_freq2
      have := hpos r hr
      linarith
    linarith

/-! ### Batch B/C: run filters and the raw partition as a span -/

lemma partsSpan_nil (a a' : ℕ) : partsSpan a [] a' ↔ a = a' := Iff.rfl

lemma partsSpan_cons (a a' : ℕ) (e : List ℕ) (rest : List (List ℕ)) :
    partsSpan a (e :: rest) a' ↔
      ((e = [] ∧ partsSpan a rest a') ∨
        (∃ b, a ≤ b ∧ e = List.range' a (b + 1 - a) ∧
          partsSpan (b + 1) rest a')) := Iff.rfl

lemma range'_min?_eq (a k : ℕ) (h : 0 < k) :
    (List.range' a k).min? = some a := by
  rw [List.min?_eq_some_iff']
  constructor
  · rw [List.mem_range'_1]
    omega
  · intro b hb
    rw [List.mem_range'_1] at hb
    omega

lemma range'_max?_eq (a k : ℕ) (h : 0 < k) :
    (List.range' a k).max? = some (a + k - 1) := by
  rw [List.max?_eq_some_iff']
  constructor
  · rw [List.mem_range'_1]
    omega
  · intro b hb
    rw [List.mem_range'_1] at hb
    omega

lemma range'_erase_head (a k : ℕ) (h : 0 < k) :
    (List.range' a k).erase a = List.range' (a + 1) (k - 1) := by
  rcases k with _ | k'
  · omega
  · rw [List.range'_succ, List.erase_cons_head]
    simp

lemma range'_erase_last (a k : ℕ) (h : 0 < k) :
    (List.range' a k).erase (a + k - 1) = List.range' a (k - 1) := by
  rcases k with _ | k'
  · omega
  · rw [List.range'_concat, List.erase_append_right]
    · have h1 : a + (k' + 1) - 1 = a + 1 * k' := by omega
      rw [h1]
      simp
    · intro hmem
      rw [List.mem_range'_1] at hmem
      omega

lemma filter_run : ∀ (len x0 a b : ℕ) (p : ℕ → Bool),
    x0 ≤ a → a ≤ b → b < x0 + len →
    (∀ x, x0 ≤ x → x < x0 + len → (p x = true ↔ (a ≤ x ∧ x ≤ b))) →
    (List.range' x0 len).filter p = List.range' a (b + 1 - a) := by
  intro len
  induction len with
  | zero =>
    intro x0 a b p h1 h2 h3 _
    omega
  | succ len ih =>
    intro x0 a b p h1 h2 h3 hp
    rw [List.range'_succ]
    rcases Nat.lt_or_ge x0 a with hlt | hge
    · rw [List.filter_cons_of_neg]
      · apply ih (x0 + 1) a b p (by omega) h2 (by omega)
        intro x hx1 hx2
        exact hp x (by omega) (by omega)
      · rw [hp x0 le_rfl (by omega)]
        omega
    · have hax0 : a = x0 := by omega
      subst hax0
      rw [List.filter_cons_of_pos (by rw [hp a le_rfl (by omega)]; omega)]
      rcases Nat.eq_or_lt_of_le h2 with hab | hab
      · rw [List.filter_eq_nil_iff.2 ?later]
        case later =>
          intro y hy
          rw [List.mem_range'_1] at hy
          rw [hp y (by omega) (by omega)]
          omega
        have hb1 : b + 1 - a = 1 := by omega
        rw [hb1]
        rw [show List.range' a 1 = [a] from rfl]
      · rw [ih (a + 1) (a + 1) b p le_rfl (by omega) (by omega) ?point]
        case point =>
          intro x hx1 hx2
          rw [hp x (by omega) (by omega)]
          omega
        have hsplit : b + 1 - a = (b - a) + 1 := by omega
        rw [hsplit, List.range'_succ]
        have harg : b + 1 - (a + 1) = b - a := by omega
        rw [harg]

lemma span_filters (l r : ℕ) (f : ℕ → ℕ)
    (hmono : ∀ x y, l ≤ x → x ≤ y → y ≤ r → f x ≤ f y) :
    ∀ (n k l' : ℕ),
      l ≤ l' → l' ≤ r + 1 →
      (∀ x, l ≤ x → x ≤ r → (k ≤ f x ↔ l' ≤ x)) →
      (∀ x, l ≤ x → x ≤ r → f x < k + n) →
      partsSpan l' ((List.range' k n).map
        (fun m => (List.range' l (r + 1 - l)).filter (fun x => decide (f x = m))))
        (r + 1) := by
  intro n
  induction n with
  | zero =>
    intro k l' hl1 hl2 hiff hlt
    simp only [List.range'_zero, List.map_nil]
    rw [partsSpan_nil]
    by_contra hne
    have hl3 : l' ≤ r := by omega
    have h1 := (hiff r (by omega) le_rfl).2 (by omega)
    have h2 := hlt r (by omega) le_rfl
    omega
  | succ n ih =>
    intro k l' hl1 hl2 hiff hlt
    rw [List.range'_succ, List.map_cons, partsSpan_cons]
    by_cases hB : ((List.range' l (r + 1 - l)).filter
        (fun x => decide (f x = k))) = []
    · refine Or.inl ⟨hB, ih (k + 1) l' hl1 hl2 ?_ ?_⟩
      · intro x hx1 hx2
        constructor
        · intro h
          exact (hiff x hx1 hx2).1 (by omega)
        · intro h
          have h1 := (hiff x hx1 hx2).2 h
          rcases Nat.eq_or_lt_of_le h1 with he | he
          · exfalso
            have hmem : x ∈ (List.range' l (r + 1 - l)).filter
                (fun x => decide (f x = k)) := by
              rw [List.mem_filter, List.mem_range'_1]
              refine ⟨⟨hx1, by omega⟩, by simp [he.symm]⟩
            rw [hB] at hmem
            simp at hmem
          · omega
      · intro x hx1 hx2
        have := hlt x hx1 hx2
        omega
    · have hmax : ∃ b, ((List.range' l (r + 1 - l)).filter
          (fun x => decide (f x = k))).max? = some b := by
        rcases hm : ((List.range' l (r + 1 - l)).filter
          (fun x => decide (f x = k))).max? with _ | b
        · exact absurd (List.max?_eq_none_iff.1 hm) hB
        · exact ⟨b, rfl⟩
      obtain ⟨b, hb⟩ := hmax
      obtain ⟨hbmem, hbub⟩ := List.max?_eq_some_iff'.1 hb
      rw [List.mem_filter, List.mem_range'_1] at hbmem
      obtain ⟨⟨hlb, hbr⟩, hfb⟩ := hbmem
      have hfbk : f b = k := by simpa using hfb
      have hl'b : l' ≤ b := (hiff b hlb (by omega)).1 (by omega)
      have heq : ((List.range' l (r + 1 - l)).filter
          (fun x => decide (f x = k))) = List.range' l' (b + 1 - l') := by
        apply filter_run (r + 1 - l) l l' b _ hl1 hl'b (by omega)
        intro x hx1 hx2
        simp only [decide_eq_true_eq]
        constructor
        · intro hfx
          refine ⟨(hiff x hx1 (by omega)).1 (by omega), ?_⟩
          apply hbub
          rw [List.mem_filter, List.mem_range'_1]
          exact ⟨⟨hx1, hx2⟩, by simp [hfx]⟩
        · rintro ⟨hx3, hx4⟩
          have h1 := (hiff x hx1 (by omega)).2 hx3
          have h2 := hmono x b hx1 hx4 (by omega)
          omega
      refine Or.inr ⟨b, hl'b, heq, ih (k + 1) (b + 1) (by omega) (by omega) ?_ ?_⟩
      · intro x hx1 hx2
        constructor
        · intro h
          by_contra hc
          have hxb : x ≤ b := by omega
          have hl'x : l' ≤ x := (hiff x hx1 hx2).1 (by omega)
          have hmem : x ∈ List.range' l' (b + 1 - l') := by
            rw [List.mem_range'_1]
            omega
          rw [← heq, List.mem_filter] at hmem
          have : f x = k := by simpa using hmem.2
          omega
        · intro h
          have hkx : k ≤ f x := (hiff x hx1 hx2).2 (by omega)
          rcases Nat.eq_or_lt_of_le hkx with he | he
          · exfalso
            have hmem : x ∈ (List.range' l (r + 1 - l)).filter
                (fun x => decide (f x = k)) := by
              rw [List.mem_filter, List.mem_range'_1]
              exact ⟨⟨hx1, by omega⟩, by simp [he.symm]⟩
            rw [heq, List.mem_range'_1] at hmem
            omega
          · omega
      · intro x hx1 hx2
        have := hlt x hx1 hx2
        omega

/-- Generic core: given any index function `f` that locates each symbol's
accumulated frequency inside its letter sub-interval, the raw buckets form a
span of `[l, r]`. -/
lemma bucket_span_core (cost : List ℕ) (c : ℚ) (freq : List ℚ) (l r : ℕ)
    (apl apr : ℚ) (hc : 0 < c)
    (hpos : ∀ k, k < freq.length → 0 < freq.getD k 0)
    (hlr : l ≤ r) (hr : r < freq.length) (hd : apl < apr) (f : ℕ → ℕ)
    (hfP : ∀ x, l ≤ x → x ≤ r →
      lmv cost c apl apr (f x) ≤ accu_freq2 freq x)
    (hflt : ∀ x, l ≤ x → x ≤ r →
      accu_freq2 freq x < lmv cost c apl apr (f x + 1))
    (hfle : ∀ x, l ≤ x → x ≤ r → f x < cost.length) :
    partsSpan l ((List.range cost.length).map
      (fun m => bucket cost c freq l r apl apr m)) (r + 1) := by
  have hmono : ∀ x y, l ≤ x → x ≤ y → y ≤ r → f x ≤ f y := by
    intro x y hx hxy hyr
    by_contra hcon
    have h1 : f y + 1 ≤ f x := by omega
    have h2 : lmv cost c apl apr (f y + 1) ≤ lmv cost c apl apr (f x) :=
      lmv_mono cost c apl apr hc hd _ _ h1
    have h3 := hfP x hx (by omega)
    have h4 := hflt y (by omega) hyr
    have h5 : accu_freq2 freq x ≤ accu_freq2 freq y :=
      accu_freq2_mono freq hpos x y hxy (by omega)
    linarith
  have hbij : ∀ m, m < cost.length → ∀ x, l ≤ x → x ≤ r →
      ((lmv cost c apl apr m ≤ accu_freq2 freq x ∧
        accu_freq2 freq x < rmv cost c apl apr m) ↔ f x = m) := by
    intro m hm x hx1 hx2
    constructor
    · rintro ⟨hml, hmr⟩
      rw [rmv_eq_lmv_succ] at hmr
      by_contra hne
      rcases Nat.lt_or_ge (f x) m with hlt | hge
      · have h1 : f x + 1 ≤ m := by omega
        have h2 : lmv cost c apl apr (f x + 1) ≤ lmv cost c apl apr m :=
          lmv_mono cost c apl apr hc hd _ _ h1
        have h3 := hflt x hx1 hx2
        linarith
      · have h1 : m + 1 ≤ f x := by omega
        have h2 : lmv cost c apl apr (m + 1) ≤ lmv cost c apl apr (f x) :=
          lmv_mono cost c apl apr hc hd _ _ h1
        have h3 := hfP x hx1 hx2
        linarith
    · intro he
      subst he
      refine ⟨hfP x hx1 hx2, ?_⟩
      rw [rmv_eq_lmv_succ]
      exact hflt x hx1 hx2
  have hbeq : ∀ m ∈ List.range cost.length,
      bucket cost c freq l r apl apr m =
        (List.range' l (r + 1 - l)).filter (fun x => decide (f x = m)) := by
    intro m hm
    rw [List.mem_range] at hm
    unfold bucket
    apply List.filter_congr
    intro x hx
    rw [List.mem_range'_1] at hx
    have hx1 : l ≤ x := hx.1
    have hx2 : x ≤ r := by omega
    rw [show (decide (lmv cost c apl apr m ≤ accu_freq2 freq x) &&
        decide (accu_freq2 freq x < rmv cost c apl apr m)) =
        decide ((lmv cost c apl apr m ≤ accu_freq2 freq x) ∧
          (accu_freq2 freq x < rmv cost c apl apr m)) from (Bool.decide_and _ _).symm]
    rw [decide_eq_decide]
    exact hbij m hm x hx1 hx2
  rw [List.map_congr_left hbeq, List.range_eq_range']
  apply span_filters l r f hmono cost.length 0 l le_rfl (by omega)
  · intro x hx1 hx2
    exact ⟨fun _ => hx1, fun _ => Nat.zero_le _⟩
  · intro x hx1 hx2
    have := hfle x hx1 hx2
    omega

/-- The raw partition of `[l, r]` is a span: every bucket is either empty or
the run of consecutive symbols at the current left edge. -/
lemma partitionsRaw_span (cost : List ℕ) (c : ℚ) (freq : List ℚ) (l r : ℕ)
    (hcost : 1 ≤ cost.length) (hc : 0 < c)
    (hK : csum cost c cost.length = 1)
    (hpos : ∀ k, k < freq.length → 0 < freq.getD k 0)
    (hlr : l ≤ r) (hr : r < freq.length) :
    partsSpan l (partitionsRaw cost c freq l r) (r + 1) := by
  have hd : (if l = 0 then 0 else accu_freq freq (l - 1)) < accu_freq freq r :=
    accu_nonneg_delta freq hpos l r hlr hr
  have hbounds := fun (x : ℕ) (h1 : l ≤ x) (h2 : x ≤ r) =>
    accu2_bounds freq hpos l r x h1 h2 hr
  have hfP : ∀ x, l ≤ x → x ≤ r →
      lmv cost c (if l = 0 then 0 else accu_freq freq (l - 1))
        (accu_freq freq r)
        (Nat.findGreatest
          (fun m => lmv cost c (if l = 0 then 0 else accu_freq freq (l - 1))
            (accu_freq freq r) m ≤ accu_freq2 freq x) (cost.length - 1)) ≤
        accu_freq2 freq x := by
    intro x hx1 hx2
    rcases Nat.eq_zero_or_pos (Nat.findGreatest
      (fun m => lmv cost c (if l = 0 then 0 else accu_freq freq (l - 1))
        (accu_freq freq r) m ≤ accu_freq2 freq x) (cost.length - 1)) with h0 | hp
    · rw [h0, lmv_zero]
      exact (hbounds x hx1 hx2).1
    · have hne : Nat.findGreatest
          (fun m => lmv cost c (if l = 0 then 0 else accu_freq freq (l - 1))
            (accu_freq freq r) m ≤ accu_freq2 freq x) (cost.length - 1) ≠ 0 := by
        omega
      exact Nat.findGreatest_of_ne_zero rfl hne
  have hflt : ∀ x, l ≤ x → x ≤ r →
      accu_freq2 freq x <
        lmv cost c (if l = 0 then 0 else accu_freq freq (l - 1))
          (accu_freq freq r)
          (Nat.findGreatest
            (fun m => lmv cost c (if l = 0 then 0 else accu_freq freq (l - 1))
              (accu_freq freq r) m ≤ accu_freq2 freq x) (cost.length - 1) + 1) := by
    intro x hx1 hx2
    by_cases htop : Nat.findGreatest
        (fun m => lmv cost c (if l = 0 then 0 else accu_freq freq (l - 1))
          (accu_freq freq r) m ≤ accu_freq2 freq x) (cost.length - 1) =
        cost.length - 1
    · rw [htop, show cost.length - 1 + 1 = cost.length from by omega,
        lmv_top cost c _ _ hK]
      exact (hbounds x hx1 hx2).2
    · have hlt := lt_of_le_of_ne (Nat.findGreatest_le (P := fun m =>
        lmv cost c (if l = 0 then 0 else accu_freq freq (l - 1))
          (accu_freq freq r) m ≤ accu_freq2 freq x) (cost.length - 1)) htop
      have hng := Nat.findGreatest_is_greatest (Nat.lt_succ_self
        (Nat.findGreatest
          (fun m => lmv cost c (if l = 0 then 0 else accu_freq freq (l - 1))
            (accu_freq freq r) m ≤ accu_freq2 freq x) (cost.length - 1)))
        (by omega)
      exact lt_of_not_le hng
  have hfle : ∀ x, l ≤ x → x ≤ r →
      Nat.findGreatest
        (fun m => lmv cost c (if l = 0 then 0 else accu_freq freq (l - 1))
          (accu_freq freq r) m ≤ accu_freq2 freq x) (cost.length - 1) <
        cost.length := by
    intro x hx1 hx2
    have := Nat.findGreatest_le (P := fun m =>
      lmv cost c (if l = 0 then 0 else accu_freq freq (l - 1))
        (accu_freq freq r) m ≤ accu_freq2 freq x) (cost.length - 1)
    omega
  exact bucket_span_core cost c freq l r
    (if l = 0 then 0 else accu_freq freq (l - 1)) (accu_freq freq r) hc hpos
    hlr hr hd
    (fun x => Nat.findGreatest
      (fun m => lmv cost c (if l = 0 then 0 else accu_freq freq (l - 1))
        (accu_freq freq r) m ≤ accu_freq2 freq x) (cost.length - 1))
    hfP hflt hfle

lemma partitionsRaw_length (cost : List ℕ) (c : ℚ) (freq : List ℚ)
    (l r : ℕ) : (partitionsRaw cost c freq l r).length = cost.length := by
  unfold partitionsRaw
  simp

/-! ### Batch D: span structure lemmas and the two edge corrections -/

lemma span_le : ∀ (ps : List (List ℕ)) (a c : ℕ), partsSpan a ps c → a ≤ c := by
  intro ps
  induction ps with
  | nil =>
    intro a c h
    rw [partsSpan_nil] at h
    omega
  | cons e rest ih =>
    intro a c h
    rw [partsSpan_cons] at h
    rcases h with ⟨_, h2⟩ | ⟨b, hb1, _, h2⟩
    · exact ih a c h2
    · have := ih (b + 1) c h2
      omega

lemma span_append_intro : ∀ (xs ys : List (List ℕ)) (a b c : ℕ),
    partsSpan a xs b → partsSpan b ys c → partsSpan a (xs ++ ys) c := by
  intro xs
  induction xs with
  | nil =>
    intro ys a b c h1 h2
    rw [partsSpan_nil] at h1
    subst h1
    exact h2
  | cons e rest ih =>
    intro ys a b c h1 h2
    rw [partsSpan_cons] at h1
    rw [List.cons_append, partsSpan_cons]
    rcases h1 with ⟨he, h3⟩ | ⟨b', hb1, he, h3⟩
    · exact Or.inl ⟨he, ih ys a b c h3 h2⟩
    · exact Or.inr ⟨b', hb1, he, ih ys (b' + 1) b c h3 h2⟩

lemma span_replicate (a : ℕ) (j : ℕ) :
    partsSpan a (List.replicate j ([] : List ℕ)) a := by
  induction j with
  | zero => rw [List.replicate, partsSpan_nil]
  | succ j ih =>
    rw [List.replicate_succ, partsSpan_cons]
    exact Or.inl ⟨rfl, ih⟩

lemma span_self_all_empty : ∀ (ps : List (List ℕ)) (a : ℕ),
    partsSpan a ps a → ∀ p ∈ ps, p = [] := by
  intro ps
  induction ps with
  | nil => intro a _ p hp; simp at hp
  | cons e rest ih =>
    intro a h p hp
    rw [partsSpan_cons] at h
    rcases h with ⟨he, h2⟩ | ⟨b, hb1, he, h2⟩
    · rcases List.mem_cons.1 hp with h3 | h3
      · rw [h3, he]
      · exact ih a h2 p h3
    · have := span_le rest (b + 1) a h2
      omega

lemma span_member_nonempty : ∀ (ps : List (List ℕ)) (a c : ℕ),
    partsSpan a ps c → ∀ p ∈ ps, p ≠ [] → a < c := by
  intro ps
  induction ps with
  | nil => intro a c _ p hp; simp at hp
  | cons e rest ih =>
    intro a c h p hp hpne
    rw [partsSpan_cons] at h
    rcases h with ⟨he, h2⟩ | ⟨b, hb1, he, h2⟩
    · rcases List.mem_cons.1 hp with h3 | h3
      · rw [h3] at hpne; exact absurd he hpne
      · exact ih a c h2 p h3 hpne
    · have := span_le rest (b + 1) c h2
      omega

lemma span_mem_run : ∀ (ps : List (List ℕ)) (a c : ℕ),
    partsSpan a ps c → ∀ e ∈ ps, e ≠ [] →
      ∃ a' b, a ≤ a' ∧ a' ≤ b ∧ b + 1 ≤ c ∧ e = List.range' a' (b + 1 - a') := by
  intro ps
  induction ps with
  | nil => intro a c _ e he; simp at he
  | cons p rest ih =>
    intro a c h e he hene
    rw [partsSpan_cons] at h
    rcases h with ⟨hp, h2⟩ | ⟨b, hb1, hp, h2⟩
    · rcases List.mem_cons.1 he with h3 | h3
      · rw [h3] at hene; exact absurd hp hene
      · exact ih a c h2 e h3 hene
    · rcases List.mem_cons.1 he with h3 | h3
      · subst h3
        exact ⟨a, b, le_rfl, hb1, span_le rest (b + 1) c h2, hp⟩
      · obtain ⟨a', b', ha1, ha2, ha3, ha4⟩ := ih (b + 1) c h2 e h3 hene
        exact ⟨a', b', by omega, ha2, ha3, ha4⟩

lemma span_first_nonempty : ∀ (ps : List (List ℕ)) (a c : ℕ),
    partsSpan a ps c → a < c →
      ∃ j b tail, ps = List.replicate j ([] : List ℕ) ++
          (List.range' a (b + 1 - a)) :: tail ∧
        a ≤ b ∧ b < c ∧ partsSpan (b + 1) tail c := by
  intro ps
  induction ps with
  | nil =>
    intro a c h hlt
    rw [partsSpan_nil] at h
    omega
  | cons e rest ih =>
    intro a c h hlt
    rw [partsSpan_cons] at h
    rcases h with ⟨he, h2⟩ | ⟨b, hb1, he, h2⟩
    · obtain ⟨j, b, tail, hdec, hb2, hb3, hspan⟩ := ih a c h2 hlt
      refine ⟨j + 1, b, tail, ?_, hb2, hb3, hspan⟩
      rw [List.replicate_succ, List.cons_append, ← hdec, he]
    · have hble := span_le rest (b + 1) c h2
      exact ⟨0, b, rest, by rw [List.replicate, List.nil_append, he], hb1,
        by omega, h2⟩

lemma span_last_nonempty : ∀ (ps : List (List ℕ)) (a c : ℕ),
    partsSpan a ps c → a < c → ps.getLast? = some ([] : List ℕ) →
      ∃ front q t, ps = front ++ (List.range' q (c - q)) ::
          List.replicate (t + 1) ([] : List ℕ) ∧
        a ≤ q ∧ q < c ∧ partsSpan a front q := by
  intro ps
  induction ps with
  | nil =>
    intro a c _ _ hlast
    simp at hlast
  | cons e rest ih =>
    intro a c h hlt hlast
    rcases hrest : rest with _ | ⟨r1, rest'⟩
    · subst hrest
      simp at hlast
      subst hlast
      rw [partsSpan_cons] at h
      rcases h with ⟨_, h2⟩ | ⟨b, hb1, he, h2⟩
      · rw [partsSpan_nil] at h2
        omega
      · exact absurd he.symm (by simp; omega)
    · subst hrest
      rw [List.getLast?_cons_cons] at hlast
      rw [partsSpan_cons] at h
      rcases h with ⟨he, h2⟩ | ⟨b, hb1, he, h2⟩
      · obtain ⟨front, q, t, hdec, hq1, hq2, hspan⟩ := ih a c h2 hlt hlast
        refine ⟨e :: front, q, t, ?_, hq1, hq2, ?_⟩
        · rw [List.cons_append, ← hdec]
        · rw [partsSpan_cons]
          exact Or.inl ⟨he, hspan⟩
      · rcases Nat.eq_or_lt_of_le (span_le _ _ _ h2) with hedge | hedge
        · have h2' := h2
          rw [hedge] at h2'
          have hallE := span_self_all_empty (r1 :: rest') c h2'
          have hrepl : r1 :: rest' = List.replicate (r1 :: rest').length [] := by
            apply List.eq_replicate_of_mem
            intro p hp
            exact hallE p hp
          refine ⟨[], a, (r1 :: rest').length - 1, ?_, le_rfl, by omega, ?_⟩
          · rw [List.nil_append]
            have hlen1 : (r1 :: rest').length - 1 + 1 = (r1 :: rest').length := by
              simp
            rw [hlen1, ← hrepl, he]
            have : c - a = b + 1 - a := by omega
            rw [this]
          · rw [partsSpan_nil]
        · obtain ⟨front, q, t, hdec, hq1, hq2, hspan⟩ := ih (b + 1) c h2 hedge hlast
          refine ⟨e :: front, q, t, ?_, by omega, hq2, ?_⟩
          · rw [List.cons_append, ← hdec]
          · rw [partsSpan_cons]
            exact Or.inr ⟨b, hb1, he, hspan⟩

lemma find_enum_first : ∀ (j : ℕ) (B : List ℕ) (tail : List (List ℕ)) (k : ℕ),
    B ≠ [] →
    ((List.replicate j ([] : List ℕ) ++ B :: tail).enumFrom k).find?
      (fun e => !e.2.isEmpty) = some (k + j, B) := by
  intro j
  induction j with
  | zero =>
    intro B tail k hB
    rw [List.replicate, List.nil_append, List.enumFrom_cons]
    rw [List.find?_cons_of_pos]
    · simp
    · simp [List.isEmpty_iff, hB]
  | succ j ih =>
    intro B tail k hB
    rw [List.replicate_succ, List.cons_append, List.enumFrom_cons]
    rw [List.find?_cons_of_neg]
    · rw [ih B tail (k + 1) hB]
      congr 2
      omega
    · simp

lemma find_enum_last (front : List (List ℕ)) (B : List ℕ) (t : ℕ) (k : ℕ)
    (hB : B ≠ []) :
    (((front ++ B :: List.replicate (t + 1) ([] : List ℕ)).enumFrom k).reverse).find?
      (fun e => !e.2.isEmpty) = some (k + front.length, B) := by
  rw [List.enumFrom_append, List.enumFrom_cons, List.reverse_append,
    List.reverse_cons, List.find?_append]
  have h1 : (((List.replicate (t + 1) ([] : List ℕ)).enumFrom
      (k + front.length + 1)).reverse).find? (fun e => !e.2.isEmpty) = none := by
    rw [List.find?_eq_none]
    intro x hx
    rw [List.mem_reverse] at hx
    have hx2 : x.2 ∈ List.replicate (t + 1) ([] : List ℕ) := by
      have := List.enumFrom_map_snd (k + front.length + 1)
        (List.replicate (t + 1) ([] : List ℕ))
      rw [← this]
      exact List.mem_map_of_mem Prod.snd hx
    rw [List.eq_of_mem_replicate hx2]
    simp
  rw [List.find?_append, h1]
  rw [show (([(k + front.length, B)] : List (ℕ × List ℕ)).find?
      (fun e => !e.2.isEmpty)) = some (k + front.length, B) from by
    rw [List.find?_cons_of_pos]
    simp [List.isEmpty_iff, hB]]
  simp

lemma set_at_append {α : Type _} : ∀ (xs : List α) (ys : List α) (y z : α),
    (xs ++ y :: ys).set xs.length z = xs ++ z :: ys := by
  intro xs ys y z
  rw [List.set_append_right _ _ le_rfl]
  simp

lemma replicate_set_last : ∀ (t : ℕ) (v : List ℕ),
    (List.replicate (t + 1) ([] : List ℕ)).set t v =
      List.replicate t ([] : List ℕ) ++ [v] := by
  intro t
  induction t with
  | zero => intro v; rfl
  | succ t ih =>
    intro v
    rw [List.replicate_succ, List.set_cons_succ, ih]
    rw [show List.replicate (t + 1) ([] : List ℕ) = [] :: List.replicate t []
      from List.replicate_succ _ _]
    rw [List.cons_append]

lemma fixFirst_span (l c : ℕ) (parts : List (List ℕ))
    (hs : partsSpan l parts c) (hlt : l < c) (hlen : 1 ≤ parts.length) :
    ∃ parts', fixFirst l parts = some parts' ∧ partsSpan l parts' c ∧
      parts'.length = parts.length ∧
      ∃ p0 tail0, parts' = p0 :: tail0 ∧ p0 ≠ [] := by
  rcases parts with _ | ⟨p, rest⟩
  · simp at hlen
  by_cases hp : p.isEmpty
  · have hpe : p = [] := List.isEmpty_iff.1 hp
    subst hpe
    obtain ⟨j, b, tail, hdec, hb1, hb2, hspan⟩ :=
      span_first_nonempty ([] :: rest) l c hs hlt
    have hj : 1 ≤ j := by
      rcases j with _ | j'
      · exfalso
        rw [List.replicate, List.nil_append] at hdec
        have := congrArg List.head? hdec
        rw [List.head?_cons, List.head?_cons] at this
        injection this with h2
        have h3 : (List.range' l (b + 1 - l)).length = 0 := by rw [← h2]; rfl
        rw [List.length_range'] at h3
        omega
      · omega
    have hBne : List.range' l (b + 1 - l) ≠ [] := by
      rw [ne_eq, List.range'_eq_nil]
      omega
    have hfind : (([] :: rest : List (List ℕ)).enum).find?
        (fun e => !e.2.isEmpty) = some (j, List.range' l (b + 1 - l)) := by
      rw [hdec]
      have hf := find_enum_first j (List.range' l (b + 1 - l)) tail 0 hBne
      rw [List.enum_eq_enumFrom, hf]
      simp
    have hmem : l ∈ List.range' l (b + 1 - l) := by
      rw [List.mem_range'_1]
      omega
    have herase : (List.range' l (b + 1 - l)).erase l =
        List.range' (l + 1) (b - l) := by
      rw [range'_erase_head l (b + 1 - l) (by omega)]
      congr 1
      omega
    have hres : ((([] :: rest : List (List ℕ)).set j
        ((List.range' l (b + 1 - l)).erase l)).set 0 [l]) =
        [l] :: (List.replicate (j - 1) ([] : List ℕ) ++
          (List.range' (l + 1) (b - l)) :: tail) := by
      rw [hdec]
      have h1 := set_at_append (List.replicate j ([] : List ℕ)) tail
        (List.range' l (b + 1 - l)) ((List.range' l (b + 1 - l)).erase l)
      simp only [List.length_replicate] at h1
      rw [h1, herase]
      rcases j with _ | j'
      · omega
      · rw [List.replicate_succ, List.cons_append, List.set_cons_zero]
        norm_num
    refine ⟨((([] :: rest : List (List ℕ)).set j
        ((List.range' l (b + 1 - l)).erase l)).set 0 [l]), ?_, ?_, ?_, ?_⟩
    · show fixFirst l ([] :: rest) = _
      rw [show fixFirst l ([] :: rest) =
          (match (([] :: rest : List (List ℕ)).enum).find?
              (fun e => !e.2.isEmpty) with
            | none => none
            | some e => if l ∈ e.2 then
                some (((([] :: rest).set e.1 (e.2.erase l))).set 0 [l])
              else none) from rfl]
      rw [hfind]
      rw [show (match some (j, List.range' l (b + 1 - l)) with
          | none => none
          | some e => if l ∈ e.2 then
              some (((([] :: rest : List (List ℕ)).set e.1 (e.2.erase l))).set 0 [l])
            else none) =
          (if l ∈ List.range' l (b + 1 - l) then
            some (((([] :: rest : List (List ℕ)).set j
              ((List.range' l (b + 1 - l)).erase l))).set 0 [l])
          else none) from rfl]
      rw [if_pos hmem]
    · rw [hres, partsSpan_cons]
      refine Or.inr ⟨l, le_rfl, by rw [show l + 1 - l = 1 from by omega]; rfl, ?_⟩
      apply span_append_intro _ _ (l + 1) (l + 1) c (span_replicate (l + 1) (j - 1))
      rw [partsSpan_cons]
      rcases Nat.eq_or_lt_of_le hb1 with hlb | hlb
      · refine Or.inl ⟨?_, ?_⟩
        · rw [← hlb]
          simp
        · rw [← hlb] at hspan
          exact hspan
      · refine Or.inr ⟨b, by omega, ?_, hspan⟩
        congr 1
        omega
    · simp
    · rw [hres]
      exact ⟨[l], _, rfl, by simp⟩
  · refine ⟨p :: rest, ?_, hs, rfl, p, rest, rfl, fun hc => hp (by rw [hc]; rfl)⟩
    show fixFirst l (p :: rest) = some (p :: rest)
    rw [show fixFirst l (p :: rest) =
        (if p.isEmpty then
          (match ((p :: rest : List (List ℕ)).enum).find?
              (fun e => !e.2.isEmpty) with
            | none => none
            | some e => if l ∈ e.2 then
                some ((((p :: rest).set e.1 (e.2.erase l))).set 0 [l])
              else none)
        else some (p :: rest)) from rfl]
    rw [if_neg (by simp [hp])]

lemma fixLast_span (l r : ℕ) (parts : List (List ℕ))
    (hs : partsSpan l parts (r + 1)) (hlr : l < r) (hlen : 2 ≤ parts.length)
    (hhead : ∃ p0 tail0, parts = p0 :: tail0 ∧ p0 ≠ []) :
    ∃ parts', fixLast r parts = some parts' ∧ partsSpan l parts' (r + 1) ∧
      parts'.length = parts.length ∧
      (∃ p0 tail0, parts' = p0 :: tail0 ∧ p0 ≠ []) ∧
      (∃ q', parts'.getLast? = some q' ∧ q' ≠ []) := by
  rcases hgl : parts.getLast? with _ | pn
  · rw [List.getLast?_eq_none_iff] at hgl
    rw [hgl] at hlen
    simp at hlen
  have hunf : fixLast r parts =
      (match parts.getLast? with
        | none => none
        | some pn =>
          if pn.isEmpty then
            match parts.enum.reverse.find? (fun e => !e.2.isEmpty) with
            | none => none
            | some e =>
              if r ∈ e.2 then
                some ((parts.set e.1 (e.2.erase r)).set (parts.length - 1) [r])
              else none
          else some parts) := rfl
  by_cases hpn : pn.isEmpty
  · have hpne : pn = [] := List.isEmpty_iff.1 hpn
    subst hpne
    obtain ⟨front, q, t, hdec, hq1, hq2, hspanF⟩ :=
      span_last_nonempty parts l (r + 1) hs (by omega) hgl
    have hqr : q ≤ r := by omega
    have hBne : List.range' q (r + 1 - q) ≠ [] := by
      rw [ne_eq, List.range'_eq_nil]
      omega
    have hfind : parts.enum.reverse.find? (fun e => !e.2.isEmpty) =
        some (front.length, List.range' q (r + 1 - q)) := by
      rw [hdec, List.enum_eq_enumFrom,
        find_enum_last front (List.range' q (r + 1 - q)) t 0 hBne]
      simp
    have hmem : r ∈ List.range' q (r + 1 - q) := by
      rw [List.mem_range'_1]
      omega
    have herase : (List.range' q (r + 1 - q)).erase r =
        List.range' q (r - q) := by
      have h1 := range'_erase_last q (r + 1 - q) (by omega)
      rw [show q + (r + 1 - q) - 1 = r from by omega] at h1
      rw [h1]
      congr 1
      omega
    have hplen : parts.length = front.length + (t + 2) := by
      rw [hdec]
      simp
    have hset1 : parts.set front.length
        ((List.range' q (r + 1 - q)).erase r) =
        front ++ ((List.range' q (r + 1 - q)).erase r) ::
          List.replicate (t + 1) [] := by
      rw [hdec]
      exact set_at_append front (List.replicate (t + 1) [])
        (List.range' q (r + 1 - q)) _
    have hset2 : (front ++ ((List.range' q (r + 1 - q)).erase r) ::
        List.replicate (t + 1) ([] : List ℕ)).set (parts.length - 1) [r] =
        front ++ ((List.range' q (r + 1 - q)).erase r) ::
          (List.replicate t [] ++ [[r]]) := by
      rw [List.set_append_right _ _ (by omega)]
      rw [show parts.length - 1 - front.length = t + 1 from by omega]
      rw [List.set_cons_succ, replicate_set_last]
    have hres : (parts.set front.length
        ((List.range' q (r + 1 - q)).erase r)).set (parts.length - 1) [r] =
        front ++ (List.range' q (r - q)) ::
          (List.replicate t [] ++ [[r]]) := by
      rw [hset1, hset2, herase]
    have htailspan : partsSpan q ((List.range' q (r - q)) ::
        (List.replicate t ([] : List ℕ) ++ [[r]])) (r + 1) := by
      have hrun : partsSpan r (List.replicate t ([] : List ℕ) ++ [[r]])
          (r + 1) := by
        apply span_append_intro _ _ r r (r + 1) (span_replicate r t)
        rw [partsSpan_cons]
        refine Or.inr ⟨r, le_rfl, ?_, ?_⟩
        · rw [show r + 1 - r = 1 from by omega]
          rfl
        · rw [partsSpan_nil]
      rw [partsSpan_cons]
      rcases Nat.eq_or_lt_of_le hqr with hql | hql
      · refine Or.inl ⟨?_, ?_⟩
        · rw [hql]
          simp
        · rw [hql]
          exact hrun
      · refine Or.inr ⟨r - 1, by omega, ?_, ?_⟩
        · congr 1
          omega
        · rw [show r - 1 + 1 = r from by omega]
          exact hrun
    refine ⟨(parts.set front.length
        ((List.range' q (r + 1 - q)).erase r)).set (parts.length - 1) [r],
      ?_, ?_, ?_, ?_, ?_⟩
    case _ =>
      rw [hunf, hgl]
      simp [hfind, hmem]
    case _ =>
      rw [hres]
      exact span_append_intro _ _ l q (r + 1) hspanF htailspan
    case _ =>
      simp
    case _ =>
      rw [hres]
      obtain ⟨p0, tail0, hpe, hp0ne⟩ := hhead
      rcases front with _ | ⟨f0, front'⟩
      · have hlq : l = q := by
          rw [partsSpan_nil] at hspanF
          exact hspanF
        rw [List.nil_append]
        refine ⟨List.range' q (r - q), _, rfl, ?_⟩
        rw [ne_eq, List.range'_eq_nil]
        omega
      · rw [List.cons_append]
        refine ⟨f0, _, rfl, ?_⟩
        have := hpe
        rw [hdec, List.cons_append] at this
        injection this with h1 _
        rw [h1]
        exact hp0ne
    case _ =>
      rw [hres]
      refine ⟨[r], ?_, by simp⟩
      rw [show front ++ (List.range' q (r - q)) ::
          (List.replicate t ([] : List ℕ) ++ [[r]]) =
          (front ++ (List.range' q (r - q)) :: List.replicate t []) ++ [[r]]
        from by simp]
      exact List.getLast?_concat _
  · refine ⟨parts, ?_, hs, rfl, hhead, pn, hgl, fun hc => hpn (by rw [hc]; rfl)⟩
    simp only [hunf, hgl]
    rw [if_neg (by simp [hpn])]

/-! ### Batch E: the assembled partition and the recursive builder -/

lemma partitionsFixed_span (cost : List ℕ) (c : ℚ) (freq : List ℚ) (l r : ℕ)
    (hcost : 2 ≤ cost.length) (hc : 0 < c) (hK : csum cost c cost.length = 1)
    (hpos : ∀ k, k < freq.length → 0 < freq.getD k 0)
    (hlr : l < r) (hr : r < freq.length) :
    ∃ parts, partitionsFixed cost c freq l r = some parts ∧
      partsSpan l parts (r + 1) ∧ parts.length = cost.length ∧
      (∃ p0 tail0, parts = p0 :: tail0 ∧ p0 ≠ []) ∧
      (∃ q', parts.getLast? = some q' ∧ q' ≠ []) := by
  have hraw := partitionsRaw_span cost c freq l r (by omega) hc hK hpos
    (by omega) hr
  have hrawlen := partitionsRaw_length cost c freq l r
  obtain ⟨p1, hfix1, hspan1, hlen1, hhead1⟩ :=
    fixFirst_span l (r + 1) (partitionsRaw cost c freq l r) hraw (by omega)
      (by omega)
  obtain ⟨p2, hfix2, hspan2, hlen2, hhead2, hlast2⟩ :=
    fixLast_span l r p1 hspan1 hlr (by omega) hhead1
  refine ⟨p2, ?_, hspan2, by omega, hhead2, hlast2⟩
  rw [show partitionsFixed cost c freq l r =
      (fixFirst l (partitionsRaw cost c freq l r)).bind (fun p1' => fixLast r p1')
    from rfl, hfix1]
  exact hfix2

lemma span_parts_proper (l r : ℕ) (parts : List (List ℕ))
    (hs : partsSpan l parts (r + 1))
    (hlen : 2 ≤ parts.length)
    (hhead : ∃ p0 tail0, parts = p0 :: tail0 ∧ p0 ≠ [])
    (hlast : ∃ q', parts.getLast? = some q' ∧ q' ≠ []) :
    ∀ e ∈ parts, e ≠ [] →
      ∃ a b, e.min? = some a ∧ e.max? = some b ∧
        e = List.range' a (b + 1 - a) ∧ l ≤ a ∧ a ≤ b ∧ b ≤ r ∧
        b - a < r - l := by
  obtain ⟨p0, tail0, hpe, hp0⟩ := hhead
  subst hpe
  have hs' := hs
  rw [partsSpan_cons] at hs'
  rcases hs' with ⟨he, _⟩ | ⟨b0, hb0, he0, htail⟩
  · exact absurd he hp0
  obtain ⟨q', hgl, hq'⟩ := hlast
  have htne : tail0 ≠ [] := by
    intro hc
    rw [hc] at hlen
    simp at hlen
  have hglt : tail0.getLast? = some q' := by
    rcases tail0 with _ | ⟨t1, tail1⟩
    · exact absurd rfl htne
    · rw [List.getLast?_cons_cons] at hgl
      exact hgl
  have hq'mem : q' ∈ tail0 := List.mem_of_getLast?_eq_some hglt
  have hb0r : b0 + 1 < r + 1 :=
    span_member_nonempty tail0 (b0 + 1) (r + 1) htail q' hq'mem hq'
  have hb0le : b0 + 1 ≤ r + 1 := span_le tail0 (b0 + 1) (r + 1) htail
  intro e he hene
  rcases List.mem_cons.1 he with h | h
  · subst h
    refine ⟨l, b0, ?_, ?_, he0, le_rfl, hb0, by omega, by omega⟩
    · rw [he0]
      exact range'_min?_eq l (b0 + 1 - l) (by omega)
    · rw [he0]
      have hm := range'_max?_eq l (b0 + 1 - l) (by omega)
      rw [show l + (b0 + 1 - l) - 1 = b0 from by omega] at hm
      exact hm
  · obtain ⟨a', b', ha1, ha2, ha3, ha4⟩ :=
      span_mem_run tail0 (b0 + 1) (r + 1) htail e h hene
    refine ⟨a', b', ?_, ?_, ha4, by omega, ha2, by omega, by omega⟩
    · rw [ha4]
      exact range'_min?_eq _ _ (by omega)
    · rw [ha4]
      have hm := range'_max?_eq a' (b' + 1 - a') (by omega)
      rw [show a' + (b' + 1 - a') - 1 = b' from by omega] at hm
      exact hm

lemma alookup_append_enc {I α : Type _} [DecidableEq I]
    (xs ys : List (I × α)) (k : I) :
    alookup (xs ++ ys) k =
      (match alookup xs k with
        | some v => some v
        | none => alookup ys k) := by
  induction xs with
  | nil => rfl
  | cons p rest ih =>
    obtain ⟨k', v⟩ := p
    by_cases h : k = k'
    · simp [alookup, h]
    · simp only [List.cons_append]
      rw [show alookup ((k', v) :: (rest ++ ys)) k =
          if k = k' then some v else alookup (rest ++ ys) k from rfl,
        show alookup ((k', v) :: rest) k =
          if k = k' then some v else alookup rest k from rfl,
        if_neg h, if_neg h, ih]

lemma alookup_not_mem {I α : Type _} [DecidableEq I] :
    ∀ (xs : List (I × α)) (k : I), (∀ v, (k, v) ∉ xs) → alookup xs k = none := by
  intro xs
  induction xs with
  | nil => intro k _; rfl
  | cons p rest ih =>
    intro k h
    obtain ⟨k', v⟩ := p
    rw [show alookup ((k', v) :: rest) k =
        if k = k' then some v else alookup rest k from rfl]
    rw [if_neg ?kne]
    case kne =>
      intro hc
      subst hc
      exact h v (by simp)
    exact ih k (fun v2 hv2 => h v2 (by simp [hv2]))

lemma append_cons_pre_inj {α : Type _} (u v w : List α) (a b : α)
    (h : (u ++ a :: v) <+: (u ++ b :: w)) : a = b := by
  obtain ⟨t, ht⟩ := h
  rw [List.append_assoc] at ht
  have h2 := List.append_cancel_left ht
  rw [List.cons_append] at h2
  injection h2

lemma codeAux_main (cost : List ℕ) (c : ℚ) (freq : List ℚ)
    (hcost : 2 ≤ cost.length) (hc : 0 < c)
    (hK : csum cost c cost.length = 1)
    (hpos : ∀ k, k < freq.length → 0 < freq.getD k 0) :
    ∀ (fuel : ℕ) (l r : ℕ) (pre : List ℕ) (acc : List (ℕ × List ℕ)),
      l ≤ r → r < freq.length → r - l < fuel →
      (∀ x, l ≤ x → x ≤ r → alookup acc x = none) →
      ∃ news, codeAux cost c freq fuel l r pre acc = some (news ++ acc) ∧
        (∀ e ∈ news, l ≤ e.1 ∧ e.1 ≤ r ∧
          ∃ suf, e.2 = pre ++ suf ∧ (l < r → suf ≠ [])) ∧
        (∀ x, l ≤ x → x ≤ r → ∃ cd, (x, cd) ∈ news) ∧
        (news.map Prod.fst).Nodup ∧
        (∀ e ∈ news, ∀ e2 ∈ news, e.2 <+: e2.2 → e = e2) := by
  intro fuel
  induction fuel with
  | zero =>
    intro l r pre acc h1 h2 h3 _
    omega
  | succ fuel ih =>
    intro l r pre acc hlr hr hfuel hfresh
    rcases Nat.eq_or_lt_of_le hlr with heq | hlt
    · subst heq
      refine ⟨[(l, pre)], ?_, ?_, ?_, by simp, ?_⟩
      · rw [show codeAux cost c freq (fuel + 1) l l pre acc =
            (if l = l then set_code acc l pre
             else match partitionsFixed cost c freq l l with
               | none => none
               | some parts => parts.enum.foldlM (fun a e =>
                   if e.2.isEmpty then some a
                   else match e.2.min?, e.2.max? with
                     | some mn, some mx =>
                       codeAux cost c freq fuel mn mx (pre ++ [e.1]) a
                     | _, _ => none) acc) from rfl]
        rw [if_pos rfl]
        rw [show set_code acc l pre =
            (match alookup acc l with
              | some _ => none
              | none => some ((l, pre) :: acc)) from rfl]
        rw [hfresh l le_rfl le_rfl]
        rfl
      · intro e he
        rw [List.mem_singleton] at he
        subst he
        exact ⟨le_rfl, le_rfl, [], by simp, fun hc => absurd hc (lt_irrefl l)⟩
      · intro x hx1 hx2
        have hxl : x = l := by omega
        subst hxl
        exact ⟨pre, by simp⟩
      · intro e he e2 he2 _
        rw [List.mem_singleton] at he he2
        rw [he, he2]
    · obtain ⟨parts, hpfix, hspan, hplen, hhead, hlast⟩ :=
        partitionsFixed_span cost c freq l r hcost hc hK hpos hlt hr
      have hproper := span_parts_proper l r parts hspan (by omega) hhead hlast
      have inner : ∀ (ps : List (List ℕ)) (k : ℕ) (l' : ℕ)
          (acc' : List (ℕ × List ℕ)),
          partsSpan l' ps (r + 1) → l ≤ l' →
          (∀ e ∈ ps, e ≠ [] → ∃ a b, e.min? = some a ∧ e.max? = some b ∧
            e = List.range' a (b + 1 - a) ∧ l ≤ a ∧ a ≤ b ∧ b ≤ r ∧
            b - a < r - l) →
          (∀ x, l' ≤ x → x ≤ r → alookup acc' x = none) →
          ∃ news, (ps.enumFrom k).foldlM (fun a e =>
              if e.2.isEmpty then some a
              else match e.2.min?, e.2.max? with
                | some mn, some mx =>
                  codeAux cost c freq fuel mn mx (pre ++ [e.1]) a
                | _, _ => none) acc' = some (news ++ acc') ∧
            (∀ e ∈ news, l' ≤ e.1 ∧ e.1 ≤ r ∧
              ∃ m suf, k ≤ m ∧ e.2 = pre ++ m :: suf) ∧
            (∀ x, l' ≤ x → x ≤ r → ∃ cd, (x, cd) ∈ news) ∧
            (news.map Prod.fst).Nodup ∧
            (∀ e ∈ news, ∀ e2 ∈ news, e.2 <+: e2.2 → e = e2) := by
        intro ps
        induction ps with
        | nil =>
          intro k l' acc' hsp hll' _ _
          rw [partsSpan_nil] at hsp
          refine ⟨[], by simp, by simp, ?_, by simp, by simp⟩
          intro x hx1 hx2
          omega
        | cons e rest ihp =>
          intro k l' acc' hsp hll' hprop hfresh'
          rw [List.enumFrom_cons, List.foldlM_cons]
          rw [partsSpan_cons] at hsp
          rcases hsp with ⟨he, hsp2⟩ | ⟨b, hb1, he, hsp2⟩
          · subst he
            rw [show (if ([] : List ℕ).isEmpty then some acc'
                else match ([] : List ℕ).min?, ([] : List ℕ).max? with
                  | some mn, some mx =>
                    codeAux cost c freq fuel mn mx (pre ++ [(k, ([] : List ℕ)).1]) acc'
                  | _, _ => none) = some acc' from rfl]
            rw [show (some acc' >>= fun a => (rest.enumFrom (k + 1)).foldlM
                (fun a e => if e.2.isEmpty then some a
                  else match e.2.min?, e.2.max? with
                    | some mn, some mx =>
                      codeAux cost c freq fuel mn mx (pre ++ [e.1]) a
                    | _, _ => none) a) =
                (rest.enumFrom (k + 1)).foldlM
                (fun a e => if e.2.isEmpty then some a
                  else match e.2.min?, e.2.max? with
                    | some mn, some mx =>
                      codeAux cost c freq fuel mn mx (pre ++ [e.1]) a
                    | _, _ => none) acc' from rfl]
            obtain ⟨news, hfold, hbd, hcov, hnd, hpf⟩ :=
              ihp (k + 1) l' acc' hsp2 hll'
                (fun e2 he2 => hprop e2 (by simp [he2])) hfresh'
            refine ⟨news, hfold, ?_, hcov, hnd, hpf⟩
            intro e2 he2
            obtain ⟨hb1, hb2, m, suf, hm, hcode⟩ := hbd e2 he2
            exact ⟨hb1, hb2, m, suf, by omega, hcode⟩
          · have hene : e ≠ [] := by
              rw [he, ne_eq, List.range'_eq_nil]
              omega
            obtain ⟨a0, b0, hmn, hmx, hrun, hla, hab, hbr, hprop0⟩ :=
              hprop e (by simp) hene
            have ha0 : a0 = l' := by
              rw [he, range'_min?_eq l' (b + 1 - l') (by omega)] at hmn
              injection hmn with h2
              exact h2.symm
            have hb0 : b0 = b := by
              rw [he] at hmx
              have hm2 := range'_max?_eq l' (b + 1 - l') (by omega)
              rw [show l' + (b + 1 - l') - 1 = b from by omega] at hm2
              rw [hm2] at hmx
              injection hmx with h2
              exact h2.symm
            rw [ha0] at hmn hla
            rw [hb0] at hmx hbr
            rw [ha0, hb0] at hab hprop0
            rw [show (if e.isEmpty then some acc'
                else match e.min?, e.max? with
                  | some mn, some mx =>
                    codeAux cost c freq fuel mn mx (pre ++ [(k, e).1]) acc'
                  | _, _ => none) =
                codeAux cost c freq fuel l' b (pre ++ [k]) acc' from by
              rw [if_neg (by simp [List.isEmpty_iff, hene]), hmn, hmx]]
            obtain ⟨news1, hfold1, hbd1, hcov1, hnd1, hpf1⟩ :=
              ih l' b (pre ++ [k]) acc' hab (by omega) (by omega)
                (fun x hx1 hx2 => hfresh' x (by omega) (by omega))
            rw [hfold1]
            rw [show ((some (news1 ++ acc') : Option (List (ℕ × List ℕ))) >>=
                fun a => (rest.enumFrom (k + 1)).foldlM
                (fun a e => if e.2.isEmpty then some a
                  else match e.2.min?, e.2.max? with
                    | some mn, some mx =>
                      codeAux cost c freq fuel mn mx (pre ++ [e.1]) a
                    | _, _ => none) a) =
                (rest.enumFrom (k + 1)).foldlM
                (fun a e => if e.2.isEmpty then some a
                  else match e.2.min?, e.2.max? with
                    | some mn, some mx =>
                      codeAux cost c freq fuel mn mx (pre ++ [e.1]) a
                    | _, _ => none) (news1 ++ acc') from rfl]
            have hfresh2 : ∀ x, b + 1 ≤ x → x ≤ r →
                alookup (news1 ++ acc') x = none := by
              intro x hx1 hx2
              rw [alookup_append_enc]
              have h1 : alookup news1 x = none := by
                apply alookup_not_mem
                intro v hv
                have := (hbd1 (x, v) hv).2.1
                omega
              rw [h1]
              exact hfresh' x (by omega) hx2
            obtain ⟨news2, hfold2, hbd2, hcov2, hnd2, hpf2⟩ :=
              ihp (k + 1) (b + 1) (news1 ++ acc') hsp2 (by omega)
                (fun e2 he2 => hprop e2 (by simp [he2])) hfresh2
            refine ⟨news2 ++ news1, ?_, ?_, ?_, ?_, ?_⟩
            · rw [hfold2, List.append_assoc]
            · intro e2 he2
              rcases List.mem_append.1 he2 with h | h
              · obtain ⟨hc1, hc2, m, suf, hm, hcode⟩ := hbd2 e2 h
                exact ⟨by omega, hc2, m, suf, by omega, hcode⟩
              · obtain ⟨hc1, hc2, suf, hcode, _⟩ := hbd1 e2 h
                refine ⟨hc1, by omega, k, suf, le_rfl, ?_⟩
                rw [hcode, List.append_assoc]
                rfl
            · intro x hx1 hx2
              rcases Nat.lt_or_ge b x with hxb | hxb
              · obtain ⟨cd, hcd⟩ := hcov2 x (by omega) hx2
                exact ⟨cd, List.mem_append.2 (Or.inl hcd)⟩
              · obtain ⟨cd, hcd⟩ := hcov1 x hx1 hxb
                exact ⟨cd, List.mem_append.2 (Or.inr hcd)⟩
            · rw [List.map_append]
              apply List.Nodup.append hnd2 hnd1
              intro a ha2 ha1
              rw [List.mem_map] at ha2 ha1
              obtain ⟨e2, he2, hea2⟩ := ha2
              obtain ⟨e1, he1, hea1⟩ := ha1
              have h2 := (hbd2 e2 he2).1
              have h1 := (hbd1 e1 he1).2.1
              omega
            · intro e2 he2 e3 he3 hpre
              rcases List.mem_append.1 he2 with h2 | h2 <;>
                rcases List.mem_append.1 he3 with h3 | h3
              · exact hpf2 e2 h2 e3 h3 hpre
              · exfalso
                obtain ⟨_, _, m, suf, hm, hcode⟩ := hbd2 e2 h2
                obtain ⟨_, _, suf1, hcode1, _⟩ := hbd1 e3 h3
                rw [hcode, hcode1] at hpre
                have hpre2 : pre ++ m :: suf <+: pre ++ k :: suf1 := by
                  simpa [List.append_assoc] using hpre
                have := append_cons_pre_inj pre suf suf1 m k hpre2
                omega
              · exfalso
                obtain ⟨_, _, suf1, hcode1, _⟩ := hbd1 e2 h2
                obtain ⟨_, _, m, suf, hm, hcode⟩ := hbd2 e3 h3
                rw [hcode, hcode1] at hpre
                have hpre2 : pre ++ k :: suf1 <+: pre ++ m :: suf := by
                  simpa [List.append_assoc] using hpre
                have := append_cons_pre_inj pre suf1 suf k m hpre2
                omega
              · exact hpf1 e2 h2 e3 h3 hpre
      obtain ⟨news, hfold, hbd, hcov, hnd, hpf⟩ :=
        inner parts 0 l acc hspan le_rfl hproper hfresh
      refine ⟨news, ?_, ?_, hcov, hnd, hpf⟩
      · rw [show codeAux cost c freq (fuel + 1) l r pre acc =
            (if l = r then set_code acc l pre
             else match partitionsFixed cost c freq l r with
               | none => none
               | some parts2 => parts2.enum.foldlM (fun a e =>
                   if e.2.isEmpty then some a
                   else match e.2.min?, e.2.max? with
                     | some mn, some mx =>
                       codeAux cost c freq fuel mn mx (pre ++ [e.1]) a
                     | _, _ => none) acc) from rfl]
        rw [if_neg (by omega), hpfix]
        rw [← List.enum_eq_enumFrom] at hfold
        exact hfold
      · intro e he
        obtain ⟨hc1, hc2, m, suf, _, hcode⟩ := hbd e he
        exact ⟨hc1, hc2, m :: suf, hcode, fun _ => by simp⟩

/-- C2 (amended): for every positive frequency distribution over at least two
symbols and every letter-cost vector of at least two letters whose Kraft sum
equals 1 at the root `c > 0`, the recursive builder starting from the full
symbol range succeeds and assigns to every symbol exactly one code; every
code is non-empty, no two symbols receive the same code, and no symbol's
code is a prefix of another symbol's code. (As stated over *every* valid
letter-cost vector the claim fails: see the single-letter counterexample.) -/
theorem c2_builder_codes (cost : List ℕ) (c : ℚ) (freq : List ℚ) (ns : ℕ)
    (hcost : 2 ≤ cost.length) (hc : 0 < c)
    (hK : csum cost c cost.length = 1)
    (hns : freq.length = ns) (hns2 : 2 ≤ ns)
    (hpos : ∀ k, k < freq.length → 0 < freq.getD k 0) :
    ∃ acc, buildCode ns cost c freq = some acc ∧
      (∀ x, x < ns → ∃ cd, (x, cd) ∈ acc) ∧
      (∀ e ∈ acc, e.1 < ns) ∧
      (acc.map Prod.fst).Nodup ∧
      (∀ e ∈ acc, e.2 ≠ []) ∧
      (∀ e ∈ acc, ∀ e2 ∈ acc, e.2 = e2.2 → e = e2) ∧
      (∀ e ∈ acc, ∀ e2 ∈ acc, e.2 <+: e2.2 → e = e2) := by
  obtain ⟨news, hres, hbd, hcov, hnd, hpf⟩ :=
    codeAux_main cost c freq hcost hc hK hpos (ns + 1) 0 (ns - 1) [] []
      (by omega) (by omega) (by omega) (fun x _ _ => rfl)
  rw [List.append_nil] at hres
  refine ⟨news, hres, ?_, ?_, hnd, ?_, ?_, hpf⟩
  · intro x hx
    exact hcov x (Nat.zero_le x) (by omega)
  · intro e he
    have := (hbd e he).2.1
    omega
  · intro e he
    obtain ⟨_, _, suf, hcode, hne⟩ := hbd e he
    rw [hcode, List.nil_append]
    exact hne (by omega)
  · intro e he e2 he2 hcode
    exact hpf e he e2 he2 ⟨[], by rw [hcode]; simp⟩

/-- C9 (amended): with at least two letters, positive frequencies and the
Kraft sum equal to 1, whenever `l < r` every nonempty bucket of the corrected
partition spans a closed sub-range `[min, max]` of `[l, r]` that is strictly
shorter than `[l, r]`, and the builder terminates on the full symbol range
(fuel `ns + 1` suffices). (As stated over every valid letter-cost vector the
claim fails: see the single-letter counterexample.) -/
theorem c9_termination_proper :
    (∀ (cost : List ℕ) (c : ℚ) (freq : List ℚ) (l r : ℕ),
      2 ≤ cost.length → 0 < c → csum cost c cost.length = 1 →
      (∀ k, k < freq.length → 0 < freq.getD k 0) →
      l < r → r < freq.length →
      ∃ parts, partitionsFixed cost c freq l r = some parts ∧
        parts.length = cost.length ∧
        ∀ e ∈ parts, e ≠ [] →
          ∃ a b, e.min? = some a ∧ e.max? = some b ∧
            l ≤ a ∧ a ≤ b ∧ b ≤ r ∧ b - a < r - l) ∧
    (∀ (cost : List ℕ) (c : ℚ) (freq : List ℚ) (ns : ℕ),
      2 ≤ cost.length → 0 < c → csum cost c cost.length = 1 →
      freq.length = ns → 2 ≤ ns →
      (∀ k, k < freq.length → 0 < freq.getD k 0) →
      ∃ acc, buildCode ns cost c freq = some acc) := by
  constructor
  · intro cost c freq l r hcost hc hK hpos hlr hr
    obtain ⟨parts, hpfix, hspan, hplen, hhead, hlast⟩ :=
      partitionsFixed_span cost c freq l r hcost hc hK hpos hlr hr
    refine ⟨parts, hpfix, hplen, ?_⟩
    intro e he hene
    obtain ⟨a, b, hmn, hmx, _, hla, hab, hbr, hprop⟩ :=
      span_parts_proper l r parts hspan (by omega) hhead hlast e he hene
    exact ⟨a, b, hmn, hmx, hla, hab, hbr, hprop⟩
  · intro cost c freq ns hcost hc hK hns hns2 hpos
    obtain ⟨news, hres, _, _, _, _⟩ :=
      codeAux_main cost c freq hcost hc hK hpos (ns + 1) 0 (ns - 1) [] []
        (by omega) (by omega) (by omega) (fun x _ _ => rfl)
    exact ⟨news ++ [], hres⟩

/-- The raw partition of the single-letter instance: one bucket holding the
whole symbol range. -/
lemma partsRaw_single :
    partitionsRaw [1] 1 [(1 : ℚ)/2, 1/2] 0 1 = [[0, 1]] := by
  have h0 : accu_freq2 [(1 : ℚ)/2, 1/2] 0 = 1/4 := by
    norm_num [accu_freq2, accu_freq]
  have h1 : accu_freq2 [(1 : ℚ)/2, 1/2] 1 = 3/4 := by
    norm_num [accu_freq2, accu_freq]
  have hlmv : lmv [1] 1 0 (accu_freq [(1 : ℚ)/2, 1/2] 1) 0 = 0 := by
    norm_num [lmv, csum]
  have hrmv : rmv [1] 1 0 (accu_freq [(1 : ℚ)/2, 1/2] 1) 0 = 1 := by
    norm_num [rmv, lmv, csum, accu_freq]
  show (List.range 1).map
      (fun m => bucket [1] 1 [(1 : ℚ)/2, 1/2] 0 1
        (if (0 : ℕ) = 0 then 0 else accu_freq [(1 : ℚ)/2, 1/2] (0 - 1))
        (accu_freq [(1 : ℚ)/2, 1/2] 1) m) = [[0, 1]]
  rw [show List.range 1 = [0] from rfl, List.map_cons, List.map_nil,
    if_pos rfl]
  unfold bucket
  rw [show (1 + 1 - 0 : ℕ) = 2 from rfl,
    show List.range' 0 2 = [0, 1] from rfl]
  rw [List.filter_cons, List.filter_cons, List.filter_nil]
  rw [if_pos (by rw [Bool.and_eq_true, decide_eq_true_eq, decide_eq_true_eq,
    hlmv, hrmv, h0]; norm_num)]
  rw [if_pos (by rw [Bool.and_eq_true, decide_eq_true_eq, decide_eq_true_eq,
    hlmv, hrmv, h1]; norm_num)]

lemma partsFixed_single :
    partitionsFixed [1] 1 [(1 : ℚ)/2, 1/2] 0 1 = some [[0, 1]] := by
  rw [show partitionsFixed [1] 1 [(1 : ℚ)/2, 1/2] 0 1 =
      (fixFirst 0 (partitionsRaw [1] 1 [(1 : ℚ)/2, 1/2] 0 1)).bind
        (fun p1 => fixLast 1 p1) from rfl, partsRaw_single]
  rfl

/-- On the single-letter instance the unique bucket is the whole range and
the recursion never shrinks: with any fuel the builder diverges. -/
lemma codeAux_single_letter_loop :
    ∀ (fuel : ℕ) (pre : List ℕ) (acc : List (ℕ × List ℕ)),
      codeAux [1] 1 [(1 : ℚ)/2, 1/2] fuel 0 1 pre acc = none := by
  intro fuel
  induction fuel with
  | zero => intro pre acc; rfl
  | succ fuel ihf =>
    intro pre acc
    rw [show codeAux [1] 1 [(1 : ℚ)/2, 1/2] (fuel + 1) 0 1 pre acc =
        (if (0 : ℕ) = 1 then set_code acc 0 pre
         else match partitionsFixed [1] 1 [(1 : ℚ)/2, 1/2] 0 1 with
           | none => none
           | some parts => parts.enum.foldlM (fun a e =>
               if e.2.isEmpty then some a
               else match e.2.min?, e.2.max? with
                 | some mn, some mx =>
                   codeAux [1] 1 [(1 : ℚ)/2, 1/2] fuel mn mx (pre ++ [e.1]) a
                 | _, _ => none) acc) from rfl]
    rw [if_neg (by omega), partsFixed_single]
    rw [show (match some [[0, 1]] with
        | none => none
        | some parts => parts.enum.foldlM (fun a e =>
            if e.2.isEmpty then some a
            else match e.2.min?, e.2.max? with
              | some mn, some mx =>
                codeAux [1] 1 [(1 : ℚ)/2, 1/2] fuel mn mx (pre ++ [e.1]) a
              | _, _ => none) acc) =
        ((codeAux [1] 1 [(1 : ℚ)/2, 1/2] fuel 0 1 (pre ++ [0]) acc).bind
          (fun a => some a)) from rfl]
    rw [ihf]
    rfl

/-- C2 counterexample: the single-letter cost vector `[1]` with root `c = 1`
satisfies the Kraft equation, and the frequency distribution `[1/2, 1/2]` is
positive, yet the builder diverges (its unique bucket is the full range), so
no symbol ever receives a code. -/
theorem c2_counterexample :
    csum [1] 1 1 = 1 ∧
    (∀ k, k < ([(1 : ℚ)/2, 1/2] : List ℚ).length →
      0 < ([(1 : ℚ)/2, 1/2] : List ℚ).getD k 0) ∧
    buildCode 2 [1] 1 [(1 : ℚ)/2, 1/2] = none := by
  refine ⟨by norm_num [csum, List.range_succ], ?_, ?_⟩
  · intro k hk
    rcases k with _ | _ | k
    · norm_num
    · norm_num
    · simp at hk
      omega
  · exact codeAux_single_letter_loop 3 [] []

/-- C9 counterexample: on the single-letter instance the unique bucket of the
corrected partition is the whole range `[0, 1]` — not a proper sub-range — and
the recursion never terminates, with any fuel. -/
theorem c9_counterexample :
    csum [1] 1 1 = 1 ∧
    partitionsFixed [1] 1 [(1 : ℚ)/2, 1/2] 0 1 = some [[0, 1]] ∧
    ([0, 1] : List ℕ).min? = some 0 ∧ ([0, 1] : List ℕ).max? = some 1 ∧
    (∀ fuel pre acc,
      codeAux [1] 1 [(1 : ℚ)/2, 1/2] fuel 0 1 pre acc = none) := by
  refine ⟨by norm_num [csum, List.range_succ], partsFixed_single, by rfl,
    by rfl, codeAux_single_letter_loop⟩

theorem c2_builder_codes_witness :
    ∃ acc, buildCode 2 [1, 1] (1/2) [(1 : ℚ)/2, 1/2] = some acc ∧
      (∀ x, x < 2 → ∃ cd, (x, cd) ∈ acc) ∧
      (∀ e ∈ acc, e.1 < 2) ∧
      (acc.map Prod.fst).Nodup ∧
      (∀ e ∈ acc, e.2 ≠ []) ∧
      (∀ e ∈ acc, ∀ e2 ∈ acc, e.2 = e2.2 → e = e2) ∧
      (∀ e ∈ acc, ∀ e2 ∈ acc, e.2 <+: e2.2 → e = e2) :=
  c2_builder_codes [1, 1] (1/2) [(1 : ℚ)/2, 1/2] 2 (by norm_num)
    (by norm_num) (by norm_num [csum, List.range_succ]) rfl (by norm_num)
    (by
      intro k hk
      rcases k with _ | _ | k
      · norm_num
      · norm_num
      · simp at hk
        omega)

theorem c9_termination_proper_witness :
    (∃ parts, partitionsFixed [1, 1] (1/2) [(1 : ℚ)/2, 1/2] 0 1 = some parts ∧
      parts.length = 2 ∧
      ∀ e ∈ parts, e ≠ [] →
        ∃ a b, e.min? = some a ∧ e.max? = some b ∧
          0 ≤ a ∧ a ≤ b ∧ b ≤ 1 ∧ b - a < 1 - 0) ∧
    (∃ acc, buildCode 2 [1, 1] (1/2) [(1 : ℚ)/2, 1/2] = some acc) := by
  have hpos : ∀ k, k < ([(1 : ℚ)/2, 1/2] : List ℚ).length →
      0 < ([(1 : ℚ)/2, 1/2] : List ℚ).getD k 0 := by
    intro k hk
    rcases k with _ | _ | k
    · norm_num
    · norm_num
    · simp at hk
      omega
  exact ⟨c9_termination_proper.1 [1, 1] (1/2) [(1 : ℚ)/2, 1/2] 0 1
      (by norm_num) (by norm_num) (by norm_num [csum, List.range_succ]) hpos
      (by norm_num) (by norm_num),
    c9_termination_proper.2 [1, 1] (1/2) [(1 : ℚ)/2, 1/2] 2 (by norm_num)
      (by norm_num) (by norm_num [csum, List.range_succ]) rfl (by norm_num)
      hpos⟩

end encoding

namespace jimi

/-- C5 (amended): `JimiEncoding::new` derives each letter's cost as the UTF-8
byte length (`String::len`) of its token — which equals the character count
only when every character is a single UTF-8 byte — and builds the `Encoding`
from exactly that cost vector and the given frequency distribution. -/
theorem c5_letter_costs (tokens : List (List Char)) (c : ℚ) (ns : ℕ)
    (freq : List ℚ) :
    jimiLetterCosts tokens = tokens.map (fun t => (t.map Char.utf8Size).sum) ∧
    jimiEncodingNew tokens c ns freq =
      encoding.buildCode ns (jimiLetterCosts tokens) c freq ∧
    ∀ t : List Char, (∀ ch ∈ t, Char.utf8Size ch = 1) → rustStrLen t = t.length := by
  refine ⟨rfl, rfl, ?_⟩
  intro t h
  induction t with
  | nil => rfl
  | cons ch t ih =>
    have h1 : Char.utf8Size ch = 1 := h ch (by simp)
    have h2 : rustStrLen t = t.length := ih (fun x hx => h x (by simp [hx]))
    unfold rustStrLen at h2 ⊢
    rw [List.map_cons, List.sum_cons, h1, h2, List.length_cons]
    omega

/-- Witness for C5 at a concrete ASCII token table. -/
theorem c5_letter_costs_witness :
    jimiLetterCosts [['a', 'b']] = [['a', 'b']].map (fun t => (t.map Char.utf8Size).sum) ∧
    rustStrLen ['a', 'b'] = (['a', 'b'] : List Char).length :=
  ⟨(c5_letter_costs [['a', 'b']] 0 0 []).1,
   (c5_letter_costs [['a', 'b']] 0 0 []).2.2 ['a', 'b'] (by decide)⟩

/-- Counterexample to C5 as stated: for the CJK token `哈基米` the derived
cost is its UTF-8 byte length 9, not its character count 3. -/
theorem c5_counterexample :
    jimiLetterCosts [['哈', '基', '米']] = [9] ∧
    specLetterCosts [['哈', '基', '米']] = [3] ∧
    jimiLetterCosts [['哈', '基', '米']] ≠ specLetterCosts [['哈', '基', '米']] := by
  refine ⟨by decide, by decide, by decide⟩


open lexing bits

/-! #### Claim C1: the byte → token text → byte round trip -/

lemma enum_eta {α : Type _} (l : List α) :
    l.enum.map (fun e => (e.1, e.2)) = l.enum := by simp

lemma enum_getD_mem {α : Type _} (l : List α) (d : α) (i : ℕ)
    (h : i < l.length) : (i, l.getD i d) ∈ l.enum := by
  apply List.mem_enum_iff_getElem?.2
  rw [List.getD_eq_getElem?_getD, List.getElem?_eq_getElem h]
  rfl

lemma enum_inv {α : Type _} {l : List α} {p : ℕ × α} (hp : p ∈ l.enum) (d : α) :
    p.1 < l.length ∧ l.getD p.1 d = p.2 ∧ p.2 ∈ l := by
  have h1 := List.mem_enum_iff_getElem?.1 hp
  obtain ⟨hlt, he⟩ := List.getElem?_eq_some.1 h1
  refine ⟨hlt, ?_, ?_⟩
  · rw [List.getD_eq_getElem?_getD, h1]
    rfl
  · rw [← he]
    exact List.getElem_mem hlt

/-- C1: with a well-formed encoding — nonempty tokens whose set is
prefix-free (so in particular duplicate-free), and a nonempty prefix-free
code table whose letters all name tokens — the `StringLexer` and the
letter-level decoder tries build successfully, and for every byte sequence
and every supported symbol width (8, 4 and 6 bits, provided the width's
symbol stream stays inside the code table, as the Rust `BitsMap` guarantees
by construction), decoding the encoded token text with `decode_to_vec` and
truncating to the original byte count returns exactly the original bytes. -/
theorem c1_round_trip (tokens : List (List Char)) (char2code : List (List ℕ))
    (htokne : ∀ t ∈ tokens, t ≠ [])
    (htokpf : ∀ i, i < tokens.length → ∀ j, j < tokens.length →
      tokens.getD i [] <+: tokens.getD j [] → i = j)
    (htok0 : tokens ≠ [])
    (hcodene : ∀ cd ∈ char2code, cd ≠ [])
    (hcodepf : ∀ i, i < char2code.length → ∀ j, j < char2code.length →
      char2code.getD i [] <+: char2code.getD j [] → i = j)
    (hcode0 : char2code ≠ [])
    (hletters : ∀ cd ∈ char2code, ∀ i ∈ cd, i < tokens.length) :
    ∃ lexT decT,
      stringLexerNew tokens = Except.ok lexT ∧
      decoderNew tokens.length char2code = Except.ok decT ∧
      ∀ bytes : List ℕ, (∀ b ∈ bytes, b < 256) →
        ((∀ s ∈ iterBytes8 bytes, s < char2code.length) →
          ∃ out, decode_to_vec8 lexT decT
              (encodeText char2code tokens (iterBytes8 bytes)) =
              Except.ok out ∧ out.take bytes.length = bytes) ∧
        ((∀ s ∈ iterBytes4 bytes, s < char2code.length) →
          ∃ out, decode_to_vec4 lexT decT
              (encodeText char2code tokens (iterBytes4 bytes)) =
              Except.ok out ∧ out.take bytes.length = bytes) ∧
        ((∀ s ∈ iterBytes6 bytes, s < char2code.length) →
          ∃ out, decode_to_vec6 lexT decT
              (encodeText char2code tokens (iterBytes6 bytes)) =
              Except.ok out ∧ out.take bytes.length = bytes) := by
  have hneT : ∀ p ∈ tokens.enum, p.2 ≠ [] := fun p hp =>
    htokne p.2 (enum_inv hp []).2.2
  have hcovT : ∀ p ∈ tokens.enum, ∀ c ∈ p.2, c ∈ charsOf tokens := by
    intro p hp c hc
    exact List.mem_dedup.2 (List.mem_flatten.2 ⟨p.2, (enum_inv hp []).2.2, hc⟩)
  have hndT : (charsOf tokens).Nodup := List.nodup_dedup _
  have hpfT : ∀ p ∈ tokens.enum, ∀ q ∈ tokens.enum, p.2 <+: q.2 → p = q := by
    intro p hp q hq hpre
    obtain ⟨hplt, hpe, _⟩ := enum_inv hp ([] : List Char)
    obtain ⟨hqlt, hqe, _⟩ := enum_inv hq ([] : List Char)
    have hij : p.1 = q.1 := htokpf p.1 hplt q.1 hqlt (by rw [hpe, hqe]; exact hpre)
    have h2 : p.2 = q.2 := by rw [← hpe, ← hqe, hij]
    exact Prod.ext hij h2
  have hpneT : tokens.enum ≠ [] := fun hc => htok0 (List.enum_eq_nil.1 hc)
  obtain ⟨lexT, hlexok, hlwalk⟩ := build_tree_pf_ok tokens.enum (charsOf tokens)
    hneT hcovT hndT hpfT hpneT
  have hneC : ∀ p ∈ char2code.enum, p.2 ≠ [] := fun p hp =>
    hcodene p.2 (enum_inv hp []).2.2
  have hcovC : ∀ p ∈ char2code.enum, ∀ i ∈ p.2, i ∈ List.range tokens.length := by
    intro p hp i hi
    exact List.mem_range.2 (hletters p.2 (enum_inv hp []).2.2 i hi)
  have hndC : (List.range tokens.length).Nodup := List.nodup_range _
  have hpfC : ∀ p ∈ char2code.enum, ∀ q ∈ char2code.enum, p.2 <+: q.2 → p = q := by
    intro p hp q hq hpre
    obtain ⟨hplt, hpe, _⟩ := enum_inv hp ([] : List ℕ)
    obtain ⟨hqlt, hqe, _⟩ := enum_inv hq ([] : List ℕ)
    have hij : p.1 = q.1 := hcodepf p.1 hplt q.1 hqlt (by rw [hpe, hqe]; exact hpre)
    have h2 : p.2 = q.2 := by rw [← hpe, ← hqe, hij]
    exact Prod.ext hij h2
  have hpneC : char2code.enum ≠ [] := fun hc => hcode0 (List.enum_eq_nil.1 hc)
  obtain ⟨decT, hdecok, hdwalk⟩ := build_tree_pf_ok char2code.enum
    (List.range tokens.length) hneC hcovC hndC hpfC hpneC
  refine ⟨lexT, decT, ?_, ?_, ?_⟩
  · show build_tree (tokens.enum.map (fun e => (e.1, e.2))) (charsOf tokens) =
      Except.ok lexT
    rw [enum_eta]
    exact hlexok
  · show build_tree (char2code.enum.map (fun e => (e.1, e.2)))
      (List.range tokens.length) = Except.ok decT
    rw [enum_eta]
    exact hdecok
  · intro bytes hbb
    have main : ∀ syms : List ℕ, (∀ s ∈ syms, s < char2code.length) →
        decode_to_bits lexT decT (encodeText char2code tokens syms) =
          syms.map Except.ok := by
      intro syms hs
      have hwalkC : ∀ s ∈ syms,
          walkT decT (char2code.getD s []) = some (Tree.leaf s) := by
        intro s hsm
        exact hdwalk (s, char2code.getD s [])
          (enum_getD_mem char2code [] s (hs s hsm))
      have hlmem : ∀ l ∈ (syms.map (fun s => char2code.getD s [])).flatten,
          l < tokens.length := by
        intro l hl
        rw [List.mem_flatten] at hl
        obtain ⟨cd, hcd, hlcd⟩ := hl
        rw [List.mem_map] at hcd
        obtain ⟨s, hsm, rfl⟩ := hcd
        have hcmem : char2code.getD s [] ∈ char2code := by
          rw [List.getD_eq_getElem?_getD, List.getElem?_eq_getElem (hs s hsm)]
          exact List.getElem_mem (hs s hsm)
        exact hletters _ hcmem l hlcd
      have hwalkT : ∀ l ∈ (syms.map (fun s => char2code.getD s [])).flatten,
          walkT lexT (tokens.getD l []) = some (Tree.leaf l) := by
        intro l hl
        exact hlwalk (l, tokens.getD l [])
          (enum_getD_mem tokens [] l (hlmem l hl))
      have hshape : encodeText char2code tokens syms =
          (((syms.map (fun s => char2code.getD s [])).flatten).map
            (fun l => tokens.getD l [])).flatten := by
        unfold encodeText encode_bits
        exact flatten_map_flatten _ _ syms
      unfold decode_to_bits
      rw [hshape, lexOnce_flat lexT (fun l => tokens.getD l [])
        ((syms.map (fun s => char2code.getD s [])).flatten) hwalkT]
      exact lexOnceE_flat decT (fun s => char2code.getD s []) syms hwalkC
    refine ⟨?_, ?_, ?_⟩
    · intro hs8
      refine ⟨bytes, ?_, List.take_length bytes⟩
      unfold decode_to_vec8
      rw [main (iterBytes8 bytes) hs8]
      have h := concat8_map_ok (E := Error ℕ (Error Char Empty))
        (iterBytes8 bytes) []
      simpa [iterBytes8] using h
    · intro hs4
      refine ⟨bytes, ?_, List.take_length bytes⟩
      unfold decode_to_vec4
      rw [main (iterBytes4 bytes) hs4]
      have h := concat4_iter (E := Error ℕ (Error Char Empty)) bytes hbb []
      simpa using h
    · intro hs6
      refine ⟨pad 6 bytes, ?_, pad_six_take bytes⟩
      unfold decode_to_vec6
      rw [main (iterBytes6 bytes) hs6]
      have h := concat6_iter (E := Error ℕ (Error Char Empty)) bytes hbb []
      simpa using h

/-- Witness for C1: a two-token table with the eight 3-letter binary codes
round-trips the byte sequence `[0, 1]` at every width. -/
theorem c1_round_trip_witness :
    ∃ lexT decT,
      stringLexerNew [['a'], ['b']] = Except.ok lexT ∧
      decoderNew ([['a'], ['b']] : List (List Char)).length
        [[0, 0, 0], [0, 0, 1], [0, 1, 0], [0, 1, 1],
         [1, 0, 0], [1, 0, 1], [1, 1, 0], [1, 1, 1]] = Except.ok decT ∧
      (∃ out, decode_to_vec8 lexT decT
          (encodeText [[0, 0, 0], [0, 0, 1], [0, 1, 0], [0, 1, 1],
            [1, 0, 0], [1, 0, 1], [1, 1, 0], [1, 1, 1]] [['a'], ['b']]
            (iterBytes8 [0, 1])) = Except.ok out ∧ out.take 2 = [0, 1]) ∧
      (∃ out, decode_to_vec4 lexT decT
          (encodeText [[0, 0, 0], [0, 0, 1], [0, 1, 0], [0, 1, 1],
            [1, 0, 0], [1, 0, 1], [1, 1, 0], [1, 1, 1]] [['a'], ['b']]
            (iterBytes4 [0, 1])) = Except.ok out ∧ out.take 2 = [0, 1]) ∧
      (∃ out, decode_to_vec6 lexT decT
          (encodeText [[0, 0, 0], [0, 0, 1], [0, 1, 0], [0, 1, 1],
            [1, 0, 0], [1, 0, 1], [1, 1, 0], [1, 1, 1]] [['a'], ['b']]
            (iterBytes6 [0, 1])) = Except.ok out ∧ out.take 2 = [0, 1]) := by
  obtain ⟨lexT, decT, h1, h2, h⟩ := c1_round_trip [['a'], ['b']]
    [[0, 0, 0], [0, 0, 1], [0, 1, 0], [0, 1, 1],
     [1, 0, 0], [1, 0, 1], [1, 1, 0], [1, 1, 1]]
    (by decide) (by decide) (by decide) (by decide) (by decide) (by decide)
    (by decide)
  obtain ⟨h8, h4, h6⟩ := h [0, 1] (by decide)
  exact ⟨lexT, decT, h1, h2, h8 (by decide), h4 (by decide), h6 (by decide)⟩

end jimi

end Hajiman
